import Mathlib

/-!
# cd-CAP `motif.cpp`: the level-wise colored-subnetwork enumerator

A shallow embedding of `src/motif.cpp`:

* `PatientBitmask` (lines 30-103): a fixed-capacity bit vector over 64-bit words with a
  running population count;
* the global catalogs `samples`, `genes`, `alterations`, the graph `G` and the table
  `geneAlterations` (lines 124-142), gathered in `Globals`;
* the seeding and growth phases shared by `solveMaxNetworkSize` (lines 500-598) and
  `solveMaxColorfulNetwork` (lines 792-907);
* the readers `readUndirectedNetwork` (lines 178-245) and `readAlterationProfiles`
  (lines 250-303), as functions of the tokens that `fscanf` reads;
* the support table of `runILPSolverMaxNetworkSize` (lines 364-369) and the input check of
  `main` (lines 950-970).

Modelling conventions.

* `int`, `size_t` values that are never negative (indices, identifiers, positions) are `Nat`;
  `minPatientSupport`, `sum` and `PatientBitmask::size` are `Int`, so the comparisons
  `sum >= minPatientSupport` behave as in the source for thresholds `<= 0`.
* `std::set<colored_node>` is `Finset (Nat × Nat)`: equality is equality of element sets.
* `std::unordered_map` is an association list with unique keys.  Its iteration order is
  unspecified in C++; every loop over `subNetwork[...]` iterates in the order chosen by an
  arbitrary `IterOrder`, a permutation of the stored entries.
* The table `color_count` of the two enumerator functions is a variable-length array whose
  initialiser leaves the cells `[0][c]`, `c >= 1`, as they are on the stack; their content
  is the field `staleCells` of the state, and theorems on a state `g` hold for every content.
* `exit(0)` and a dereferenced null pointer are `none`; the `while (true)` loop takes fuel.
  In `readAlterationProfiles` an array index out of bounds and a shift of an `int` by 32 or
  more, both undefined in C++, are `none` as well.
-/

namespace Motif

/-! ## Colored nodes -/

/-- The source's `typedef std::pair<int, int> colored_node`: (gene index, color id). -/
abbrev colored_node := Nat × Nat

/-- The source's `typedef std::set<colored_node> colored_node_set`. -/
abbrev colored_node_set := Finset colored_node

/-! ## PatientBitmask -/

/-- The builtin `__builtin_popcountll` on a 64-bit word. -/
def popcountll (x : Nat) : Nat := (List.range 64).countP (fun b => x.testBit b)

/-- The source's `struct PatientBitmask`; `bits` holds the `len` words of the array. -/
structure PatientBitmask where
  maxSize : Nat
  size : Int
  len : Nat
  bits : List Nat

instance : DecidableEq PatientBitmask := fun a b =>
  decidable_of_iff (a.maxSize = b.maxSize ∧ a.size = b.size ∧ a.len = b.len ∧ a.bits = b.bits)
    (by cases a; cases b; simp)

namespace PatientBitmask

/-- Constructor `PatientBitmask(int maxSize)`: `len = ceil(maxSize / 64.0)` zero words. -/
def new (maxSize : Nat) : PatientBitmask :=
  { maxSize := maxSize, size := 0, len := (maxSize + 63) / 64,
    bits := List.replicate ((maxSize + 63) / 64) 0 }

/-- Constructor `PatientBitmask(PatientBitmask *Q)`: a deep copy of the `len` words. -/
def copy (Q : PatientBitmask) : PatientBitmask :=
  { maxSize := Q.maxSize, size := Q.size, len := Q.len,
    bits := (List.range Q.len).map (fun i => Q.bits.getD i 0) }

/-- Method `getBit`: `none` is the fatal exit on `idx >= len`. -/
def getBit (P : PatientBitmask) (pos : Nat) : Option Bool :=
  let idx := pos / 64
  if idx ≥ P.len then none
  else
    let bitIdx := pos % 64
    some (P.bits.getD idx 0 &&& (1 <<< bitIdx) != 0)

/-- Method `setBit`: `none` is the fatal exit on `idx >= len`. -/
def setBit (P : PatientBitmask) (pos : Nat) (val : Bool) : Option PatientBitmask :=
  let idx := pos / 64
  if idx ≥ P.len then none
  else
    let bitIdx := pos % 64
    match P.getBit pos with
    | none => none
    | some oldVal =>
      if oldVal ^^ val then
        let bits := P.bits.set idx (P.bits.getD idx 0 ^^^ (1 <<< bitIdx))
        if val then some { P with bits := bits, size := P.size + 1 }
        else some { P with bits := bits, size := P.size - 1 }
      else some P

/-- Method `getSize`. -/
def getSize (P : PatientBitmask) : Int := P.size

/-- Method `mergeBitmask`: word-wise AND with `Q`, recounting `size` word by word. -/
def mergeBitmask (P Q : PatientBitmask) : PatientBitmask :=
  (List.range P.len).foldl
    (fun A i =>
      let w := A.bits.getD i 0 &&& Q.bits.getD i 0
      { A with bits := A.bits.set i w, size := A.size + (popcountll w : Int) })
    { P with size := 0 }

end PatientBitmask

/-! ## Global state -/

/-- The source's `struct Entry`: a name catalog. -/
structure Entry where
  names : List String
  indices : List (String × Nat)

/-- The part of `struct Graph` read by the enumerator: `V` and, for each node, the entries
(neighbour, position) of `idxInNeighbourList[node]` in the map's iteration order. -/
structure Graph where
  V : Nat
  idxInNeighbourList : Nat → List (Nat × Nat)

/-- The state an enumerator function starts from: the globals `samples`, `genes`,
`alterations`, `G` and `geneAlterations`, where `geneAlterations j i` is
`geneAlterations[j][i]`, which is `0` for an absent key; and `staleCells`, the content of
the stack where the table `color_count` is placed: `staleCells c` is the value of the cell
`color_count[0][c]`, `c >= 1`, when the counting loops start.  The table is a
variable-length array (lines 508 and 800), and its initialiser `= {0}` writes the cell
`[0][0]` and clears the rows `1` and above, but leaves the other cells of row `0` as they
are.  An input that does not give `staleCells` takes it to be `0` everywhere. -/
structure Globals where
  samples : Entry
  genes : Entry
  alterations : Entry
  G : Graph
  geneAlterations : Nat → Nat → Nat
  staleCells : Nat → Int := fun _ => 0

/-- The value `samples.indices.size()`. -/
def Globals.numSamples (g : Globals) : Nat := g.samples.indices.length

/-- The value `alterations.indices.size()`. -/
def Globals.numAlterations (g : Globals) : Nat := g.alterations.indices.length

/-! ## Association lists standing for `std::unordered_map` -/

/-- Lookup `m.find(k)`. -/
def umFind {κ ν : Type} [DecidableEq κ] : List (κ × ν) → κ → Option ν
  | [], _ => none
  | e :: m, k => if e.1 = k then some e.2 else umFind m k

/-- Call `m.insert({k, v})`: insert if absent; the flag is `result.second`. -/
def umInsert {κ ν : Type} [DecidableEq κ] (m : List (κ × ν)) (k : κ) (v : ν) :
    List (κ × ν) × Bool :=
  match umFind m k with
  | some _ => (m, false)
  | none => (m ++ [(k, v)], true)

/-- Assignment `m[k] = v`: overwrite or insert. -/
def umAssign {κ ν : Type} [DecidableEq κ] : List (κ × ν) → κ → ν → List (κ × ν)
  | [], k, v => [(k, v)]
  | e :: m, k, v => if e.1 = k then (k, v) :: m else e :: umAssign m k v

/-- An iteration order for `unordered_map<colored_node_set, int>`: some permutation of the
stored entries, the same at every traversal of an unchanged map. -/
structure IterOrder where
  iterate : List (colored_node_set × Nat) → List (colored_node_set × Nat)
  perm : ∀ m, (iterate m).Perm m

/-- Iteration in insertion order. -/
def IterOrder.insertion : IterOrder := ⟨fun m => m, fun m => List.Perm.refl m⟩

/-- Iteration in reverse insertion order. -/
def IterOrder.reversed : IterOrder := ⟨fun m => m.reverse, fun m => List.reverse_perm m⟩

/-! ## Seeding (lines 508-560, repeated at 800-850) -/

/-- The test `(mask & (1 << a)) != 0`. -/
def hasAlteration (mask a : Nat) : Bool := mask &&& (1 <<< a) != 0

/-- The table `color_count[j][c]` after the counting loops (lines 508-513): for `1 <= c <= nA`
the value the cell starts from, which is `staleCells c` in row `0` and `0` in the other
rows, plus one for every sample whose mask for gene `j` has bit `c - 1`; column `0` is
still `0`. -/
def color_count (g : Globals) (j c : Nat) : Int :=
  if c = 0 ∨ g.numAlterations < c then 0
  else (if j = 0 then g.staleCells c else 0) + ((List.range g.numSamples).countP
    (fun i => hasAlteration (g.geneAlterations j i) (c - 1)) : Nat)

/-- The table `color_count[j][c]` after thresholding (lines 518-526): a `1` in column
`c >= 1` marks a qualified color, a `1` in column `0` a node with some qualified color. -/
def colorFlag (g : Globals) (minPatientSupport : Int) (j c : Nat) : Int :=
  if c = 0 then
    if (List.range' 1 g.numAlterations).any (fun i => color_count g j i ≥ minPatientSupport)
    then 1 else 0
  else if color_count g j c ≥ minPatientSupport then 1 else 0

/-- One level of the enumerator: `subNetwork[k]` and `patientProfile[k]`. -/
structure Level where
  subNetwork : List (colored_node_set × Nat)
  patientProfile : List (Nat × PatientBitmask)

instance : DecidableEq Level := fun a b =>
  decidable_of_iff (a.subNetwork = b.subNetwork ∧ a.patientProfile = b.patientProfile)
    (by cases a; cases b; simp)

/-- The maps under construction in a loop, with the counter `valid`. -/
structure LevelState where
  subNetwork : List (colored_node_set × Nat)
  patientProfile : List (Nat × PatientBitmask)
  valid : Nat

/-- The level held by a finished state. -/
def LevelState.toLevel (st : LevelState) : Level := ⟨st.subNetwork, st.patientProfile⟩

/-- The insert-if-absent block (lines 553-557 and 578-582): on a fresh key the profile is
stored under identifier `valid` and `valid` is incremented. -/
def insertEntry (st : LevelState) (key : colored_node_set) (profile : PatientBitmask) :
    LevelState :=
  match umInsert st.subNetwork key st.valid with
  | (m, true) =>
    { subNetwork := m, patientProfile := umAssign st.patientProfile st.valid profile,
      valid := st.valid + 1 }
  | (_, false) => st

/-- Lines 540 and 546-551: the counter `sum` and the profile `profile_e_k_l` of the colored
edge `(j, k) - (nb, l)`. -/
def seedProfile (g : Globals) (j k nb l : Nat) : Option (Int × PatientBitmask) :=
  (List.range g.numSamples).foldlM
    (fun (acc : Int × PatientBitmask) m =>
      if hasAlteration (g.geneAlterations j m) (k - 1) &&
          hasAlteration (g.geneAlterations nb m) (l - 1) then
        (acc.2.setBit m true).map (fun P => (acc.1 + 1, P))
      else some acc)
    (0, PatientBitmask.new g.numSamples)

/-- The iterations `(j, index.first, k, l)` of the loop nest at lines 533-539 whose guards
hold, in loop order. -/
def seedTuples (g : Globals) (minPatientSupport : Int) : List (Nat × Nat × Nat × Nat) :=
  (List.range g.G.V).flatMap fun j =>
    if colorFlag g minPatientSupport j 0 = 1 then
      (g.G.idxInNeighbourList j).flatMap fun index =>
        if colorFlag g minPatientSupport index.1 0 = 1 ∧ index.1 > j then
          (List.range' 1 g.numAlterations).flatMap fun k =>
            (List.range' 1 g.numAlterations).flatMap fun l =>
              if colorFlag g minPatientSupport j k = 1 ∧
                  colorFlag g minPatientSupport index.1 l = 1 then [(j, index.1, k, l)]
              else []
        else []
    else []

/-- The loop body at lines 540-558. -/
def seedBody (g : Globals) (minPatientSupport : Int) (st : LevelState)
    (t : Nat × Nat × Nat × Nat) : Option LevelState :=
  match seedProfile g t.1 t.2.2.1 t.2.1 t.2.2.2 with
  | none => none
  | some (sum, profile_e_k_l) =>
    let edge : colored_node_set := insert (t.2.1, t.2.2.2) (insert (t.1, t.2.2.1) ∅)
    if sum ≥ minPatientSupport then some (insertEntry st edge profile_e_k_l)
    else some st

/-- Level 0 as built by lines 532-559. -/
def seedLevel (g : Globals) (minPatientSupport : Int) : Option Level :=
  ((seedTuples g minPatientSupport).foldlM (seedBody g minPatientSupport) ⟨[], [], 0⟩).map
    LevelState.toLevel

/-! ## Growth (lines 563-598, and 853-907 with the colorfulness test) -/

/-- The colorfulness test of `solveMaxColorfulNetwork` (lines 866-884).  In the plain mode
the candidate needs two distinct color ids.  In the mode with `exprout_inclusive_` the five
counters `color_count[0..4]` are filled from the candidate (a write past slot 4 is undefined
in C++ and dropped here), slots `0..3` other than `alterations.indices["EXPROUT"]` (which
is `0` for an absent key) are added to slot 4, and slot 4 must be 1 or 2. -/
def colorful_test (g : Globals) (exprout_inclusive_ : Bool) (candidate : colored_node_set) :
    Bool :=
  if !exprout_inclusive_ then
    decide ((candidate.image Prod.snd).card ≥ 2)
  else
    let color_count : Nat → Nat := fun i => (candidate.filter (fun node => node.2 - 1 = i)).card
    let exprout := (umFind g.alterations.indices "EXPROUT").getD 0
    let total := color_count 4 +
      (((List.range 4).filter (fun i => i ≠ exprout)).map color_count).sum
    decide (total > 0 ∧ total ≤ 2)

/-- The pairs `(s1, s2)` visited by the loops at lines 570-571. -/
def growPairs (o : IterOrder) (prev seed : Level) :
    List ((colored_node_set × Nat) × (colored_node_set × Nat)) :=
  (o.iterate prev.subNetwork).flatMap fun s1 => (o.iterate seed.subNetwork).map fun s2 => (s1, s2)

/-- The loop body at lines 572-584 (and 861-892): `test` is the colorfulness test, constantly
`true` in `solveMaxNetworkSize`.  A missing profile is a null pointer: `none`. -/
def growBody (minPatientSupport : Int) (test : colored_node_set → Bool) (network_size : Nat)
    (prev seed : Level) (st : LevelState)
    (s : (colored_node_set × Nat) × (colored_node_set × Nat)) : Option LevelState :=
  let candidate : colored_node_set := s.1.1 ∪ s.2.1
  if candidate.card = network_size + 2 then
    match umFind prev.patientProfile s.1.2, umFind seed.patientProfile s.2.2 with
    | some p1, some p2 =>
      let profile_candidate := (PatientBitmask.copy p1).mergeBitmask p2
      if test candidate && decide (profile_candidate.getSize ≥ minPatientSupport) then
        some (insertEntry st candidate profile_candidate)
      else some st
    | _, _ => none
  else some st

/-- One pass of the `while` body: the maps `nextsubNetwork`, `nextpatientProfile` built from
`subNetwork[network_size - 1]` and `subNetwork[0]`. -/
def growStep (o : IterOrder) (minPatientSupport : Int) (test : colored_node_set → Bool)
    (network_size : Nat) (prev seed : Level) : Option Level :=
  ((growPairs o prev seed).foldlM (growBody minPatientSupport test network_size prev seed)
    ⟨[], [], 0⟩).map LevelState.toLevel

/-- The `while (true)` loop at lines 564-598: `levels` are the vectors `subNetwork` and
`patientProfile`; the result is their value at the `break`. -/
def growLoop (o : IterOrder) (minPatientSupport : Int) (test : colored_node_set → Bool) :
    Nat → List Level → Nat → Option (List Level)
  | 0, _, _ => none
  | fuel + 1, levels, network_size =>
    match levels[network_size - 1]?, levels[0]? with
    | some prev, some seed =>
      match growStep o minPatientSupport test network_size prev seed with
      | none => none
      | some next =>
        if next.subNetwork.isEmpty then some levels
        else growLoop o minPatientSupport test fuel (levels ++ [next]) (network_size + 1)
    | _, _ => none

/-- Seeding followed by the growth loop, for a colorfulness test `test`. -/
def enumerate (o : IterOrder) (g : Globals) (minPatientSupport : Int)
    (test : colored_node_set → Bool) (fuel : Nat) : Option (List Level) :=
  match seedLevel g minPatientSupport with
  | none => none
  | some level0 => growLoop o minPatientSupport test fuel [level0] 1

/-- The levels held by `solveMaxNetworkSize(minPatientSupport)` when its loop breaks. -/
def solveMaxNetworkSize (o : IterOrder) (g : Globals) (minPatientSupport : Int) (fuel : Nat) :
    Option (List Level) :=
  enumerate o g minPatientSupport (fun _ => true) fuel

/-- The levels held by `solveMaxColorfulNetwork(minPatientSupport, exprout_inclusive_)` when
its loop breaks. -/
def solveMaxColorfulNetwork (o : IterOrder) (g : Globals) (minPatientSupport : Int)
    (exprout_inclusive_ : Bool) (fuel : Nat) : Option (List Level) :=
  enumerate o g minPatientSupport (colorful_test g exprout_inclusive_) fuel

/-! ## Specification vocabulary -/

/-- Sample `m` exhibits every (gene, color) requirement of `S`: for each colored node
`(gene, c)` of `S` the mask `geneAlterations[gene][m]` has bit `c - 1`. -/
def exhibits (g : Globals) (S : colored_node_set) (m : Nat) : Bool :=
  decide (∀ node ∈ S, (g.geneAlterations node.1 m).testBit (node.2 - 1) = true)

/-- The joint support of `S`: the number of samples that exhibit all of `S`. -/
def jointSupport (g : Globals) (S : colored_node_set) : Nat :=
  (List.range g.numSamples).countP (exhibits g S)

/-- The value `support(gene, c)` for a color id `c >= 1`: the number of samples whose mask
for `gene` has bit `c - 1`. -/
def support (g : Globals) (gene c : Nat) : Nat :=
  (List.range g.numSamples).countP (fun m => (g.geneAlterations gene m).testBit (c - 1))

/-- None of the cells of `color_count` that the initialiser leaves out holds a negative
value, so that no count of row `0` falls below the support it counts. -/
def Globals.staleNonneg (g : Globals) : Prop := ∀ c, 0 ≤ g.staleCells c

/-- Node `b` is a key of `idxInNeighbourList[a]`, for a node `a` of the graph. -/
def Graph.adjacent (G : Graph) (a b : Nat) : Prop :=
  a < G.V ∧ ∃ p ∈ G.idxInNeighbourList a, p.1 = b

/-- The undirected edge relation of the graph. -/
def Graph.edge (G : Graph) (a b : Nat) : Prop := G.adjacent a b ∨ G.adjacent b a

/-- Every edge is listed at both endpoints, as `readUndirectedNetwork` builds the lists. -/
def Graph.symmetric (G : Graph) : Prop := ∀ a b, G.adjacent a b → G.adjacent b a

/-- The genes of a colored node set. -/
def genesOf (S : colored_node_set) : Finset Nat := S.image Prod.fst

/-- The nodes `T` induce a connected subgraph: `T` is not empty and any two of its nodes
are joined by a path of graph edges that stays inside `T`. -/
def Graph.connectedOn (G : Graph) (T : Finset Nat) : Prop :=
  T.Nonempty ∧ ∀ u ∈ T, ∀ v ∈ T,
    Relation.ReflTransGen (fun a b => a ∈ T ∧ b ∈ T ∧ G.edge a b) u v

/-- No gene occurs twice in `S`. -/
def distinctGenes (S : colored_node_set) : Prop := ∀ x ∈ S, ∀ y ∈ S, x.1 = y.1 → x = y

instance (S : colored_node_set) : Decidable (distinctGenes S) :=
  inferInstanceAs (Decidable (∀ x ∈ S, ∀ y ∈ S, x.1 = y.1 → x = y))

/-- Every color id of `S` indexes the alteration catalog (1-based). -/
def validColors (g : Globals) (S : colored_node_set) : Prop :=
  ∀ node ∈ S, 1 ≤ node.2 ∧ node.2 ≤ g.numAlterations

instance (g : Globals) (S : colored_node_set) : Decidable (validColors g S) :=
  inferInstanceAs (Decidable (∀ node ∈ S, 1 ≤ node.2 ∧ node.2 ≤ g.numAlterations))

/-- The keys of a level. -/
def Level.keys (L : Level) : List colored_node_set := L.subNetwork.map Prod.fst

/-- The set of distinct colored nodes that occur in the seeds of a level. -/
def seedNodes (L : Level) : Finset colored_node := L.keys.foldr (fun S U => S ∪ U) ∅

/-- The number `|U|` of distinct colored nodes that occur in the level-0 seeds. -/
def seedNodeCount (g : Globals) (minPatientSupport : Int) : Nat :=
  match seedLevel g minPatientSupport with
  | some L0 => (seedNodes L0).card
  | none => 0

/-- Bit `p` of a word array. -/
def bitAt (bits : List Nat) (p : Nat) : Bool := (bits.getD (p / 64) 0).testBit (p % 64)

/-- The mask `P` has capacity `n`, its set bits are the positions `p < m0` with `f p`, and
its running count is their number. -/
structure MaskUpTo (n m0 : Nat) (f : Nat → Bool) (P : PatientBitmask) : Prop where
  maxSize_eq : P.maxSize = n
  len_eq : P.len = (n + 63) / 64
  bits_len : P.bits.length = P.len
  bit_eq : ∀ p, bitAt P.bits p = (decide (p < m0) && f p)
  size_eq : P.size = ((List.range m0).countP f : Nat)

/-- The mask `P` represents the set of samples selected by `f`. -/
def MaskRep (n : Nat) (f : Nat → Bool) (P : PatientBitmask) : Prop := MaskUpTo n n f P

/-- The entry condition of a level: every key has a stored profile, and that profile
represents the set of samples that exhibit the key. -/
def LevelOK (g : Globals) (L : Level) : Prop :=
  ∀ e ∈ L.subNetwork, ∃ P, umFind L.patientProfile e.2 = some P ∧
    MaskRep g.numSamples (exhibits g e.1) P

/-- The same for the maps under construction, whose identifiers are all below `valid`. -/
def StateOK (g : Globals) (st : LevelState) : Prop :=
  ∀ e ∈ st.subNetwork, e.2 < st.valid ∧ ∃ P, umFind st.patientProfile e.2 = some P ∧
    MaskRep g.numSamples (exhibits g e.1) P

/-- The sequence of maps the loop computes: `levelAt 0` is level 0 and `levelAt (k + 1)` is
the `nextsubNetwork` / `nextpatientProfile` built from `levelAt k`, whether or not the loop
goes on to store it. -/
def levelAt (o : IterOrder) (g : Globals) (minPatientSupport : Int)
    (test : colored_node_set → Bool) : Nat → Option Level
  | 0 => seedLevel g minPatientSupport
  | k + 1 =>
    match levelAt o g minPatientSupport test k, seedLevel g minPatientSupport with
    | some prev, some seed => growStep o minPatientSupport test (k + 1) prev seed
    | _, _ => none

/-! ## Two small inputs -/

/-- A path `A - B - C` (genes 0, 1, 2), two samples, one alteration type carried by every
gene in both samples. -/
def pathGlobals : Globals :=
  { samples := ⟨["s0", "s1"], [("s0", 0), ("s1", 1)]⟩
    genes := ⟨["A", "B", "C"], [("A", 0), ("B", 1), ("C", 2)]⟩
    alterations := ⟨["MUT"], [("MUT", 0)]⟩
    G := ⟨3, fun j => if j = 0 then [(1, 0)] else if j = 1 then [(0, 0), (2, 1)]
      else if j = 2 then [(1, 0)] else []⟩
    geneAlterations := fun j _ => if j < 3 then 1 else 0 }

/-- One edge `A - B` (genes 0, 1), one sample that carries both alteration types on `A` and
the first one on `B`. -/
def twoColorGlobals : Globals :=
  { samples := ⟨["s0"], [("s0", 0)]⟩
    genes := ⟨["A", "B"], [("A", 0), ("B", 1)]⟩
    alterations := ⟨["MUT", "AMP"], [("MUT", 0), ("AMP", 1)]⟩
    G := ⟨2, fun j => if j = 0 then [(1, 0)] else if j = 1 then [(0, 0)] else []⟩
    geneAlterations := fun j _ => if j = 0 then 3 else if j = 1 then 1 else 0 }

/-- The two levels `solveMaxNetworkSize` stores on `pathGlobals` with threshold 2. -/
def pathLevels : List Level :=
  [⟨[({(1, 1), (0, 1)}, 0), ({(2, 1), (1, 1)}, 1)], [(0, ⟨2, 2, 1, [3]⟩), (1, ⟨2, 2, 1, [3]⟩)]⟩,
   ⟨[({(1, 1), (0, 1)} ∪ {(2, 1), (1, 1)}, 0)], [(0, ⟨2, 2, 1, [3]⟩)]⟩]

/-- The two levels `solveMaxNetworkSize` stores on `twoColorGlobals` with threshold 1. -/
def twoColorLevels : List Level :=
  [⟨[({(1, 1), (0, 1)}, 0), ({(1, 1), (0, 2)}, 1)], [(0, ⟨1, 1, 1, [1]⟩), (1, ⟨1, 1, 1, [1]⟩)]⟩,
   ⟨[({(1, 1), (0, 1)} ∪ {(1, 1), (0, 2)}, 0)], [(0, ⟨1, 1, 1, [1]⟩)]⟩]

/-! ## Vocabulary for the claims on `PatientBitmask` -/

/-- The shape every constructor and method of `PatientBitmask` keeps: `len` is
`ceil(maxSize / 64)` and the array holds `len` words. -/
def PatientBitmask.wellFormed (P : PatientBitmask) : Prop :=
  P.len = (P.maxSize + 63) / 64 ∧ P.bits.length = P.len

/-- The true population count: the number of positions `p` at which `getBit(p)` returns
true (the positions `64 * len` and above make `getBit` fail). -/
def PatientBitmask.popcount (P : PatientBitmask) : Nat :=
  (List.range (64 * P.len)).countP (fun p => P.getBit p == some true)

/-- A sequence of calls `setBit(p, v)`, first call first. -/
def PatientBitmask.setBits (P : PatientBitmask) (calls : List (Nat × Bool)) :
    Option PatientBitmask :=
  calls.foldlM (fun Q c => Q.setBit c.1 c.2) P

/-- The scenario of the specification: network edges `A-B`, `B-C`, `A-C` (genes 0, 1, 2 in
order of first appearance), alteration rows `(sample1, A, MUT)`, `(sample1, B, MUT)`,
`(sample2, B, MUT)`, `(sample2, C, MUT)`, `(sample3, A, MUT)`, `(sample3, C, MUT)` (samples
0, 1, 2; `MUT` is alteration 0, color id 1). -/
def triangleGlobals : Globals :=
  { samples := ⟨["sample1", "sample2", "sample3"],
      [("sample1", 0), ("sample2", 1), ("sample3", 2)]⟩
    genes := ⟨["A", "B", "C"], [("A", 0), ("B", 1), ("C", 2)]⟩
    alterations := ⟨["MUT"], [("MUT", 0)]⟩
    G := ⟨3, fun j => if j = 0 then [(1, 0), (2, 1)] else if j = 1 then [(0, 0), (2, 1)]
      else if j = 2 then [(1, 0), (0, 1)] else []⟩
    geneAlterations := fun j m =>
      if (j = 0 ∧ (m = 0 ∨ m = 2)) ∨ (j = 1 ∧ (m = 0 ∨ m = 1)) ∨ (j = 2 ∧ (m = 1 ∨ m = 2))
      then 1 else 0 }

/-- A path `A - B - C` (graph nodes 0, 1, 2) and one sample, with a catalog of five
alteration types in which `EXPROUT` is the fifth (index 4, color id 5): the alteration rows
list gene `C` first, with the first four types, then `A` and `B` with `EXPROUT`. -/
def fiveTypeGlobals : Globals :=
  { samples := ⟨["s0"], [("s0", 0)]⟩
    genes := ⟨["C", "A", "B"], [("C", 0), ("A", 1), ("B", 2)]⟩
    alterations := ⟨["MUT", "AMP", "DEL", "FUS", "EXPROUT"],
      [("MUT", 0), ("AMP", 1), ("DEL", 2), ("FUS", 3), ("EXPROUT", 4)]⟩
    G := ⟨3, fun j => if j = 0 then [(1, 0)] else if j = 1 then [(0, 0), (2, 1)]
      else if j = 2 then [(1, 0)] else []⟩
    geneAlterations := fun j _ => if j = 0 then 16 else if j = 1 then 16
      else if j = 2 then 15 else 0 }

/-! ## Vocabulary for the claims on deduplication -/

/-- The profile freshly computed at lines 575-576 for the pair `s = (s1, s2)`: a copy of the
profile of `s1` merged with the profile of `s2`; `none` if a profile is missing. -/
def candidateProfile (prev seed : Level)
    (s : (colored_node_set × Nat) × (colored_node_set × Nat)) : Option PatientBitmask :=
  match umFind prev.patientProfile s.1.2, umFind seed.patientProfile s.2.2 with
  | some p1, some p2 => some ((PatientBitmask.copy p1).mergeBitmask p2)
  | _, _ => none

/-- The pair `s` is a derivation of the key `S` with profile `P` in the growth step that
builds level `network_size`: its union is `S`, of the expected size, `P` is the profile
computed for it, and the guards at line 577 (or 885) hold. -/
def growDerives (minPatientSupport : Int) (test : colored_node_set → Bool)
    (network_size : Nat) (prev seed : Level)
    (s : (colored_node_set × Nat) × (colored_node_set × Nat)) (S : colored_node_set)
    (P : PatientBitmask) : Prop :=
  S = s.1.1 ∪ s.2.1 ∧ S.card = network_size + 2 ∧ candidateProfile prev seed s = some P ∧
    test S = true ∧ P.getSize ≥ minPatientSupport

/-- The iteration `t = (j, nb, k, l)` of the seeding loops is a derivation of the key `S`
with profile `P`: `S` is the colored edge, `P` the profile built for it, and the guard at
line 552 holds. -/
def seedDerives (g : Globals) (minPatientSupport : Int) (t : Nat × Nat × Nat × Nat)
    (S : colored_node_set) (P : PatientBitmask) : Prop :=
  S = insert (t.2.1, t.2.2.2) (insert (t.1, t.2.2.1) ∅) ∧
    ∃ sum, seedProfile g t.1 t.2.2.1 t.2.1 t.2.2.2 = some (sum, P) ∧ sum ≥ minPatientSupport

/-- Among the items `l` visited by a loop, in loop order, the first derivation of the key
`S` computes the profile `P`. -/
def firstDerivation {α : Type} (Der : α → colored_node_set → PatientBitmask → Prop)
    (l : List α) (S : colored_node_set) (P : PatientBitmask) : Prop :=
  ∃ pre x post, l = pre ++ x :: post ∧ Der x S P ∧ ∀ y ∈ pre, ∀ Q, ¬ Der y S Q

/-- The keys of the level are pairwise different, the identifiers of its `n` entries are
`0, ..., n-1` in insertion order, and the profile table has exactly the keys
`0, ..., n-1`. -/
def Level.wellIndexed (L : Level) : Prop :=
  L.keys.Nodup ∧ L.subNetwork.map Prod.snd = List.range L.subNetwork.length ∧
    L.patientProfile.map Prod.fst = List.range L.subNetwork.length

/-- Every word of the array fits in 64 bits. -/
def PatientBitmask.wordsBounded (P : PatientBitmask) : Prop := ∀ w ∈ P.bits, w < 2 ^ 64

/-! ## `getPositionOfFirstSetBit` (lines 86-94) -/

/-- The builtin `__builtin_ctzll` on a nonzero 64-bit word: the index of its lowest set
bit (the builtin is undefined on `0`, where this gives `64`). -/
def ctzll (x : Nat) : Nat := ((List.range 64).find? (fun b => x.testBit b)).getD 64

/-- Method `getPositionOfFirstSetBit`: `none` is the fatal exit on `size == 0`, and also the
end of the loop with no nonzero word, where the C++ function flows off its end without a
value. -/
def PatientBitmask.getPositionOfFirstSetBit (P : PatientBitmask) : Option Nat :=
  if P.size = 0 then none
  else
    ((List.range P.len).find? (fun i => P.bits.getD i 0 != 0)).map
      (fun i => i * 64 + ctzll (P.bits.getD i 0))

/-! ## Vocabulary for the claims on the support tables -/

/-- The sum over the color ids `c = 1, ..., alterations.indices.size()` of the entries
`color_count[j][c]` counted at lines 508-513. -/
def colorCountSum (g : Globals) (j : Nat) : Int :=
  ((List.range' 1 g.numAlterations).map (color_count g j)).sum

/-- The number of set bits of a mask of type `unsigned int` (32 bits), the value type of
`geneAlterations`. -/
def setBitCount (mask : Nat) : Nat := (List.range 32).countP (fun a => mask.testBit a)

/-- The table `color_count[j][a]` of `runILPSolverMaxNetworkSize` after its counting loops
(lines 364-369), for `a < alterations.indices.size()`: the test is
`(geneAlterations[j][i] && (1 << a)) != 0`, with the logical `&&`. -/
def runILPSolverMaxNetworkSize.color_count (g : Globals) (j a : Nat) : Int :=
  if g.numAlterations ≤ a then 0
  else ((List.range g.numSamples).countP
    (fun i => (g.geneAlterations j i != 0 && 1 <<< a != 0) != false) : Nat)

/-! ## The input check of `main` (lines 950-970) -/

/-- The test `argv[i][0] == '-' && argv[i][1]` on a NUL-terminated argument: the flag
character `argv[i][1]` when it holds. -/
def flagChar (arg : String) : Option Char :=
  match arg.data with
  | c0 :: c1 :: _ => if c0 = '-' then some c1 else none
  | _ => none

/-- The test `argv[i + 1][0] != '-'`. -/
def notDash (arg : String) : Bool :=
  match arg.data with
  | c0 :: _ => c0 != '-'
  | [] => true

/-- The loop at lines 959-964 over the arguments `argv[i], argv[i + 1], ...`: `skip` tells
that `argv[i]` was stored as a value by the previous iteration, whose `i++` steps over it. -/
def parseLoop : List String → Bool → List (Char × String) → List (Char × String)
  | [], _, consoleParameters => consoleParameters
  | arg :: rest, skip, consoleParameters =>
    if skip then parseLoop rest false consoleParameters
    else
      match flagChar arg, rest with
      | some c, value :: _ =>
        if notDash value then parseLoop rest true (umAssign consoleParameters c value)
        else parseLoop rest false consoleParameters
      | _, _ => parseLoop rest false consoleParameters

/-- The loop at lines 965-970 over `consoleFlags`: the first flag without a value. -/
def firstMissing (consoleParameters : List (Char × String)) : List Char → Option Char
  | [] => none
  | flag :: flags =>
    match umFind consoleParameters flag with
    | none => some flag
    | some _ => firstMissing consoleParameters flags

/-- How the input check of `main` ends. -/
inductive InputCheck where
  /-- Line 953: `argc <= 1`, the usage line is printed and `main` returns. -/
  | usage : InputCheck
  /-- Lines 967-968: the message `Missing value for parameter` for `flag`, then `exit(0)`. -/
  | missingValue (flag : Char) : InputCheck
  /-- The check is passed with these `consoleParameters`; `main` goes on to read the inputs
  and run the selected mode. -/
  | passed (consoleParameters : List (Char × String)) : InputCheck

/-- The array `consoleFlags` (line 957). -/
def consoleFlags : List Char := ['n', 'l', 's', 'm', 't']

/-- Lines 952-970 of `main` on the arguments `argv[0], ..., argv[argc - 1]`. -/
def mainInputCheck (argv : List String) : InputCheck :=
  if argv.length ≤ 1 then InputCheck.usage
  else
    let consoleParameters := parseLoop argv.tail false []
    match firstMissing consoleParameters consoleFlags with
    | some flag => InputCheck.missingValue flag
    | none => InputCheck.passed consoleParameters

/-- The command line supplies a value for the flag `c`: some argument after the program
name is `-c...` and is followed by an argument that does not start with a dash. -/
def suppliesValue (argv : List String) (c : Char) : Prop :=
  ∃ pre arg value post, argv.tail = pre ++ arg :: value :: post ∧ flagChar arg = some c ∧
    notDash value = true

/-- The command line has no flag `c`: no argument after the program name is `-c...`. -/
def hasNoFlag (argv : List String) (c : Char) : Prop :=
  ∀ arg ∈ argv.tail, flagChar arg ≠ some c

instance (argv : List String) (c : Char) : Decidable (hasNoFlag argv c) :=
  inferInstanceAs (Decidable (∀ arg ∈ argv.tail, flagChar arg ≠ some c))

/-! ## Reading the network (`readUndirectedNetwork`, lines 178-245) -/

/-- Access `m[k]` of `std::unordered_map<K, int>`: the value of `k`, which is first inserted
with value `0` when it is absent.  The result is the map after the access and the value. -/
def umIndex {κ : Type} [DecidableEq κ] (m : List (κ × Nat)) (k : κ) : List (κ × Nat) × Nat :=
  match umFind m k with
  | some v => (m, v)
  | none => (m ++ [(k, 0)], 0)

/-- An update `a[i] = f(a[i])` of an array element; an index outside the array, which is
undefined in C++, leaves the array as it is. -/
def modifyAt {α : Type} (a : List α) (i : Nat) (f : α → α) : List α :=
  match a[i]? with
  | some x => a.set i (f x)
  | none => a

/-- The source's `struct Graph` with the fields that `readUndirectedNetwork` writes; the
structure `Graph` above is the part of it that the enumerator reads.  `N[i]` is the array
of `NSize[i]` neighbours of node `i`. -/
structure FullGraph where
  V : Nat
  E : Nat
  NSize : List Nat
  N : List (List Nat)
  nodeNames : List String
  idxInNeighbourList : List (List (Nat × Nat))
  incomingEdges : List (List (Nat × Nat))
  nodeIndices : List (String × Nat)

/-- The part of the graph read by the enumerator. -/
def FullGraph.toGraph (G : FullGraph) : Graph :=
  ⟨G.V, fun j => G.idxInNeighbourList.getD j []⟩

/-- An iteration order for the `unordered_set` `uniqueEdges`: some permutation of the stored
edges, the same at both traversals of the unchanged set. -/
structure EdgeOrder where
  iterate : List (String × String) → List (String × String)
  perm : ∀ m, (iterate m).Perm m

/-- Iteration in insertion order. -/
def EdgeOrder.insertion : EdgeOrder := ⟨fun m => m, fun m => List.Perm.refl m⟩

/-- Iteration in reverse insertion order. -/
def EdgeOrder.reversed : EdgeOrder := ⟨fun m => m.reverse, fun m => List.reverse_perm m⟩

/-- The sign of the library function `strcmp` on two strings, given as their characters:
the first position at which they differ decides, and a proper prefix is the smaller one. -/
def strcmp : List Char → List Char → Int
  | [], [] => 0
  | [], _ :: _ => -1
  | _ :: _, [] => 1
  | c :: a, d :: b =>
    if c.toNat < d.toNat then -1 else if d.toNat < c.toNat then 1 else strcmp a b

/-- Lines 186-189: the two names with the smaller one first (`swap` when
`strcmp(a, b) > 0`), or `none` when the names are equal (`continue`). -/
def canonicalEdge (u v : String) : Option (String × String) :=
  if strcmp u.data v.data > 0 then some (v, u)
  else if strcmp u.data v.data = 0 then none
  else some (u, v)

/-- The variables of the reading loop (lines 185-201). -/
structure ScanState where
  uniqueEdges : List (String × String)
  nodeIndices : List (String × Nat)
  V : Nat

/-- Lines 192-195 and 196-199: a name without an index gets the index `G.V`. -/
def addNode (st : ScanState) (name : String) : ScanState :=
  match umFind st.nodeIndices name with
  | none => { st with nodeIndices := umAssign st.nodeIndices name st.V, V := st.V + 1 }
  | some _ => st

/-- One iteration of the reading loop (lines 186-200) on the pair of names `(u, v)`. -/
def scanEdge (st : ScanState) (uv : String × String) : ScanState :=
  match canonicalEdge uv.1 uv.2 with
  | none => st
  | some e =>
    if e ∈ st.uniqueEdges then st
    else addNode (addNode { st with uniqueEdges := st.uniqueEdges ++ [e] } e.1) e.2

/-- The variables of the loop at lines 210-219. -/
structure DegreeState where
  nodeIndices : List (String × Nat)
  nodeNames : List String
  NSize : List Nat

/-- One iteration of the loop at lines 210-219. -/
def countEdge (st : DegreeState) (e : String × String) : DegreeState :=
  let r1 := umIndex st.nodeIndices e.1
  let idx1 := r1.2
  let nodeNames1 := modifyAt st.nodeNames idx1 (fun s => if s.length = 0 then e.1 else s)
  let r2 := umIndex r1.1 e.2
  let idx2 := r2.2
  let nodeNames2 := modifyAt nodeNames1 idx2 (fun s => if s.length = 0 then e.2 else s)
  { nodeIndices := r2.1, nodeNames := nodeNames2,
    NSize := modifyAt (modifyAt st.NSize idx1 (· + 1)) idx2 (· + 1) }

/-- The variables of the loop at lines 230-241. -/
structure FillState where
  nodeIndices : List (String × Nat)
  N : List (List Nat)
  tempNSize : List Nat
  idxInNeighbourList : List (List (Nat × Nat))
  incomingEdges : List (List (Nat × Nat))

/-- One iteration of the loop at lines 230-241. -/
def fillEdge (st : FillState) (e : String × String) : FillState :=
  let r1 := umIndex st.nodeIndices e.1
  let idx1 := r1.2
  let r2 := umIndex r1.1 e.2
  let idx2 := r2.2
  let t1 := st.tempNSize.getD idx1 0
  let N1 := modifyAt st.N idx1 (fun row => row.set t1 idx2)
  let iil1 := modifyAt st.idxInNeighbourList idx1 (fun m => umAssign m idx2 t1)
  let inc1 := modifyAt st.incomingEdges idx2 (fun m => umAssign m idx1 t1)
  let t2 := st.tempNSize.getD idx2 0
  let N2 := modifyAt N1 idx2 (fun row => row.set t2 idx1)
  let iil2 := modifyAt iil1 idx2 (fun m => umAssign m idx1 t2)
  let inc2 := modifyAt inc1 idx1 (fun m => umAssign m idx2 t2)
  { nodeIndices := r2.1, N := N2,
    tempNSize := modifyAt (modifyAt st.tempNSize idx1 (· + 1)) idx2 (· + 1),
    idxInNeighbourList := iil2, incomingEdges := inc2 }

/-- The function `readUndirectedNetwork` on the pairs of names read by `fscanf`, starting
from the empty global `G`.  The arrays `G.N[i]` are allocated with `NSize[i]` entries, not
initialised in C++ and `0` here. -/
def readUndirectedNetwork (o : EdgeOrder) (pairs : List (String × String)) : FullGraph :=
  let scan := pairs.foldl scanEdge ⟨[], [], 0⟩
  let deg := (o.iterate scan.uniqueEdges).foldl countEdge
    ⟨scan.nodeIndices, List.replicate scan.V "", List.replicate scan.V 0⟩
  let fill := (o.iterate scan.uniqueEdges).foldl fillEdge
    ⟨deg.nodeIndices, deg.NSize.map (fun n => List.replicate n 0), List.replicate scan.V 0,
      List.replicate scan.V [], List.replicate scan.V []⟩
  { V := scan.V, E := scan.uniqueEdges.length * 2, NSize := deg.NSize, N := fill.N,
    nodeNames := deg.nodeNames, idxInNeighbourList := fill.idxInNeighbourList,
    incomingEdges := fill.incomingEdges, nodeIndices := fill.nodeIndices }

/-- The unordered pairs of different names in the input. -/
def unorderedPairs (pairs : List (String × String)) : Finset (Sym2 String) :=
  ((pairs.filter (fun uv => uv.1 ≠ uv.2)).map (fun uv => Sym2.mk uv)).toFinset

/-! ## Vocabulary for the claims on the two readers -/

/-- The shape of a name catalog: the keys are pairwise different and the `n` entries carry
the indices `0, ..., n-1` in insertion order. -/
def denseCatalog (m : List (String × Nat)) : Prop :=
  (m.map Prod.fst).Nodup ∧ m.map Prod.snd = List.range m.length

/-! ## Reading the alteration profiles (`readAlterationProfiles`, lines 250-303) -/

/-- A row `sample gene alterationType` of the alteration file, as read by `fscanf`. -/
abbrev AlterationRow := String × String × String

/-- Lines 261-264 (and 265-268, 269-272): a name that is not in the catalog is inserted
with the index `indices.size()`. -/
def addName (indices : List (String × Nat)) (name : String) : List (String × Nat) :=
  match umFind indices name with
  | none => umAssign indices name indices.length
  | some _ => indices

/-- The three maps `samples.indices`, `genes.indices`, `alterations.indices`. -/
structure CatalogState where
  samples : List (String × Nat)
  genes : List (String × Nat)
  alterations : List (String × Nat)

/-- One iteration of the first reading loop (lines 259-273); a row whose gene is not a key
of `G.nodeIndices` is skipped (`continue`). -/
def scanRow (nodeIndices : List (String × Nat)) (st : CatalogState) (row : AlterationRow) :
    CatalogState :=
  match umFind nodeIndices row.2.1 with
  | none => st
  | some _ =>
    { samples := addName st.samples row.1, genes := addName st.genes row.2.1,
      alterations := addName st.alterations row.2.2 }

/-- Lines 274-285: the array `names` of `n` strings, filled by `names[it.second] = it.first`
for the entries `it` of `indices` in the order `iter`. -/
def fillNames (iter : List (String × Nat)) (n : Nat) : List String :=
  iter.foldl (fun names it => modifyAt names it.2 (fun _ => it.1)) (List.replicate n "")

/-- The variables of the second reading loop (lines 288-298); `geneAlterations` is the array
of `G.V` maps from sample index to mask. -/
structure TableState where
  samples : List (String × Nat)
  alterations : List (String × Nat)
  geneAlterations : List (List (Nat × Nat))

/-- Lines 295-297 on the map `geneAlterations[geneIndex]`: an absent `sampleIndex` is
entered with mask `0`, then `bitMask` is or-ed into its mask. -/
def orInto (m : List (Nat × Nat)) (sampleIndex bitMask : Nat) : List (Nat × Nat) :=
  let m0 := match umFind m sampleIndex with
    | none => umAssign m sampleIndex 0
    | some _ => m
  umAssign m0 sampleIndex ((umIndex m0 sampleIndex).2 ||| bitMask)

/-- One iteration of the second reading loop (lines 288-298).  `none` stands for undefined
behaviour: a gene index outside the array of `V` maps, or the shift `1 << alterationIndex`
of the 32-bit `int` 1 by 32 or more. -/
def fillRow (nodeIndices : List (String × Nat)) (V : Nat) (st : TableState)
    (row : AlterationRow) : Option TableState :=
  match umFind nodeIndices row.2.1 with
  | none => some st
  | some geneIndex =>
    let r1 := umIndex st.samples row.1
    let sampleIndex := r1.2
    let r2 := umIndex st.alterations row.2.2
    let alterationIndex := r2.2
    if V ≤ geneIndex ∨ 32 ≤ alterationIndex then none
    else
      let bitMask := 1 <<< alterationIndex
      some
        { samples := r1.1, alterations := r2.1,
          geneAlterations := modifyAt st.geneAlterations geneIndex
            (fun m => orInto m sampleIndex bitMask) }

/-- The globals written by `readAlterationProfiles`. -/
structure AlterationProfiles where
  samples : Entry
  genes : Entry
  alterations : Entry
  geneAlterations : List (List (Nat × Nat))

/-- The function `readAlterationProfiles` on the rows of the alteration file, for the graph
`G` built before, starting from empty catalogs.  The loops over the catalogs at lines
277-285 are run in the stored order; each writes a different array element at every step,
so their result does not depend on the order (`fillNames_perm`). -/
def readAlterationProfiles (G : FullGraph) (rows : List AlterationRow) :
    Option AlterationProfiles :=
  let cat := rows.foldl (scanRow G.nodeIndices) ⟨[], [], []⟩
  let sampleNames := fillNames cat.samples cat.samples.length
  let geneNames := fillNames cat.genes cat.genes.length
  let alterationNames := fillNames cat.alterations cat.alterations.length
  (rows.foldlM (fillRow G.nodeIndices G.V)
      ⟨cat.samples, cat.alterations, List.replicate G.V []⟩).map fun tab =>
    { samples := ⟨sampleNames, tab.samples⟩, genes := ⟨geneNames, cat.genes⟩,
      alterations := ⟨alterationNames, tab.alterations⟩,
      geneAlterations := tab.geneAlterations }

/-- The value `geneAlterations[j][i]` read from the table, `0` for an absent key. -/
def tableEntry (geneAlterations : List (List (Nat × Nat))) (j i : Nat) : Nat :=
  (umFind (geneAlterations.getD j []) i).getD 0

/-- The global state read by the enumerator after both readers have run.  The stale cells
of the table `color_count` are no part of what the readers build and are `0` here. -/
def toGlobals (G : FullGraph) (D : AlterationProfiles) : Globals :=
  { samples := D.samples, genes := D.genes, alterations := D.alterations, G := G.toGraph,
    geneAlterations := tableEntry D.geneAlterations }

/-- The node indices of the graph are those of a catalog of `V` names, as
`readUndirectedNetwork` builds them. -/
def FullGraph.nodesIndexed (G : FullGraph) : Prop :=
  denseCatalog G.nodeIndices ∧ G.V = G.nodeIndices.length

instance (G : FullGraph) : Decidable G.nodesIndexed :=
  inferInstanceAs (Decidable (((G.nodeIndices.map Prod.fst).Nodup ∧
    G.nodeIndices.map Prod.snd = List.range G.nodeIndices.length) ∧
    G.V = G.nodeIndices.length))

/-- The rows that are not skipped: their gene is a node of the graph. -/
def keptRows (G : FullGraph) (rows : List AlterationRow) : List AlterationRow :=
  rows.filter (fun row => (umFind G.nodeIndices row.2.1).isSome)

/-- The bitwise OR of `1 << id(t)` over the rows `(sample, gene, t)` of the input, where
`id(t)` is the index of `t` in the catalog `alterations`. -/
def orOfRows (alterations : List (String × Nat)) (rows : List AlterationRow)
    (sample gene : String) : Nat :=
  (rows.filter (fun row => row.1 = sample ∧ row.2.1 = gene)).foldl
    (fun mask row => mask ||| 1 <<< ((umFind alterations row.2.2).getD 0)) 0

/-- The catalog `E` assigns to the distinct names of `observed` the indices `0, ..., n-1` in
order of first appearance, and `names` is the inverse of `indices`. -/
structure Entry.catalogOf (E : Entry) (observed : List String) : Prop where
  keys_nodup : (E.indices.map Prod.fst).Nodup
  mem_keys : ∀ x, x ∈ E.indices.map Prod.fst ↔ x ∈ observed
  size_eq : E.indices.length = observed.toFinset.card
  values : E.indices.map Prod.snd = List.range E.indices.length
  injective : ∀ x y i, umFind E.indices x = some i → umFind E.indices y = some i → x = y
  surjective : ∀ i < E.indices.length, ∃ x, umFind E.indices x = some i
  first_appearance : ∀ x y i j, umFind E.indices x = some i → umFind E.indices y = some j →
    (i < j ↔ observed.indexOf x < observed.indexOf y)
  names_length : E.names.length = E.indices.length
  names_indices : ∀ x i, umFind E.indices x = some i → E.names[i]? = some x
  indices_names : ∀ i x, E.names[i]? = some x → umFind E.indices x = some i

/-- The network of the scenario of the specification: the pairs `A B`, `B C`, `A C`, read
with the edge set iterated in insertion order. -/
def triangleNetwork : FullGraph :=
  readUndirectedNetwork EdgeOrder.insertion [("A", "B"), ("B", "C"), ("A", "C")]

/-- The alteration rows of the scenario of the specification, followed by two more rows:
one on a gene `D` that is not in the network, and a second alteration type on gene `C` in
`sample2`. -/
def triangleRows : List AlterationRow :=
  [("sample1", "A", "MUT"), ("sample1", "B", "MUT"), ("sample2", "B", "MUT"),
    ("sample2", "C", "MUT"), ("sample3", "A", "MUT"), ("sample3", "C", "MUT"),
    ("sample4", "D", "DEL"), ("sample2", "C", "AMP")]

/-- The endpoints of an edge as node indices. -/
def endpoints (nodeIndices : List (String × Nat)) (e : String × String) : Nat × Nat :=
  ((umFind nodeIndices e.1).getD 0, (umFind nodeIndices e.2).getD 0)

/-- The other endpoint of the edge `p`, when `a` is one of its endpoints. -/
def partner (a : Nat) (p : Nat × Nat) : Option Nat :=
  if p.1 = a then some p.2 else if p.2 = a then some p.1 else none

/-- The neighbours that the edges `ps`, in this order, give to node `a`. -/
def neighboursIn (ps : List (Nat × Nat)) (a : Nat) : List Nat := ps.filterMap (partner a)

/-- The graph `G` is the network of the pairs of names `pairs`: its nodes are indexed and
are the names that occur in a pair of two different names; node `b` is in the neighbour
list of node `a` exactly when their names differ and form a pair of the input, in either
order; the neighbour lists have no repetition, no self-loop, are symmetric, have `NSize`
entries, and `idxInNeighbourList` maps each neighbour to its position; and `E` is twice the
number of unordered pairs of different names. -/
structure FullGraph.networkOf (G : FullGraph) (pairs : List (String × String)) : Prop where
  nodes_indexed : G.nodesIndexed
  node_names : ∀ x, x ∈ G.nodeIndices.map Prod.fst ↔
    ∃ uv ∈ pairs, uv.1 ≠ uv.2 ∧ (x = uv.1 ∨ x = uv.2)
  lengths : G.N.length = G.V ∧ G.NSize.length = G.V ∧ G.idxInNeighbourList.length = G.V
  adjacent_iff : ∀ x y a b, umFind G.nodeIndices x = some a → umFind G.nodeIndices y = some b →
    (b ∈ G.N.getD a [] ↔ x ≠ y ∧ ((x, y) ∈ pairs ∨ (y, x) ∈ pairs))
  neighbours_nodup : ∀ a, (G.N.getD a []).Nodup
  neighbours_lt : ∀ a, ∀ b ∈ G.N.getD a [], a < G.V ∧ b < G.V
  no_self_loop : ∀ a, a ∉ G.N.getD a []
  symmetric : ∀ a b, b ∈ G.N.getD a [] → a ∈ G.N.getD b []
  NSize_eq : ∀ a < G.V, G.NSize.getD a 0 = (G.N.getD a []).length
  idxInNeighbourList_eq : ∀ a, G.idxInNeighbourList.getD a [] =
    (G.N.getD a []).zip (List.range (G.N.getD a []).length)
  E_eq : G.E = 2 * (unorderedPairs pairs).card

/-- The alteration rows of the scenario of the specification. -/
def scenarioRows : List AlterationRow :=
  [("sample1", "A", "MUT"), ("sample1", "B", "MUT"), ("sample2", "B", "MUT"),
    ("sample2", "C", "MUT"), ("sample3", "A", "MUT"), ("sample3", "C", "MUT")]

/-- A network file with a repeated pair, a reversed pair and a pair of equal names. -/
def messyPairs : List (String × String) :=
  [("B", "A"), ("A", "B"), ("B", "B"), ("C", "B"), ("B", "A"), ("A", "C")]

/-! ## Two runs with stale cells -/

/-- The input `twoColorGlobals` in a run that finds `32766` in `color_count[0][1]` and
`-1549422008` in `color_count[0][2]` (the two halves of a stack address) when the counting
loops start. -/
def twoColorStale : Globals :=
  { twoColorGlobals with
    staleCells := fun c => if c = 1 then 32766 else if c = 2 then -1549422008 else 0 }

/-- A path `A - B - C` (genes 0, 1, 2), alteration types `MUT`, `AMP` and one sample that
carries `AMP` on `A` and `MUT` on `B` and on `C`, in a run that finds `32765` in
`color_count[0][1]` and `-855101450` in `color_count[0][2]` when the counting loops start. -/
def pathStale : Globals :=
  { samples := ⟨["s0"], [("s0", 0)]⟩
    genes := ⟨["A", "B", "C"], [("A", 0), ("B", 1), ("C", 2)]⟩
    alterations := ⟨["MUT", "AMP"], [("MUT", 0), ("AMP", 1)]⟩
    G := ⟨3, fun j => if j = 0 then [(1, 0)] else if j = 1 then [(0, 0), (2, 1)]
      else if j = 2 then [(1, 0)] else []⟩
    geneAlterations := fun j _ => if j = 0 then 2 else if j < 3 then 1 else 0
    staleCells := fun c => if c = 1 then 32765 else if c = 2 then -855101450 else 0 }

/-! ## Bit-level lemmas -/

theorem and_one_shiftLeft_ne_zero (w b : Nat) : (w &&& (1 <<< b) != 0) = w.testBit b := by
  rw [Nat.one_shiftLeft, Nat.and_two_pow]
  cases h : w.testBit b <;> simp

theorem hasAlteration_eq_testBit (mask a : Nat) : hasAlteration mask a = mask.testBit a :=
  and_one_shiftLeft_ne_zero mask a

theorem getD_replicate_zero (k i : Nat) : (List.replicate k 0).getD i 0 = 0 := by
  by_cases h : i < k <;> simp [List.getD_eq_getElem?_getD, List.getElem?_replicate, h]

theorem getD_set (l : List Nat) (i j w : Nat) (hi : i < l.length) :
    (l.set i w).getD j 0 = if i = j then w else l.getD j 0 := by
  simp only [List.getD_eq_getElem?_getD, List.getElem?_set]
  by_cases h : i = j <;> simp [h, hi]
  subst h; simp [hi]

theorem countP_range_succ (f : Nat → Bool) (m : Nat) :
    (List.range (m + 1)).countP f = (List.range m).countP f + (if f m then 1 else 0) := by
  rw [List.range_succ, List.countP_append]
  simp [List.countP_cons]

theorem MaskUpTo.new (n : Nat) (f : Nat → Bool) : MaskUpTo n 0 f (PatientBitmask.new n) where
  maxSize_eq := rfl
  len_eq := rfl
  bits_len := by simp [PatientBitmask.new]
  bit_eq := by intro p; simp [bitAt, PatientBitmask.new, getD_replicate_zero]
  size_eq := by simp [PatientBitmask.new]

theorem MaskUpTo.getBit {n m0 : Nat} {f : Nat → Bool} {P : PatientBitmask}
    (h : MaskUpTo n m0 f P) {m : Nat} (hm : m < n) :
    P.getBit m = some (decide (m < m0) && f m) := by
  have hidx : ¬ (m / 64 ≥ P.len) := by rw [h.len_eq]; omega
  simp only [PatientBitmask.getBit, hidx, if_false, and_one_shiftLeft_ne_zero]
  exact congrArg some (h.bit_eq m)

theorem MaskUpTo.skip {n m : Nat} {f : Nat → Bool} {P : PatientBitmask}
    (h : MaskUpTo n m f P) (hf : f m = false) : MaskUpTo n (m + 1) f P where
  maxSize_eq := h.maxSize_eq
  len_eq := h.len_eq
  bits_len := h.bits_len
  bit_eq := by
    intro p
    rw [h.bit_eq p]
    by_cases hp : p = m
    · subst hp; simp [hf]
    · have : (p < m + 1) ↔ (p < m) := by omega
      simp [this]
  size_eq := by rw [h.size_eq, countP_range_succ]; simp [hf]

theorem bitAt_set (l : List Nat) (i w p : Nat) (hi : i < l.length) :
    bitAt (l.set i w) p = if i = p / 64 then w.testBit (p % 64) else bitAt l p := by
  unfold bitAt
  rw [getD_set _ _ _ _ hi]
  split <;> rfl

theorem MaskUpTo.setBit {n m : Nat} {f : Nat → Bool} {P : PatientBitmask}
    (h : MaskUpTo n m f P) (hm : m < n) (hf : f m = true) :
    ∃ P', P.setBit m true = some P' ∧ MaskUpTo n (m + 1) f P' := by
  have hidx : ¬ (m / 64 ≥ P.len) := by rw [h.len_eq]; omega
  have hlen : m / 64 < P.bits.length := by rw [h.bits_len]; omega
  have hget : P.getBit m = some false := by rw [h.getBit hm]; simp
  refine ⟨_, by simp [PatientBitmask.setBit, hidx, hget]; rfl, ?_⟩
  refine ⟨h.maxSize_eq, h.len_eq, by simpa using h.bits_len, ?_, ?_⟩
  · intro p
    have hold := h.bit_eq p
    show bitAt (P.bits.set (m / 64) _) p = _
    rw [bitAt_set _ _ _ _ hlen, Nat.one_shiftLeft, Nat.testBit_xor, Nat.testBit_two_pow]
    by_cases hw : m / 64 = p / 64
    · have hb : bitAt P.bits p = (P.bits[m / 64]?.getD 0).testBit (p % 64) := by
        rw [hw, ← List.getD_eq_getElem?_getD]; rfl
      rw [if_pos hw, ← hb, hold]
      by_cases hp : p = m
      · subst hp; simp [hf]
      · have hlt : (p < m + 1) ↔ (p < m) := by omega
        have hne : ¬ (m % 64 = p % 64) := by omega
        simp [hlt, hne]
    · have hp : p ≠ m := by rintro rfl; exact hw rfl
      have hlt : (p < m + 1) ↔ (p < m) := by omega
      rw [if_neg hw, hold]; simp [hlt]
  · show P.size + 1 = _
    rw [h.size_eq, countP_range_succ]; simp [hf]

theorem seedProfile_fold (g : Globals) (j k nb l m : Nat) (hm : m ≤ g.numSamples) :
    ∃ P, (List.range m).foldlM
        (fun (acc : Int × PatientBitmask) m =>
          if hasAlteration (g.geneAlterations j m) (k - 1) &&
              hasAlteration (g.geneAlterations nb m) (l - 1) then
            (acc.2.setBit m true).map (fun P => (acc.1 + 1, P))
          else some acc)
        (0, PatientBitmask.new g.numSamples)
      = some ((((List.range m).countP (fun m => hasAlteration (g.geneAlterations j m) (k - 1) &&
          hasAlteration (g.geneAlterations nb m) (l - 1)) : Nat) : Int), P) ∧
      MaskUpTo g.numSamples m (fun m => hasAlteration (g.geneAlterations j m) (k - 1) &&
          hasAlteration (g.geneAlterations nb m) (l - 1)) P := by
  induction m with
  | zero => exact ⟨_, rfl, MaskUpTo.new _ _⟩
  | succ m ih =>
    obtain ⟨P, hP, hM⟩ := ih (by omega)
    rw [List.range_succ, List.foldlM_append, hP]
    by_cases hf : (hasAlteration (g.geneAlterations j m) (k - 1) &&
          hasAlteration (g.geneAlterations nb m) (l - 1)) = true
    · obtain ⟨P', hP', hM'⟩ := hM.setBit (by omega) hf
      refine ⟨P', ?_, hM'⟩
      simp only [Option.bind_eq_bind, Option.some_bind, List.foldlM_cons, List.foldlM_nil, hf,
        if_true, hP', Option.map_some', Option.pure_def, Option.bind_some]
      rw [List.countP_append]; simp [hf]
    · have hf' := Bool.eq_false_iff.mpr hf
      refine ⟨P, ?_, hM.skip hf'⟩
      simp only [Option.bind_eq_bind, Option.some_bind, List.foldlM_cons, List.foldlM_nil, hf,
        Option.pure_def, Option.bind_some]
      rw [List.countP_append]; simp [hf']

theorem seedProfile_spec (g : Globals) (j k nb l : Nat) :
    ∃ P, seedProfile g j k nb l =
        some ((((List.range g.numSamples).countP (fun m =>
          hasAlteration (g.geneAlterations j m) (k - 1) &&
          hasAlteration (g.geneAlterations nb m) (l - 1)) : Nat) : Int), P) ∧
      MaskRep g.numSamples (fun m => hasAlteration (g.geneAlterations j m) (k - 1) &&
          hasAlteration (g.geneAlterations nb m) (l - 1)) P :=
  seedProfile_fold g j k nb l g.numSamples (Nat.le_refl _)

/-! ## mergeBitmask -/

theorem popcount_flatten (bits : List Nat) (L : Nat) :
    ((List.range L).map (fun j => popcountll (bits.getD j 0))).sum =
      (List.range (64 * L)).countP (bitAt bits) := by
  induction L with
  | zero => simp
  | succ L ih =>
    rw [List.range_succ, List.map_append, List.sum_append, ih,
      show 64 * (L + 1) = 64 * L + 64 by ring, List.range_add, List.countP_append,
      List.countP_map]
    congr 1
    simp only [List.map_cons, List.map_nil, List.sum_cons, List.sum_nil, Nat.add_zero,
      popcountll]
    apply List.countP_congr
    intro b hb
    have hb' : b < 64 := List.mem_range.mp hb
    have h1 : (64 * L + b) / 64 = L := by omega
    have h2 : (64 * L + b) % 64 = b := by omega
    simp [bitAt, h1, h2]

theorem countP_range_restrict (q : Nat → Bool) (n N : Nat) (h : n ≤ N) :
    (List.range N).countP (fun p => decide (p < n) && q p) = (List.range n).countP q := by
  obtain ⟨d, rfl⟩ := Nat.exists_eq_add_of_le h
  rw [List.range_add, List.countP_append, List.countP_map]
  have h1 : (List.range n).countP (fun p => decide (p < n) && q p) = (List.range n).countP q := by
    apply List.countP_congr
    intro p hp
    simp [List.mem_range.mp hp]
  have h2 : (List.range d).countP ((fun p => decide (p < n) && q p) ∘ fun x => n + x) = 0 := by
    rw [List.countP_eq_zero]
    intro p _
    simp
  rw [h1, h2, Nat.add_zero]

/-- The state of the loop of `mergeBitmask` after `i` words. -/
theorem mergeBitmask_fold (P Q : PatientBitmask) (hP : P.bits.length = P.len) (i : Nat)
    (hi : i ≤ P.len) :
    let A := (List.range i).foldl
      (fun (A : PatientBitmask) i =>
        let w := A.bits.getD i 0 &&& Q.bits.getD i 0
        { A with bits := A.bits.set i w, size := A.size + (popcountll w : Int) })
      { P with size := 0 }
    A.maxSize = P.maxSize ∧ A.len = P.len ∧ A.bits.length = P.bits.length ∧
    (∀ j, A.bits.getD j 0 =
      if j < i then P.bits.getD j 0 &&& Q.bits.getD j 0 else P.bits.getD j 0) ∧
    A.size = (((List.range i).map
      (fun j => popcountll (P.bits.getD j 0 &&& Q.bits.getD j 0))).sum : Nat) := by
  induction i with
  | zero => simp
  | succ i ih =>
    obtain ⟨h1, h2, h3, h4, h5⟩ := ih (by omega)
    rw [List.range_succ, List.foldl_append]
    simp only [List.foldl_cons, List.foldl_nil]
    refine ⟨h1, h2, by simpa using h3, ?_, ?_⟩
    · intro j
      have hlen : i < ((List.range i).foldl
          (fun (A : PatientBitmask) i =>
            let w := A.bits.getD i 0 &&& Q.bits.getD i 0
            { A with bits := A.bits.set i w, size := A.size + (popcountll w : Int) })
          { P with size := 0 }).bits.length := by rw [h3, hP]; omega
      rw [getD_set _ _ _ _ hlen, h4 i, h4 j]
      by_cases hij : i = j
      · subst hij; simp
      · have : (j < i + 1) ↔ (j < i) := by omega
        simp [hij, this]
    · show _ + _ = _
      rw [h5, h4 i, List.map_append, List.sum_append]
      simp

theorem mergeBitmask_spec (P Q : PatientBitmask) (hP : P.bits.length = P.len) :
    (P.mergeBitmask Q).maxSize = P.maxSize ∧ (P.mergeBitmask Q).len = P.len ∧
    (P.mergeBitmask Q).bits.length = P.bits.length ∧
    (∀ p, bitAt (P.mergeBitmask Q).bits p = (bitAt P.bits p && bitAt Q.bits p)) ∧
    (P.mergeBitmask Q).size =
      ((List.range (64 * P.len)).countP (fun p => bitAt P.bits p && bitAt Q.bits p) : Nat) := by
  have key : (P.mergeBitmask Q).maxSize = P.maxSize ∧ (P.mergeBitmask Q).len = P.len ∧
      (P.mergeBitmask Q).bits.length = P.bits.length ∧
      (∀ j, (P.mergeBitmask Q).bits.getD j 0 =
        if j < P.len then P.bits.getD j 0 &&& Q.bits.getD j 0 else P.bits.getD j 0) ∧
      (P.mergeBitmask Q).size = (((List.range P.len).map
        (fun j => popcountll (P.bits.getD j 0 &&& Q.bits.getD j 0))).sum : Nat) :=
    mergeBitmask_fold P Q hP P.len (Nat.le_refl _)
  obtain ⟨h1, h2, h3, h4, h5⟩ := key
  have hbits : ∀ j, (P.mergeBitmask Q).bits.getD j 0 = P.bits.getD j 0 &&& Q.bits.getD j 0 := by
    intro j
    have := h4 j
    by_cases hj : j < P.len
    · rw [if_pos hj] at this; exact this
    · have hz : P.bits.getD j 0 = 0 := by
        rw [List.getD_eq_getElem?_getD, List.getElem?_eq_none (by omega)]; rfl
      rw [if_neg hj] at this
      rw [this, hz, Nat.zero_and]
  have hbit : ∀ p, bitAt (P.mergeBitmask Q).bits p = (bitAt P.bits p && bitAt Q.bits p) := by
    intro p
    simp only [bitAt, hbits, Nat.testBit_and]
  refine ⟨h1, h2, h3, hbit, ?_⟩
  have hsum : ((List.range P.len).map
      (fun j => popcountll (P.bits.getD j 0 &&& Q.bits.getD j 0))).sum =
      ((List.range P.len).map (fun j => popcountll ((P.mergeBitmask Q).bits.getD j 0))).sum := by
    congr 1
    apply List.map_congr_left
    intro j _
    rw [hbits]
  rw [h5, hsum, popcount_flatten]
  congr 1
  apply List.countP_congr
  intro p _
  rw [hbit]

theorem copy_eq (P : PatientBitmask) (hP : P.bits.length = P.len) :
    PatientBitmask.copy P = P := by
  have : (List.range P.len).map (fun i => P.bits.getD i 0) = P.bits := by
    apply List.ext_getElem
    · simp [hP]
    · intro i h1 h2
      simp [List.getD_eq_getElem?_getD, List.getElem?_eq_getElem h2]
  cases P
  simp only [PatientBitmask.copy] at this ⊢
  rw [this]

/-- The profile of a growth candidate represents the intersection of the two supports. -/
theorem MaskRep.merge {n : Nat} {f h : Nat → Bool} {P Q : PatientBitmask}
    (hP : MaskRep n f P) (hQ : MaskRep n h Q) :
    MaskRep n (fun m => f m && h m) ((PatientBitmask.copy P).mergeBitmask Q) := by
  rw [copy_eq P hP.bits_len]
  obtain ⟨h1, h2, h3, h4, h5⟩ := mergeBitmask_spec P Q hP.bits_len
  refine ⟨h1.trans hP.maxSize_eq, h2.trans hP.len_eq, h3.trans (hP.bits_len.trans h2.symm), ?_, ?_⟩
  · intro p
    rw [h4, hP.bit_eq, hQ.bit_eq]
    cases decide (p < n) <;> cases f p <;> cases h p <;> rfl
  · rw [h5]
    congr 1
    have hle : n ≤ 64 * P.len := by rw [hP.len_eq]; omega
    rw [← countP_range_restrict (fun m => f m && h m) n (64 * P.len) hle]
    apply List.countP_congr
    intro p _
    rw [hP.bit_eq, hQ.bit_eq]
    cases decide (p < n) <;> cases f p <;> cases h p <;> simp

theorem MaskRep.congr {n : Nat} {f h : Nat → Bool} {P : PatientBitmask}
    (hP : MaskRep n f P) (hfh : ∀ m, m < n → f m = h m) : MaskRep n h P := by
  refine ⟨hP.maxSize_eq, hP.len_eq, hP.bits_len, ?_, ?_⟩
  · intro p
    rw [hP.bit_eq]
    by_cases hp : p < n
    · rw [hfh p hp]
    · simp [hp]
  · rw [hP.size_eq]
    congr 1
    apply List.countP_congr
    intro p hp
    rw [hfh p (List.mem_range.mp hp)]

/-! ## Association lists and the insert-if-absent block -/

theorem umFind_eq_none_iff {κ ν : Type} [DecidableEq κ] (m : List (κ × ν)) (k : κ) :
    umFind m k = none ↔ k ∉ m.map Prod.fst := by
  induction m with
  | nil => simp [umFind]
  | cons e m ih =>
    by_cases h : e.1 = k
    · simp [umFind, h]
    · simp only [umFind, h, if_false, ih, List.map_cons, List.mem_cons, not_or]
      constructor
      · intro hk; exact ⟨fun h' => h h'.symm, hk⟩
      · intro hk; exact hk.2

theorem umFind_umAssign {κ ν : Type} [DecidableEq κ] (m : List (κ × ν)) (k k' : κ) (v : ν) :
    umFind (umAssign m k v) k' = if k = k' then some v else umFind m k' := by
  induction m with
  | nil => simp [umAssign, umFind]
  | cons e m ih =>
    by_cases h : e.1 = k
    · by_cases h' : k = k'
      · simp [umAssign, umFind, h, h']
      · have : ¬ e.1 = k' := by rw [h]; exact h'
        simp [umAssign, umFind, h, h', this]
    · by_cases h'' : e.1 = k'
      · have : ¬ k = k' := by rw [← h'']; exact fun hk => h hk.symm
        simp only [umAssign, if_neg h, umFind, if_pos h'', if_neg this]
      · simp only [umAssign, if_neg h, umFind, if_neg h'', ih]

theorem insertEntry_subNetwork (st : LevelState) (S : colored_node_set) (P : PatientBitmask) :
    (insertEntry st S P).subNetwork =
      if S ∈ st.subNetwork.map Prod.fst then st.subNetwork
      else st.subNetwork ++ [(S, st.valid)] := by
  unfold insertEntry umInsert
  cases h : umFind st.subNetwork S with
  | none =>
    have := (umFind_eq_none_iff _ _).mp h
    simp only [if_neg this]
  | some v =>
    have : S ∈ st.subNetwork.map Prod.fst := by
      by_contra hc
      rw [(umFind_eq_none_iff _ _).mpr hc] at h
      exact Option.noConfusion h
    simp only [if_pos this]

theorem insertEntry_keys (st : LevelState) (S S' : colored_node_set) (P : PatientBitmask) :
    S' ∈ (insertEntry st S P).subNetwork.map Prod.fst ↔
      S' ∈ st.subNetwork.map Prod.fst ∨ S' = S := by
  rw [insertEntry_subNetwork]
  by_cases h : S ∈ st.subNetwork.map Prod.fst
  · rw [if_pos h]
    constructor
    · exact Or.inl
    · rintro (h' | rfl)
      · exact h'
      · exact h
  · rw [if_neg h]
    simp

theorem insertEntry_ok (g : Globals) (st : LevelState) (S : colored_node_set)
    (P : PatientBitmask) (hst : StateOK g st) (hP : MaskRep g.numSamples (exhibits g S) P) :
    StateOK g (insertEntry st S P) := by
  unfold insertEntry umInsert
  cases h : umFind st.subNetwork S with
  | some v => exact hst
  | none =>
    intro e he
    simp only [List.mem_append, List.mem_singleton] at he
    rcases he with he | rfl
    · obtain ⟨hlt, Q, hQ, hM⟩ := hst e he
      refine ⟨Nat.lt_succ_of_lt hlt, Q, ?_, hM⟩
      show umFind (umAssign st.patientProfile st.valid P) e.2 = some Q
      rw [umFind_umAssign, if_neg (by omega), hQ]
    · refine ⟨Nat.lt_succ_self _, P, ?_, hP⟩
      show umFind (umAssign st.patientProfile st.valid P) st.valid = some P
      rw [umFind_umAssign, if_pos rfl]

/-- Invariant reasoning for a loop over `l` in the `Option` monad: `Inv pre s` relates the
state to the prefix already processed. -/
theorem foldlM_inv {σ α : Type} (f : σ → α → Option σ) (Inv : List α → σ → Prop)
    (l : List α) :
    ∀ (pre : List α) (s : σ), Inv pre s →
      (∀ pre' x s', x ∈ l → Inv pre' s' → ∃ s'', f s' x = some s'' ∧ Inv (pre' ++ [x]) s'') →
      ∃ s', l.foldlM f s = some s' ∧ Inv (pre ++ l) s' := by
  induction l with
  | nil => intro pre s h _; exact ⟨s, rfl, by simpa using h⟩
  | cons x l ih =>
    intro pre s h hstep
    obtain ⟨s1, hs1, hInv1⟩ := hstep pre x s (List.mem_cons_self _ _) h
    obtain ⟨s2, hs2, hInv2⟩ := ih (pre ++ [x]) s1 hInv1
      (fun pre' y s' hy hI => hstep pre' y s' (List.mem_cons_of_mem _ hy) hI)
    refine ⟨s2, ?_, by simpa using hInv2⟩
    simp only [List.foldlM_cons, Option.bind_eq_bind, hs1, Option.some_bind]
    exact hs2

/-- A loop whose body either inserts one accepted key with a correct profile or leaves the
maps alone builds exactly the set of accepted keys. -/
theorem collect_spec {α : Type} (g : Globals) (Acc : α → colored_node_set → Prop)
    (f : LevelState → α → Option LevelState) (l : List α)
    (hstep : ∀ st x, x ∈ l → StateOK g st →
      (∃ S P, Acc x S ∧ (∀ S', Acc x S' → S' = S) ∧ MaskRep g.numSamples (exhibits g S) P ∧
        f st x = some (insertEntry st S P)) ∨
      (f st x = some st ∧ ∀ S, ¬ Acc x S)) :
    ∃ st, l.foldlM f ⟨[], [], 0⟩ = some st ∧ StateOK g st ∧
      ∀ S, S ∈ st.subNetwork.map Prod.fst ↔ ∃ x ∈ l, Acc x S := by
  have := foldlM_inv f
    (fun pre st => StateOK g st ∧ ∀ S, S ∈ st.subNetwork.map Prod.fst ↔ ∃ x ∈ pre, Acc x S)
    l [] ⟨[], [], 0⟩ ⟨by intro e he; simp at he, by simp⟩ ?_
  · simpa using this
  · intro pre x st hx ⟨hok, hkeys⟩
    rcases hstep st x hx hok with ⟨S, P, hacc, huniq, hP, hf⟩ | ⟨hf, hno⟩
    · refine ⟨_, hf, insertEntry_ok g st S P hok hP, ?_⟩
      intro S'
      rw [insertEntry_keys, hkeys]
      constructor
      · rintro (⟨y, hy, hy'⟩ | rfl)
        · exact ⟨y, List.mem_append_left _ hy, hy'⟩
        · exact ⟨x, by simp, hacc⟩
      · rintro ⟨y, hy, hy'⟩
        simp only [List.mem_append, List.mem_singleton] at hy
        rcases hy with hy | rfl
        · exact Or.inl ⟨y, hy, hy'⟩
        · exact Or.inr (huniq _ hy')
    · refine ⟨st, hf, hok, ?_⟩
      intro S'
      rw [hkeys]
      constructor
      · rintro ⟨y, hy, hy'⟩; exact ⟨y, List.mem_append_left _ hy, hy'⟩
      · rintro ⟨y, hy, hy'⟩
        simp only [List.mem_append, List.mem_singleton] at hy
        rcases hy with hy | rfl
        · exact ⟨y, hy, hy'⟩
        · exact absurd hy' (hno _)

theorem StateOK.toLevel {g : Globals} {st : LevelState} (h : StateOK g st) :
    LevelOK g st.toLevel := fun e he => (h e he).2

/-! ## Seeding -/

theorem exhibits_union (g : Globals) (A B : colored_node_set) (m : Nat) :
    exhibits g (A ∪ B) m = (exhibits g A m && exhibits g B m) := by
  unfold exhibits
  rw [Bool.eq_iff_iff]
  simp only [Finset.mem_union, decide_eq_true_eq, Bool.and_eq_true]
  constructor
  · intro h; exact ⟨fun x hx => h x (Or.inl hx), fun x hx => h x (Or.inr hx)⟩
  · rintro ⟨h1, h2⟩ x (hx | hx)
    · exact h1 x hx
    · exact h2 x hx

theorem exhibits_pair (g : Globals) (j k nb l m : Nat) :
    exhibits g (insert (nb, l) (insert (j, k) ∅)) m =
      (hasAlteration (g.geneAlterations j m) (k - 1) &&
        hasAlteration (g.geneAlterations nb m) (l - 1)) := by
  unfold exhibits
  rw [Bool.eq_iff_iff]
  simp only [Finset.mem_insert, Finset.not_mem_empty, or_false, decide_eq_true_eq,
    Bool.and_eq_true, hasAlteration_eq_testBit]
  constructor
  · intro h; exact ⟨h (j, k) (Or.inr rfl), h (nb, l) (Or.inl rfl)⟩
  · rintro ⟨h1, h2⟩ x (rfl | rfl)
    · exact h2
    · exact h1

theorem exhibits_mono (g : Globals) {A B : colored_node_set} (h : A ⊆ B) (m : Nat)
    (hB : exhibits g B m = true) : exhibits g A m = true := by
  unfold exhibits at *
  simp only [decide_eq_true_eq] at *
  exact fun x hx => hB x (h hx)

theorem jointSupport_mono (g : Globals) {A B : colored_node_set} (h : A ⊆ B) :
    jointSupport g B ≤ jointSupport g A := by
  unfold jointSupport
  exact List.countP_mono_left (fun m _ hm => exhibits_mono g h m hm)

theorem jointSupport_le (g : Globals) (S : colored_node_set) :
    jointSupport g S ≤ g.numSamples := by
  unfold jointSupport
  exact (List.countP_le_length _).trans (by simp)

theorem jointSupport_pair (g : Globals) (j k nb l : Nat) :
    jointSupport g (insert (nb, l) (insert (j, k) ∅)) =
      (List.range g.numSamples).countP (fun m =>
        hasAlteration (g.geneAlterations j m) (k - 1) &&
        hasAlteration (g.geneAlterations nb m) (l - 1)) := by
  unfold jointSupport
  apply List.countP_congr
  intro m _
  rw [exhibits_pair]

/-- The counted entry is the stale content of its cell plus the support. -/
theorem color_count_eq (g : Globals) (j c : Nat) (h1 : 1 ≤ c) (h2 : c ≤ g.numAlterations) :
    color_count g j c = (if j = 0 then g.staleCells c else 0) + (support g j c : Int) := by
  have : ¬ (c = 0 ∨ g.numAlterations < c) := by omega
  simp only [color_count, this, if_false, support, hasAlteration_eq_testBit]

/-- In the rows `1` and above, and in row `0` when its cell started at `0`, the counted
entry is the support. -/
theorem color_count_eq_support (g : Globals) (j c : Nat) (h1 : 1 ≤ c)
    (h2 : c ≤ g.numAlterations) (hz : j = 0 → g.staleCells c = 0) :
    color_count g j c = (support g j c : Int) := by
  rw [color_count_eq g j c h1 h2]
  by_cases hj : j = 0
  · rw [if_pos hj, hz hj, Int.zero_add]
  · rw [if_neg hj, Int.zero_add]

/-- A stale cell that is not negative leaves the count at or above the support. -/
theorem support_le_color_count (g : Globals) (hn : g.staleNonneg) (j c : Nat) (h1 : 1 ≤ c)
    (h2 : c ≤ g.numAlterations) : (support g j c : Int) ≤ color_count g j c := by
  rw [color_count_eq g j c h1 h2]
  have := hn c
  split <;> omega

theorem colorFlag_pos (g : Globals) (minPatientSupport : Int) (j c : Nat) (h1 : 1 ≤ c) :
    colorFlag g minPatientSupport j c = 1 ↔ color_count g j c ≥ minPatientSupport := by
  have : ¬ c = 0 := by omega
  simp only [colorFlag, this, if_false]
  split <;> simp_all

theorem colorFlag_zero (g : Globals) (minPatientSupport : Int) (j : Nat) :
    colorFlag g minPatientSupport j 0 = 1 ↔
      ∃ c, 1 ≤ c ∧ c ≤ g.numAlterations ∧ color_count g j c ≥ minPatientSupport := by
  simp only [colorFlag, if_true]
  split
  · rename_i h
    simp only [List.any_eq_true, List.mem_range'_1, decide_eq_true_eq] at h
    obtain ⟨c, ⟨hc1, hc2⟩, hc⟩ := h
    have hc2' : c ≤ g.numAlterations := by omega
    simp only [true_iff]
    exact ⟨c, hc1, hc2', hc⟩
  · rename_i h
    simp only [List.any_eq_true, List.mem_range'_1, decide_eq_true_eq, not_exists, not_and] at h
    simp only [zero_ne_one, false_iff, not_exists, not_and]
    intro c hc1 hc2 hc
    exact h c ⟨hc1, by omega⟩ hc

theorem mem_seedTuples (g : Globals) (minPatientSupport : Int) (j nb k l : Nat) :
    (j, nb, k, l) ∈ seedTuples g minPatientSupport ↔
      g.G.adjacent j nb ∧ j < nb ∧ (1 ≤ k ∧ k ≤ g.numAlterations) ∧
      (1 ≤ l ∧ l ≤ g.numAlterations) ∧ color_count g j k ≥ minPatientSupport ∧
      color_count g nb l ≥ minPatientSupport := by
  unfold seedTuples Graph.adjacent
  simp only [List.mem_flatMap, List.mem_range]
  constructor
  · rintro ⟨j', hj', h⟩
    split at h
    · rename_i hj0
      simp only [List.mem_flatMap] at h
      obtain ⟨p, hp, h⟩ := h
      split at h
      · rename_i hnb
        simp only [List.mem_flatMap, List.mem_range'_1] at h
        obtain ⟨k', hk', l', hl', h⟩ := h
        split at h
        · rename_i hkl
          simp only [List.mem_singleton, Prod.mk.injEq] at h
          obtain ⟨rfl, rfl, rfl, rfl⟩ := h
          have hk2 : k ≤ g.numAlterations := by omega
          have hl2 : l ≤ g.numAlterations := by omega
          exact ⟨⟨hj', p, hp, rfl⟩, hnb.2, ⟨hk'.1, hk2⟩, ⟨hl'.1, hl2⟩,
            (colorFlag_pos g _ _ _ hk'.1).mp hkl.1,
            (colorFlag_pos g _ _ _ hl'.1).mp hkl.2⟩
        · simp at h
      · simp at h
    · simp at h
  · rintro ⟨⟨hj, p, hp, rfl⟩, hlt, ⟨hk1, hk2⟩, ⟨hl1, hl2⟩, hsk, hsl⟩
    refine ⟨j, hj, ?_⟩
    rw [if_pos ((colorFlag_zero g _ _).mpr ⟨k, hk1, hk2, hsk⟩)]
    simp only [List.mem_flatMap]
    refine ⟨p, hp, ?_⟩
    rw [if_pos ⟨(colorFlag_zero g _ _).mpr ⟨l, hl1, hl2, hsl⟩, hlt⟩]
    simp only [List.mem_flatMap, List.mem_range'_1]
    refine ⟨k, ⟨hk1, by omega⟩, l, ⟨hl1, by omega⟩, ?_⟩
    rw [if_pos ⟨(colorFlag_pos g _ _ _ hk1).mpr hsk, (colorFlag_pos g _ _ _ hl1).mpr hsl⟩]
    simp

theorem seedLevel_spec (g : Globals) (minPatientSupport : Int) :
    ∃ L0, seedLevel g minPatientSupport = some L0 ∧ LevelOK g L0 ∧
      ∀ S, S ∈ L0.keys ↔ ∃ j nb k l, (j, nb, k, l) ∈ seedTuples g minPatientSupport ∧
        S = insert (nb, l) (insert (j, k) ∅) ∧ (jointSupport g S : Int) ≥ minPatientSupport := by
  obtain ⟨st, hst, hok, hkeys⟩ := collect_spec g
    (fun (t : Nat × Nat × Nat × Nat) S =>
      S = insert (t.2.1, t.2.2.2) (insert (t.1, t.2.2.1) ∅) ∧
      (jointSupport g S : Int) ≥ minPatientSupport)
    (seedBody g minPatientSupport) (seedTuples g minPatientSupport) (by
      intro st t _ _
      obtain ⟨P, hP, hM⟩ := seedProfile_spec g t.1 t.2.2.1 t.2.1 t.2.2.2
      have hjs := jointSupport_pair g t.1 t.2.2.1 t.2.1 t.2.2.2
      by_cases hsum : (((List.range g.numSamples).countP (fun m =>
          hasAlteration (g.geneAlterations t.1 m) (t.2.2.1 - 1) &&
          hasAlteration (g.geneAlterations t.2.1 m) (t.2.2.2 - 1)) : Nat) : Int)
          ≥ minPatientSupport
      · left
        refine ⟨insert (t.2.1, t.2.2.2) (insert (t.1, t.2.2.1) ∅), P, ⟨rfl, ?_⟩,
          fun S' h => h.1, ?_, ?_⟩
        · rw [hjs]; exact hsum
        · exact hM.congr (fun m _ => (exhibits_pair g _ _ _ _ m).symm)
        · simp only [seedBody, hP, hsum, if_true]
      · right
        refine ⟨?_, ?_⟩
        · simp only [seedBody, hP, hsum, if_false]
        · rintro S ⟨rfl, h⟩
          rw [hjs] at h
          exact hsum h)
  refine ⟨st.toLevel, ?_, hok.toLevel, ?_⟩
  · simp only [seedLevel, hst, Option.map_some']
  · intro S
    show S ∈ st.subNetwork.map Prod.fst ↔ _
    rw [hkeys]
    constructor
    · rintro ⟨⟨j, nb, k, l⟩, ht, hS, hsup⟩
      exact ⟨j, nb, k, l, ht, hS, hsup⟩
    · rintro ⟨j, nb, k, l, ht, hS, hsup⟩
      exact ⟨(j, nb, k, l), ht, hS, hsup⟩

theorem jointSupport_eq_countP_and (g : Globals) (A B : colored_node_set) :
    jointSupport g (A ∪ B) =
      (List.range g.numSamples).countP (fun m => exhibits g A m && exhibits g B m) := by
  unfold jointSupport
  apply List.countP_congr
  intro m _
  rw [exhibits_union]

theorem mem_growPairs (o : IterOrder) (prev seed : Level)
    (s : (colored_node_set × Nat) × (colored_node_set × Nat)) :
    s ∈ growPairs o prev seed ↔ s.1 ∈ prev.subNetwork ∧ s.2 ∈ seed.subNetwork := by
  unfold growPairs
  simp only [List.mem_flatMap, List.mem_map, (o.perm _).mem_iff]
  constructor
  · rintro ⟨s1, h1, s2, h2, rfl⟩; exact ⟨h1, h2⟩
  · rintro ⟨h1, h2⟩; exact ⟨s.1, h1, s.2, h2, rfl⟩

theorem growStep_spec (o : IterOrder) (g : Globals) (minPatientSupport : Int)
    (test : colored_node_set → Bool) (network_size : Nat) (prev seed : Level)
    (hprev : LevelOK g prev) (hseed : LevelOK g seed) :
    ∃ L, growStep o minPatientSupport test network_size prev seed = some L ∧ LevelOK g L ∧
      ∀ S, S ∈ L.keys ↔ ∃ S1 ∈ prev.keys, ∃ S2 ∈ seed.keys, S = S1 ∪ S2 ∧
        S.card = network_size + 2 ∧ test S = true ∧
        (jointSupport g S : Int) ≥ minPatientSupport := by
  obtain ⟨st, hst, hok, hkeys⟩ := collect_spec g
    (fun (s : (colored_node_set × Nat) × (colored_node_set × Nat)) S =>
      S = s.1.1 ∪ s.2.1 ∧ S.card = network_size + 2 ∧ test S = true ∧
      (jointSupport g S : Int) ≥ minPatientSupport)
    (growBody minPatientSupport test network_size prev seed) (growPairs o prev seed) (by
      intro st s hs _
      rw [mem_growPairs] at hs
      obtain ⟨P1, hP1, hM1⟩ := hprev s.1 hs.1
      obtain ⟨P2, hP2, hM2⟩ := hseed s.2 hs.2
      have hM := (hM1.merge hM2).congr (fun m _ => (exhibits_union g s.1.1 s.2.1 m).symm)
      have hsize : ((PatientBitmask.copy P1).mergeBitmask P2).getSize =
          (jointSupport g (s.1.1 ∪ s.2.1) : Int) := hM.size_eq
      by_cases hcard : (s.1.1 ∪ s.2.1).card = network_size + 2
      · by_cases hacc : (test (s.1.1 ∪ s.2.1) &&
            decide (((PatientBitmask.copy P1).mergeBitmask P2).getSize ≥ minPatientSupport))
            = true
        · left
          have hacc' := hacc
          simp only [Bool.and_eq_true, decide_eq_true_eq] at hacc'
          refine ⟨s.1.1 ∪ s.2.1, _, ⟨rfl, hcard, hacc'.1, ?_⟩, fun S' h => h.1, hM, ?_⟩
          · rw [← hsize]; exact hacc'.2
          · simp only [growBody, hcard, if_true, hP1, hP2, hacc]
        · right
          refine ⟨?_, ?_⟩
          · simp only [growBody, hcard, if_true, hP1, hP2, hacc, if_false]
            rfl
          · rintro S ⟨rfl, _, ht, hs'⟩
            apply hacc
            simp only [Bool.and_eq_true, decide_eq_true_eq]
            exact ⟨ht, by rw [hsize]; exact hs'⟩
      · right
        refine ⟨?_, ?_⟩
        · simp only [growBody, hcard, if_false]
        · rintro S ⟨rfl, hc, _⟩
          exact hcard hc)
  refine ⟨st.toLevel, ?_, hok.toLevel, ?_⟩
  · simp only [growStep, hst, Option.map_some']
  · intro S
    show S ∈ st.subNetwork.map Prod.fst ↔ _
    rw [hkeys]
    constructor
    · rintro ⟨s, hs, rfl, hc, ht, hsup⟩
      rw [mem_growPairs] at hs
      exact ⟨s.1.1, List.mem_map_of_mem _ hs.1, s.2.1, List.mem_map_of_mem _ hs.2, rfl, hc, ht,
        hsup⟩
    · rintro ⟨S1, h1, S2, h2, rfl, hc, ht, hsup⟩
      obtain ⟨e1, he1, rfl⟩ := List.mem_map.mp h1
      obtain ⟨e2, he2, rfl⟩ := List.mem_map.mp h2
      exact ⟨(e1, e2), (mem_growPairs o prev seed _).mpr ⟨he1, he2⟩, rfl, hc, ht, hsup⟩

/-! ## The sequence of levels and the loop -/

theorem levelAt_ok (o : IterOrder) (g : Globals) (minPatientSupport : Int)
    (test : colored_node_set → Bool) (k : Nat) :
    ∃ L, levelAt o g minPatientSupport test k = some L ∧ LevelOK g L := by
  induction k with
  | zero =>
    obtain ⟨L0, h0, hok, _⟩ := seedLevel_spec g minPatientSupport
    exact ⟨L0, h0, hok⟩
  | succ k ih =>
    obtain ⟨prev, hprev, hokp⟩ := ih
    obtain ⟨L0, h0, hok0, _⟩ := seedLevel_spec g minPatientSupport
    obtain ⟨L, hL, hokL, _⟩ :=
      growStep_spec o g minPatientSupport test (k + 1) prev L0 hokp hok0
    exact ⟨L, by simp only [levelAt, hprev, h0, hL], hokL⟩

theorem levelAt_succ_keys (o : IterOrder) (g : Globals) (minPatientSupport : Int)
    (test : colored_node_set → Bool) (k : Nat) (prev seed L : Level)
    (hprev : levelAt o g minPatientSupport test k = some prev)
    (hseed : seedLevel g minPatientSupport = some seed)
    (hL : levelAt o g minPatientSupport test (k + 1) = some L) :
    ∀ S, S ∈ L.keys ↔ ∃ S1 ∈ prev.keys, ∃ S2 ∈ seed.keys, S = S1 ∪ S2 ∧
        S.card = k + 1 + 2 ∧ test S = true ∧
        (jointSupport g S : Int) ≥ minPatientSupport := by
  obtain ⟨prev', hprev', hokp⟩ := levelAt_ok o g minPatientSupport test k
  obtain ⟨L0, h0, hok0, _⟩ := seedLevel_spec g minPatientSupport
  rw [hprev] at hprev'; cases hprev'
  rw [hseed] at h0; cases h0
  obtain ⟨L', hL', _, hkeys⟩ :=
    growStep_spec o g minPatientSupport test (k + 1) prev seed hokp hok0
  simp only [levelAt, hprev, hseed, hL'] at hL
  cases hL
  exact hkeys

theorem keys_eq_nil (L : Level) : L.keys = [] ↔ L.subNetwork = [] := by
  simp [Level.keys]

theorem levelAt_empty_succ (o : IterOrder) (g : Globals) (minPatientSupport : Int)
    (test : colored_node_set → Bool) (k : Nat) (E : Level)
    (hE : levelAt o g minPatientSupport test k = some E) (hnil : E.subNetwork = []) :
    ∃ E', levelAt o g minPatientSupport test (k + 1) = some E' ∧ E'.subNetwork = [] := by
  obtain ⟨E', hE', _⟩ := levelAt_ok o g minPatientSupport test (k + 1)
  obtain ⟨L0, h0, _, _⟩ := seedLevel_spec g minPatientSupport
  refine ⟨E', hE', ?_⟩
  have hkeys := levelAt_succ_keys o g minPatientSupport test k E L0 E' hE h0 hE'
  rw [← keys_eq_nil]
  apply List.eq_nil_iff_forall_not_mem.mpr
  intro S hS
  obtain ⟨S1, h1, _⟩ := (hkeys S).mp hS
  rw [(keys_eq_nil E).mpr hnil] at h1
  simp at h1

theorem levelAt_empty_of_le (o : IterOrder) (g : Globals) (minPatientSupport : Int)
    (test : colored_node_set → Bool) (k : Nat) (E : Level)
    (hE : levelAt o g minPatientSupport test k = some E) (hnil : E.subNetwork = [])
    (k' : Nat) (hk : k ≤ k') :
    ∃ E', levelAt o g minPatientSupport test k' = some E' ∧ E'.subNetwork = [] := by
  induction k' with
  | zero =>
    have : k = 0 := by omega
    subst this
    exact ⟨E, hE, hnil⟩
  | succ k' ih =>
    by_cases h : k = k' + 1
    · subst h; exact ⟨E, hE, hnil⟩
    · obtain ⟨E', hE', hnil'⟩ := ih (by omega)
      exact levelAt_empty_succ o g minPatientSupport test k' E' hE' hnil'

/-- What the loop returns, in terms of the sequence of levels: the stored vector is the
sequence up to some index, every stored level after the first is not empty, and the next
level of the sequence is empty. -/
theorem growLoop_spec (o : IterOrder) (g : Globals) (minPatientSupport : Int)
    (test : colored_node_set → Bool) :
    ∀ (fuel : Nat) (levels : List Level) (n : Nat), levels.length = n → 1 ≤ n →
      (∀ k, k < n → levels[k]? = levelAt o g minPatientSupport test k) →
      ∀ lv, growLoop o minPatientSupport test fuel levels n = some lv →
        n ≤ lv.length ∧
        (∀ k, k < lv.length → lv[k]? = levelAt o g minPatientSupport test k) ∧
        (∃ E, levelAt o g minPatientSupport test lv.length = some E ∧ E.subNetwork = []) ∧
        (∀ k, n ≤ k → k < lv.length →
          ∃ L, levelAt o g minPatientSupport test k = some L ∧ L.subNetwork ≠ []) := by
  intro fuel
  induction fuel with
  | zero => intro levels n _ _ _ lv h; simp [growLoop] at h
  | succ fuel ih =>
    intro levels n hlen hn hpre lv h
    obtain ⟨prev, hprev, _⟩ := levelAt_ok o g minPatientSupport test (n - 1)
    obtain ⟨seed, hseed, _⟩ := levelAt_ok o g minPatientSupport test 0
    obtain ⟨next, hnext, _⟩ := levelAt_ok o g minPatientSupport test (n - 1 + 1)
    have hn1 : n - 1 + 1 = n := by omega
    have hstep : growStep o minPatientSupport test n prev seed = some next := by
      have := hnext
      simp only [levelAt, hprev] at this
      have hs : seedLevel g minPatientSupport = some seed := hseed
      simp only [hs, hn1] at this
      exact this
    have h1 : levels[n - 1]? = some prev := by rw [hpre (n - 1) (by omega), hprev]
    have h0 : levels[0]? = some seed := by rw [hpre 0 (by omega), hseed]
    rw [hn1] at hnext
    simp only [growLoop, h1, h0, hstep] at h
    by_cases hemp : next.subNetwork.isEmpty = true
    · simp only [hemp, if_true, Option.some.injEq] at h
      subst h
      refine ⟨by omega, ?_, ?_, ?_⟩
      · intro k hk; exact hpre k (by omega)
      · rw [hlen]; exact ⟨next, hnext, List.isEmpty_iff.mp hemp⟩
      · intro k hk1 hk2; omega
    · simp only [hemp] at h
      have hpre' : ∀ k, k < n + 1 →
          (levels ++ [next])[k]? = levelAt o g minPatientSupport test k := by
        intro k hk
        by_cases hkn : k < n
        · rw [List.getElem?_append_left (by omega)]; exact hpre k hkn
        · have : k = n := by omega
          subst this
          rw [List.getElem?_append_right (by omega), hnext]
          simp [hlen]
      obtain ⟨r1, r2, r3, r4⟩ := ih (levels ++ [next]) (n + 1) (by simp [hlen]) (by omega)
        hpre' lv h
      refine ⟨by omega, r2, r3, ?_⟩
      intro k hk1 hk2
      by_cases hkn : k = n
      · subst hkn
        refine ⟨next, hnext, ?_⟩
        intro hc
        exact hemp (List.isEmpty_iff.mpr hc)
      · exact r4 k (by omega) hk2

/-- The loop returns as soon as the fuel reaches an index at which the level is empty. -/
theorem growLoop_terminates (o : IterOrder) (g : Globals) (minPatientSupport : Int)
    (test : colored_node_set → Bool) (B : Nat)
    (hB : ∃ E, levelAt o g minPatientSupport test B = some E ∧ E.subNetwork = []) :
    ∀ (fuel : Nat) (levels : List Level) (n : Nat), levels.length = n → 1 ≤ n →
      (∀ k, k < n → levels[k]? = levelAt o g minPatientSupport test k) →
      1 ≤ fuel → B < fuel + n →
      ∃ lv, growLoop o minPatientSupport test fuel levels n = some lv := by
  intro fuel
  induction fuel with
  | zero => intro levels n _ _ _ h; omega
  | succ fuel ih =>
    intro levels n hlen hn hpre _ hfuel
    obtain ⟨prev, hprev, _⟩ := levelAt_ok o g minPatientSupport test (n - 1)
    obtain ⟨seed, hseed, _⟩ := levelAt_ok o g minPatientSupport test 0
    obtain ⟨next, hnext, _⟩ := levelAt_ok o g minPatientSupport test (n - 1 + 1)
    have hn1 : n - 1 + 1 = n := by omega
    have hstep : growStep o minPatientSupport test n prev seed = some next := by
      have := hnext
      simp only [levelAt, hprev] at this
      have hs : seedLevel g minPatientSupport = some seed := hseed
      simp only [hs, hn1] at this
      exact this
    have h1 : levels[n - 1]? = some prev := by rw [hpre (n - 1) (by omega), hprev]
    have h0 : levels[0]? = some seed := by rw [hpre 0 (by omega), hseed]
    rw [hn1] at hnext
    simp only [growLoop, h1, h0, hstep]
    by_cases hemp : next.subNetwork.isEmpty = true
    · exact ⟨levels, by simp only [hemp, if_true]⟩
    · simp only [hemp]
      have hpre' : ∀ k, k < n + 1 →
          (levels ++ [next])[k]? = levelAt o g minPatientSupport test k := by
        intro k hk
        by_cases hkn : k < n
        · rw [List.getElem?_append_left (by omega)]; exact hpre k hkn
        · have : k = n := by omega
          subst this
          rw [List.getElem?_append_right (by omega), hnext]
          simp [hlen]
      have hnB : n < B := by
        by_contra hc
        obtain ⟨E, hE, hnil⟩ := hB
        obtain ⟨E', hE', hnil'⟩ :=
          levelAt_empty_of_le o g minPatientSupport test B E hE hnil n (by omega)
        rw [hnext] at hE'
        cases hE'
        exact hemp (List.isEmpty_iff.mpr hnil')
      exact ih (levels ++ [next]) (n + 1) (by simp [hlen]) (by omega) hpre' (by omega)
        (by omega)

/-- The result of `enumerate` in terms of the sequence of levels. -/
theorem enumerate_spec (o : IterOrder) (g : Globals) (minPatientSupport : Int)
    (test : colored_node_set → Bool) (fuel : Nat) (lv : List Level)
    (h : enumerate o g minPatientSupport test fuel = some lv) :
    1 ≤ lv.length ∧
    (∀ k, k < lv.length → lv[k]? = levelAt o g minPatientSupport test k) ∧
    (∃ E, levelAt o g minPatientSupport test lv.length = some E ∧ E.subNetwork = []) ∧
    (∀ k, 1 ≤ k → k < lv.length →
      ∃ L, levelAt o g minPatientSupport test k = some L ∧ L.subNetwork ≠ []) := by
  obtain ⟨L0, h0, _, _⟩ := seedLevel_spec g minPatientSupport
  simp only [enumerate, h0] at h
  exact growLoop_spec o g minPatientSupport test fuel [L0] 1 rfl (Nat.le_refl _)
    (by intro k hk
        have : k = 0 := by omega
        subst this
        simp [levelAt, h0]) lv h

/-! ## Invariants of the stored sets -/

theorem mem_seedNodes (L : Level) (x : colored_node) :
    x ∈ seedNodes L ↔ ∃ S ∈ L.keys, x ∈ S := by
  unfold seedNodes
  induction L.keys with
  | nil => simp
  | cons S l ih =>
    simp only [List.foldr_cons, Finset.mem_union, ih, List.mem_cons, exists_eq_or_imp]

theorem connectedOn_pair (G : Graph) (a b : Nat) (h : G.edge a b) :
    G.connectedOn (insert b (insert a ∅)) := by
  have hba : G.edge b a := h.symm
  refine ⟨⟨b, by simp⟩, ?_⟩
  intro u hu v hv
  simp only [Finset.mem_insert, Finset.not_mem_empty, or_false] at hu hv
  rcases hu with rfl | rfl <;> rcases hv with rfl | rfl
  · exact Relation.ReflTransGen.refl
  · exact Relation.ReflTransGen.single ⟨by simp, by simp, hba⟩
  · exact Relation.ReflTransGen.single ⟨by simp, by simp, h⟩
  · exact Relation.ReflTransGen.refl

theorem connectedOn_union (G : Graph) (T1 T2 : Finset Nat) (h1 : G.connectedOn T1)
    (h2 : G.connectedOn T2) (v : Nat) (hv1 : v ∈ T1) (hv2 : v ∈ T2) :
    G.connectedOn (T1 ∪ T2) := by
  refine ⟨⟨v, Finset.mem_union_left _ hv1⟩, ?_⟩
  have lift1 : ∀ a b, Relation.ReflTransGen (fun a b => a ∈ T1 ∧ b ∈ T1 ∧ G.edge a b) a b →
      Relation.ReflTransGen (fun a b => a ∈ T1 ∪ T2 ∧ b ∈ T1 ∪ T2 ∧ G.edge a b) a b :=
    fun a b h => Relation.ReflTransGen.mono
      (fun x y hxy => ⟨Finset.mem_union_left _ hxy.1, Finset.mem_union_left _ hxy.2.1, hxy.2.2⟩) h
  have lift2 : ∀ a b, Relation.ReflTransGen (fun a b => a ∈ T2 ∧ b ∈ T2 ∧ G.edge a b) a b →
      Relation.ReflTransGen (fun a b => a ∈ T1 ∪ T2 ∧ b ∈ T1 ∪ T2 ∧ G.edge a b) a b :=
    fun a b h => Relation.ReflTransGen.mono
      (fun x y hxy => ⟨Finset.mem_union_right _ hxy.1, Finset.mem_union_right _ hxy.2.1,
        hxy.2.2⟩) h
  have toV : ∀ u, u ∈ T1 ∪ T2 →
      Relation.ReflTransGen (fun a b => a ∈ T1 ∪ T2 ∧ b ∈ T1 ∪ T2 ∧ G.edge a b) u v := by
    intro u hu
    rcases Finset.mem_union.mp hu with hu | hu
    · exact lift1 _ _ (h1.2 u hu v hv1)
    · exact lift2 _ _ (h2.2 u hu v hv2)
  have fromV : ∀ u, u ∈ T1 ∪ T2 →
      Relation.ReflTransGen (fun a b => a ∈ T1 ∪ T2 ∧ b ∈ T1 ∪ T2 ∧ G.edge a b) v u := by
    intro u hu
    rcases Finset.mem_union.mp hu with hu | hu
    · exact lift1 _ _ (h1.2 v hv1 u hu)
    · exact lift2 _ _ (h2.2 v hv2 u hu)
  intro u hu w hw
  exact (toV u hu).trans (fromV w hw)

theorem genesOf_union (A B : colored_node_set) : genesOf (A ∪ B) = genesOf A ∪ genesOf B := by
  unfold genesOf; exact Finset.image_union _ _

theorem genesOf_pair (a b : colored_node) :
    genesOf (insert b (insert a ∅)) = insert b.1 (insert a.1 ∅) := by
  unfold genesOf; simp [Finset.image_insert]

/-- The keys of level 0: the two colors are those that the table qualifies. -/
theorem seed_keys (g : Globals) (minPatientSupport : Int) (L0 : Level)
    (h0 : seedLevel g minPatientSupport = some L0) (S : colored_node_set) :
    S ∈ L0.keys ↔ ∃ j nb k l, S = insert (nb, l) (insert (j, k) ∅) ∧
      g.G.adjacent j nb ∧ j < nb ∧ (1 ≤ k ∧ k ≤ g.numAlterations) ∧
      (1 ≤ l ∧ l ≤ g.numAlterations) ∧ color_count g j k ≥ minPatientSupport ∧
      color_count g nb l ≥ minPatientSupport ∧
      (jointSupport g S : Int) ≥ minPatientSupport := by
  obtain ⟨L0', h0', _, hkeys⟩ := seedLevel_spec g minPatientSupport
  rw [h0] at h0'; cases h0'
  rw [hkeys]
  constructor
  · rintro ⟨j, nb, k, l, ht, hS, hsup⟩
    obtain ⟨a1, a2, a3, a4, a5, a6⟩ := (mem_seedTuples g _ _ _ _ _).mp ht
    exact ⟨j, nb, k, l, hS, a1, a2, a3, a4, a5, a6, hsup⟩
  · rintro ⟨j, nb, k, l, hS, a1, a2, a3, a4, a5, a6, hsup⟩
    exact ⟨j, nb, k, l, (mem_seedTuples g _ _ _ _ _).mpr ⟨a1, a2, a3, a4, a5, a6⟩, hS, hsup⟩

theorem card_pair {j nb k l : Nat} (h : j < nb) :
    (insert (nb, l) (insert (j, k) ∅) : colored_node_set).card = 2 := by
  rw [Finset.card_insert_of_not_mem, Finset.card_insert_of_not_mem] <;> simp
  omega

/-- What holds of every key of level 0. -/
theorem seed_keys_inv (g : Globals) (minPatientSupport : Int) (L0 : Level)
    (h0 : seedLevel g minPatientSupport = some L0) (S : colored_node_set) (hS : S ∈ L0.keys) :
    S.card = 2 ∧ S ⊆ seedNodes L0 ∧ (jointSupport g S : Int) ≥ minPatientSupport ∧
      g.G.connectedOn (genesOf S) ∧ validColors g S := by
  have hsub : S ⊆ seedNodes L0 := fun x hx => (mem_seedNodes L0 x).mpr ⟨S, hS, hx⟩
  obtain ⟨j, nb, kk, l, rfl, hadj, hlt, hk, hl, _, _, hsup⟩ :=
    (seed_keys g minPatientSupport L0 h0 S).mp hS
  refine ⟨card_pair hlt, hsub, hsup, ?_, ?_⟩
  · rw [genesOf_pair]
    exact connectedOn_pair g.G j nb (Or.inl hadj)
  · intro node hnode
    simp only [Finset.mem_insert, Finset.not_mem_empty, or_false] at hnode
    rcases hnode with rfl | rfl
    · exact hl
    · exact hk

/-- What holds of every key of every level of the sequence. -/
theorem levelAt_keys_inv (o : IterOrder) (g : Globals) (minPatientSupport : Int)
    (test : colored_node_set → Bool) (L0 : Level)
    (h0 : seedLevel g minPatientSupport = some L0) :
    ∀ (k : Nat) (L : Level) (S : colored_node_set),
      levelAt o g minPatientSupport test k = some L → S ∈ L.keys →
      S.card = k + 2 ∧ S ⊆ seedNodes L0 ∧ (jointSupport g S : Int) ≥ minPatientSupport ∧
      g.G.connectedOn (genesOf S) ∧ validColors g S := by
  intro k
  induction k with
  | zero =>
    intro L S hL hS
    have hL' : seedLevel g minPatientSupport = some L := hL
    rw [h0] at hL'; cases hL'
    exact seed_keys_inv g minPatientSupport L0 h0 S hS
  | succ k ih =>
    intro L S hL hS
    obtain ⟨prev, hprev, _⟩ := levelAt_ok o g minPatientSupport test k
    obtain ⟨S1, h1, S2, h2, rfl, hcard, _, hsup⟩ :=
      (levelAt_succ_keys o g minPatientSupport test k prev L0 L hprev h0 hL S).mp hS
    obtain ⟨c1, s1, _, conn1, v1⟩ := ih prev S1 hprev h1
    obtain ⟨c2, s2, _, conn2, v2⟩ := seed_keys_inv g minPatientSupport L0 h0 S2 h2
    refine ⟨by omega, Finset.union_subset s1 s2, hsup, ?_, ?_⟩
    · have hinter : (S1 ∩ S2).Nonempty := by
        rw [← Finset.card_pos]
        have := Finset.card_union_add_card_inter S1 S2
        omega
      obtain ⟨x, hx⟩ := hinter
      rw [genesOf_union]
      exact connectedOn_union g.G _ _ conn1 conn2 x.1
        (Finset.mem_image_of_mem _ (Finset.mem_of_mem_inter_left hx))
        (Finset.mem_image_of_mem _ (Finset.mem_of_mem_inter_right hx))
    · intro node hnode
      rcases Finset.mem_union.mp hnode with h | h
      · exact v1 node h
      · exact v2 node h

/-! ## Evaluation on the two small inputs -/

theorem pathGlobals_run :
    solveMaxNetworkSize IterOrder.insertion pathGlobals 2 3 = some pathLevels := by decide

theorem pathGlobals_run_colorful :
    solveMaxColorfulNetwork IterOrder.insertion pathGlobals 2 false 3 =
      some [⟨[({(1, 1), (0, 1)}, 0), ({(2, 1), (1, 1)}, 1)],
        [(0, ⟨2, 2, 1, [3]⟩), (1, ⟨2, 2, 1, [3]⟩)]⟩] := by decide

theorem twoColorGlobals_run :
    solveMaxNetworkSize IterOrder.insertion twoColorGlobals 1 3 = some twoColorLevels := by
  decide

/-! ## From the result of a run to the sequence of levels -/

theorem run_cases (o : IterOrder) (g : Globals) (minPatientSupport : Int)
    (exprout_inclusive_ : Bool) (fuel : Nat) (lv : List Level)
    (h : solveMaxNetworkSize o g minPatientSupport fuel = some lv ∨
      solveMaxColorfulNetwork o g minPatientSupport exprout_inclusive_ fuel = some lv) :
    ∃ test, enumerate o g minPatientSupport test fuel = some lv := by
  rcases h with h | h
  · exact ⟨fun _ => true, h⟩
  · exact ⟨colorful_test g exprout_inclusive_, h⟩

theorem stored_level (o : IterOrder) (g : Globals) (minPatientSupport : Int)
    (test : colored_node_set → Bool) (fuel : Nat) (lv : List Level)
    (h : enumerate o g minPatientSupport test fuel = some lv) (k : Nat) (L : Level)
    (hL : lv[k]? = some L) : levelAt o g minPatientSupport test k = some L := by
  obtain ⟨_, hpre, _, _⟩ := enumerate_spec o g minPatientSupport test fuel lv h
  have hk : k < lv.length := by
    by_contra hc
    rw [List.getElem?_eq_none (by omega)] at hL
    exact Option.noConfusion hL
  rw [← hpre k hk, hL]

theorem mem_keys_of_mem {L : Level} {S : colored_node_set} {id : Nat}
    (h : (S, id) ∈ L.subNetwork) : S ∈ L.keys :=
  List.mem_map.mpr ⟨(S, id), h, rfl⟩

theorem exhibits_iff (g : Globals) (S : colored_node_set) (m : Nat) :
    exhibits g S m = true ↔
      ∀ node ∈ S, (g.geneAlterations node.1 m).testBit (node.2 - 1) = true := by
  simp [exhibits]

theorem stored_mask (o : IterOrder) (g : Globals) (minPatientSupport : Int)
    (test : colored_node_set → Bool) (fuel : Nat) (lv : List Level)
    (h : enumerate o g minPatientSupport test fuel = some lv) (k : Nat) (L : Level)
    (hL : lv[k]? = some L) (S : colored_node_set) (id : Nat) (he : (S, id) ∈ L.subNetwork) :
    ∃ mask, umFind L.patientProfile id = some mask ∧
      MaskRep g.numSamples (exhibits g S) mask := by
  obtain ⟨L', hL', hok⟩ := levelAt_ok o g minPatientSupport test k
  rw [stored_level o g minPatientSupport test fuel lv h k L hL] at hL'
  cases hL'
  exact hok (S, id) he

/-! ## The claims -/

/-- C1. Every entry `(S, id)` stored at any level by `solveMaxNetworkSize` has a profile, and
for every sample `m` bit `m` of that profile is set if and only if, for every colored node
`(gene, c)` of `S`, the mask `geneAlterations[gene][m]` has bit `c - 1`. -/
theorem C1_stored_mask_is_exact_support (o : IterOrder) (g : Globals)
    (minPatientSupport : Int) (fuel : Nat) (lv : List Level) (k : Nat) (L : Level)
    (S : colored_node_set) (id : Nat)
    (h : solveMaxNetworkSize o g minPatientSupport fuel = some lv)
    (hL : lv[k]? = some L) (he : (S, id) ∈ L.subNetwork) :
    ∃ mask, umFind L.patientProfile id = some mask ∧
      ∀ m, m < g.numSamples → ∃ b, mask.getBit m = some b ∧
        (b = true ↔ ∀ node ∈ S, (g.geneAlterations node.1 m).testBit (node.2 - 1) = true) := by
  obtain ⟨mask, hmask, hrep⟩ :=
    stored_mask o g minPatientSupport (fun _ => true) fuel lv h k L hL S id he
  refine ⟨mask, hmask, fun m hm => ⟨exhibits g S m, ?_, exhibits_iff g S m⟩⟩
  rw [MaskUpTo.getBit hrep hm]
  simp [hm]

/-- C1 on the path input: the three-node set of level 1 has the profile with both bits. -/
theorem C1_witness :
    ∃ mask, umFind [(0, (⟨2, 2, 1, [3]⟩ : PatientBitmask))] 0 = some mask ∧
      ∀ m, m < pathGlobals.numSamples → ∃ b, mask.getBit m = some b ∧
        (b = true ↔ ∀ node ∈ ({(1, 1), (0, 1)} ∪ {(2, 1), (1, 1)} : colored_node_set),
          (pathGlobals.geneAlterations node.1 m).testBit (node.2 - 1) = true) :=
  C1_stored_mask_is_exact_support IterOrder.insertion pathGlobals 2 3 pathLevels 1
    ⟨[({(1, 1), (0, 1)} ∪ {(2, 1), (1, 1)}, 0)], [(0, ⟨2, 2, 1, [3]⟩)]⟩
    ({(1, 1), (0, 1)} ∪ {(2, 1), (1, 1)}) 0 (by decide) (by decide) (by decide)

/-- C2. Every profile stored at any level by `solveMaxNetworkSize` or by
`solveMaxColorfulNetwork` (either mode) has `getSize() >= minPatientSupport`. -/
theorem C2_stored_support_meets_threshold (o : IterOrder) (g : Globals)
    (minPatientSupport : Int) (exprout_inclusive_ : Bool) (fuel : Nat) (lv : List Level)
    (k : Nat) (L : Level) (S : colored_node_set) (id : Nat)
    (h : solveMaxNetworkSize o g minPatientSupport fuel = some lv ∨
      solveMaxColorfulNetwork o g minPatientSupport exprout_inclusive_ fuel = some lv)
    (hL : lv[k]? = some L) (he : (S, id) ∈ L.subNetwork) :
    ∃ mask, umFind L.patientProfile id = some mask ∧ mask.getSize ≥ minPatientSupport := by
  obtain ⟨test, ht⟩ := run_cases o g minPatientSupport exprout_inclusive_ fuel lv h
  obtain ⟨mask, hmask, hrep⟩ := stored_mask o g minPatientSupport test fuel lv ht k L hL S id he
  obtain ⟨L0, h0, _, _⟩ := seedLevel_spec g minPatientSupport
  obtain ⟨_, _, hsup, _, _⟩ := levelAt_keys_inv o g minPatientSupport test L0 h0 k L S
    (stored_level o g minPatientSupport test fuel lv ht k L hL) (mem_keys_of_mem he)
  refine ⟨mask, hmask, ?_⟩
  show mask.size ≥ minPatientSupport
  rw [hrep.size_eq]
  exact hsup

/-- C2 on the path input, in the plain colorful mode: the first seed has count 2, the
threshold. -/
theorem C2_witness :
    ∃ mask, umFind [(0, (⟨2, 2, 1, [3]⟩ : PatientBitmask)), (1, ⟨2, 2, 1, [3]⟩)] 0 = some mask ∧
      mask.getSize ≥ 2 :=
  C2_stored_support_meets_threshold IterOrder.insertion pathGlobals 2 false 3
    [⟨[({(1, 1), (0, 1)}, 0), ({(2, 1), (1, 1)}, 1)], [(0, ⟨2, 2, 1, [3]⟩), (1, ⟨2, 2, 1, [3]⟩)]⟩]
    0 ⟨[({(1, 1), (0, 1)}, 0), ({(2, 1), (1, 1)}, 1)], [(0, ⟨2, 2, 1, [3]⟩), (1, ⟨2, 2, 1, [3]⟩)]⟩
    {(1, 1), (0, 1)} 0 (Or.inr (by decide)) (by decide) (by decide)

theorem pair_eq (a b : colored_node) :
    (insert b (insert a ∅) : colored_node_set) = {a, b} := by
  ext x; simp only [Finset.mem_insert, Finset.not_mem_empty, or_false, Finset.mem_singleton]
  tauto

theorem exhibits_pair_testBit (g : Globals) (g1 c1 g2 c2 m : Nat) :
    exhibits g {(g1, c1), (g2, c2)} m =
      ((g.geneAlterations g1 m).testBit (c1 - 1) && (g.geneAlterations g2 m).testBit (c2 - 1)) := by
  rw [← pair_eq, exhibits_pair, hasAlteration_eq_testBit, hasAlteration_eq_testBit]

theorem jointSupport_le_support (g : Globals) (S : colored_node_set) (x : colored_node)
    (hx : x ∈ S) : jointSupport g S ≤ support g x.1 x.2 := by
  unfold jointSupport support
  apply List.countP_mono_left
  intro m _ hm
  exact (exhibits_iff g S m).mp hm x hx

/-- When no stale cell of the table holds a negative value, level 0 built by
`solveMaxNetworkSize` holds exactly the sets `{(g1,c1),(g2,c2)}`, for color ids of the
catalog, with `g1 < g2`, `g2` in the neighbour list of `g1`, both `support(g1,c1)` and
`support(g2,c2)` at least `minPatientSupport`, and at least `minPatientSupport` samples in
which `g1` has color `c1` and `g2` has color `c2`; the profile stored with such a set has
exactly the bits of those samples. -/
theorem level0_characterisation (o : IterOrder) (g : Globals) (minPatientSupport : Int)
    (fuel : Nat) (lv : List Level) (hn : g.staleNonneg)
    (h : solveMaxNetworkSize o g minPatientSupport fuel = some lv) :
    ∃ L0, lv[0]? = some L0 ∧
      (∀ S, S ∈ L0.keys ↔ ∃ g1 c1 g2 c2, S = {(g1, c1), (g2, c2)} ∧
        (1 ≤ c1 ∧ c1 ≤ g.numAlterations) ∧ (1 ≤ c2 ∧ c2 ≤ g.numAlterations) ∧
        g1 < g2 ∧ g.G.adjacent g1 g2 ∧
        (support g g1 c1 : Int) ≥ minPatientSupport ∧
        (support g g2 c2 : Int) ≥ minPatientSupport ∧
        (((List.range g.numSamples).countP (fun m =>
          (g.geneAlterations g1 m).testBit (c1 - 1) &&
          (g.geneAlterations g2 m).testBit (c2 - 1)) : Nat) : Int) ≥ minPatientSupport) ∧
      (∀ g1 c1 g2 c2 id, ({(g1, c1), (g2, c2)}, id) ∈ L0.subNetwork →
        ∃ mask, umFind L0.patientProfile id = some mask ∧
          ∀ m, m < g.numSamples → mask.getBit m =
            some ((g.geneAlterations g1 m).testBit (c1 - 1) &&
              (g.geneAlterations g2 m).testBit (c2 - 1))) := by
  obtain ⟨hlen, hpre, _, _⟩ :=
    enumerate_spec o g minPatientSupport (fun _ => true) fuel lv h
  obtain ⟨L0, h0, _, _⟩ := seedLevel_spec g minPatientSupport
  have hlv0 : lv[0]? = some L0 := by rw [hpre 0 (by omega)]; exact h0
  refine ⟨L0, hlv0, ?_, ?_⟩
  · intro S
    rw [seed_keys g minPatientSupport L0 h0 S]
    have hcount : ∀ g1 c1 g2 c2, jointSupport g {(g1, c1), (g2, c2)} =
        (List.range g.numSamples).countP (fun m =>
          (g.geneAlterations g1 m).testBit (c1 - 1) &&
          (g.geneAlterations g2 m).testBit (c2 - 1)) := by
      intro g1 c1 g2 c2
      unfold jointSupport
      apply List.countP_congr
      intro m _
      rw [exhibits_pair_testBit]
    constructor
    · rintro ⟨j, nb, k, l, rfl, hadj, hlt, hk, hl, _, _, hsup⟩
      have hsk := jointSupport_le_support g (insert (nb, l) (insert (j, k) ∅)) (j, k)
        (by simp)
      have hsl := jointSupport_le_support g (insert (nb, l) (insert (j, k) ∅)) (nb, l)
        (by simp)
      simp only at hsk hsl
      refine ⟨j, k, nb, l, pair_eq _ _, hk, hl, hlt, hadj, by omega, by omega, ?_⟩
      rw [pair_eq, hcount] at hsup
      exact hsup
    · rintro ⟨g1, c1, g2, c2, rfl, hk, hl, hlt, hadj, hsk, hsl, hsup⟩
      rw [← hcount] at hsup
      have h1 := support_le_color_count g hn g1 c1 hk.1 hk.2
      have h2 := support_le_color_count g hn g2 c2 hl.1 hl.2
      exact ⟨g1, g2, c1, c2, (pair_eq _ _).symm, hadj, hlt, hk, hl, by omega, by omega, hsup⟩
  · intro g1 c1 g2 c2 id he
    obtain ⟨mask, hmask, hrep⟩ :=
      stored_mask o g minPatientSupport (fun _ => true) fuel lv h 0 L0 hlv0 _ id he
    refine ⟨mask, hmask, fun m hm => ?_⟩
    rw [MaskUpTo.getBit hrep hm, exhibits_pair_testBit]
    simp [hm]

/-- The characterisation of level 0 on the path input with threshold 2. -/
theorem level0_characterisation_on_path :
    ∃ L0, pathLevels[0]? = some L0 ∧
      (∀ S, S ∈ L0.keys ↔ ∃ g1 c1 g2 c2, S = {(g1, c1), (g2, c2)} ∧
        (1 ≤ c1 ∧ c1 ≤ pathGlobals.numAlterations) ∧
        (1 ≤ c2 ∧ c2 ≤ pathGlobals.numAlterations) ∧
        g1 < g2 ∧ pathGlobals.G.adjacent g1 g2 ∧
        (support pathGlobals g1 c1 : Int) ≥ 2 ∧
        (support pathGlobals g2 c2 : Int) ≥ 2 ∧
        (((List.range pathGlobals.numSamples).countP (fun m =>
          (pathGlobals.geneAlterations g1 m).testBit (c1 - 1) &&
          (pathGlobals.geneAlterations g2 m).testBit (c2 - 1)) : Nat) : Int) ≥ 2) ∧
      (∀ g1 c1 g2 c2 id, ({(g1, c1), (g2, c2)}, id) ∈ L0.subNetwork →
        ∃ mask, umFind L0.patientProfile id = some mask ∧
          ∀ m, m < pathGlobals.numSamples → mask.getBit m =
            some ((pathGlobals.geneAlterations g1 m).testBit (c1 - 1) &&
              (pathGlobals.geneAlterations g2 m).testBit (c2 - 1))) :=
  level0_characterisation IterOrder.insertion pathGlobals 2 3 pathLevels
    (fun _ => Int.le_refl 0) (by decide)

/-- C4. Every set stored at level `k` by `solveMaxNetworkSize` or `solveMaxColorfulNetwork`
has exactly `k + 2` colored nodes, and for `k >= 1` it is a set of level `k - 1` extended by
one colored node of a level-0 seed that the set of level `k - 1` does not contain. -/
theorem C4_level_sizes (o : IterOrder) (g : Globals) (minPatientSupport : Int)
    (exprout_inclusive_ : Bool) (fuel : Nat) (lv : List Level) (k : Nat) (L : Level)
    (S : colored_node_set)
    (h : solveMaxNetworkSize o g minPatientSupport fuel = some lv ∨
      solveMaxColorfulNetwork o g minPatientSupport exprout_inclusive_ fuel = some lv)
    (hL : lv[k]? = some L) (hS : S ∈ L.keys) :
    S.card = k + 2 ∧
    (1 ≤ k → ∃ prev L0 S1 S2 x, lv[k - 1]? = some prev ∧ lv[0]? = some L0 ∧
      S1 ∈ prev.keys ∧ S2 ∈ L0.keys ∧ x ∈ S2 ∧ x ∉ S1 ∧ S = insert x S1) := by
  obtain ⟨test, ht⟩ := run_cases o g minPatientSupport exprout_inclusive_ fuel lv h
  obtain ⟨hlen, hpre, _, _⟩ := enumerate_spec o g minPatientSupport test fuel lv ht
  obtain ⟨L0, h0, _, _⟩ := seedLevel_spec g minPatientSupport
  have hlev := stored_level o g minPatientSupport test fuel lv ht k L hL
  have hk : k < lv.length := by
    by_contra hc
    rw [List.getElem?_eq_none (by omega)] at hL
    exact Option.noConfusion hL
  refine ⟨(levelAt_keys_inv o g minPatientSupport test L0 h0 k L S hlev hS).1, ?_⟩
  intro hk1
  obtain ⟨k', rfl⟩ : ∃ k', k = k' + 1 := ⟨k - 1, by omega⟩
  obtain ⟨prev, hprev, _⟩ := levelAt_ok o g minPatientSupport test k'
  obtain ⟨S1, h1, S2, h2, rfl, hcard, _, _⟩ :=
    (levelAt_succ_keys o g minPatientSupport test k' prev L0 L hprev h0 hlev S).mp hS
  have c1 := (levelAt_keys_inv o g minPatientSupport test L0 h0 k' prev S1 hprev h1).1
  have hsd : (S2 \ S1).card = 1 := by
    have := Finset.card_sdiff_add_card S2 S1
    rw [Finset.union_comm] at this
    omega
  obtain ⟨x, hx⟩ := Finset.card_eq_one.mp hsd
  have hxmem : x ∈ S2 \ S1 := by rw [hx]; exact Finset.mem_singleton_self x
  rw [Finset.mem_sdiff] at hxmem
  refine ⟨prev, L0, S1, S2, x, ?_, ?_, h1, h2, hxmem.1, hxmem.2, ?_⟩
  · rw [Nat.add_sub_cancel, hpre k' (by omega), hprev]
  · rw [hpre 0 (by omega)]; exact h0
  · rw [← Finset.union_sdiff_self_eq_union, hx, Finset.union_comm]
    rfl

/-- C4 on the path input: the stored set of level 1 has three colored nodes and extends a
set of level 0. -/
theorem C4_witness :
    ({(1, 1), (0, 1)} ∪ {(2, 1), (1, 1)} : colored_node_set).card = 1 + 2 ∧
    (1 ≤ 1 → ∃ prev L0 S1 S2 x, pathLevels[1 - 1]? = some prev ∧ pathLevels[0]? = some L0 ∧
      S1 ∈ prev.keys ∧ S2 ∈ L0.keys ∧ x ∈ S2 ∧ x ∉ S1 ∧
      ({(1, 1), (0, 1)} ∪ {(2, 1), (1, 1)} : colored_node_set) = insert x S1) :=
  C4_level_sizes IterOrder.insertion pathGlobals 2 false 3 pathLevels 1
    ⟨[({(1, 1), (0, 1)} ∪ {(2, 1), (1, 1)}, 0)], [(0, ⟨2, 2, 1, [3]⟩)]⟩
    ({(1, 1), (0, 1)} ∪ {(2, 1), (1, 1)}) (Or.inl (by decide)) (by decide) (by decide)

/-- C5, as stated, fails: on the input `twoColorGlobals` (one sample carrying two alteration
types on gene 0) with threshold 1, `solveMaxNetworkSize` stores at level 1 a set in which
gene 0 occurs with color 1 and with color 2. -/
theorem C5_counterexample :
    solveMaxNetworkSize IterOrder.insertion twoColorGlobals 1 3 = some twoColorLevels ∧
    twoColorLevels[1]? =
      some ⟨[({(1, 1), (0, 1)} ∪ {(1, 1), (0, 2)}, 0)], [(0, ⟨1, 1, 1, [1]⟩)]⟩ ∧
    (0, 1) ∈ ({(1, 1), (0, 1)} ∪ {(1, 1), (0, 2)} : colored_node_set) ∧
    (0, 2) ∈ ({(1, 1), (0, 1)} ∪ {(1, 1), (0, 2)} : colored_node_set) ∧
    ¬ distinctGenes ({(1, 1), (0, 1)} ∪ {(1, 1), (0, 2)}) := by
  refine ⟨by decide, by decide, by decide, by decide, ?_⟩
  intro hd
  have := hd (0, 1) (by decide) (0, 2) (by decide) rfl
  exact absurd this (by decide)

/-- C5, amended. When `minPatientSupport >= 1` and no sample carries two alteration types
on one gene, the genes of every set stored at any level by `solveMaxNetworkSize` or
`solveMaxColorfulNetwork` are pairwise distinct. -/
theorem C5_distinct_genes_single_alteration (o : IterOrder) (g : Globals)
    (minPatientSupport : Int) (exprout_inclusive_ : Bool) (fuel : Nat) (lv : List Level)
    (k : Nat) (L : Level) (S : colored_node_set)
    (h : solveMaxNetworkSize o g minPatientSupport fuel = some lv ∨
      solveMaxColorfulNetwork o g minPatientSupport exprout_inclusive_ fuel = some lv)
    (hL : lv[k]? = some L) (hS : S ∈ L.keys) (hmin : 1 ≤ minPatientSupport)
    (hsingle : ∀ gene m a b, m < g.numSamples → (g.geneAlterations gene m).testBit a = true →
      (g.geneAlterations gene m).testBit b = true → a = b) :
    distinctGenes S := by
  obtain ⟨test, ht⟩ := run_cases o g minPatientSupport exprout_inclusive_ fuel lv h
  obtain ⟨L0, h0, _, _⟩ := seedLevel_spec g minPatientSupport
  obtain ⟨_, _, hsup, _, hvalid⟩ := levelAt_keys_inv o g minPatientSupport test L0 h0 k L S
    (stored_level o g minPatientSupport test fuel lv ht k L hL) hS
  have hpos : 0 < jointSupport g S := by omega
  obtain ⟨m, hm, hex⟩ := List.countP_pos_iff.mp hpos
  rw [exhibits_iff] at hex
  intro x hx y hy hxy
  have hbx := hex x hx
  have hby := hex y hy
  rw [hxy] at hbx
  have := hsingle y.1 m (x.2 - 1) (y.2 - 1) (List.mem_range.mp hm) hbx hby
  have hx1 := (hvalid x hx).1
  have hy1 := (hvalid y hy).1
  exact Prod.ext hxy (by omega)

/-- C5, amended, on the path input: the genes of the stored three-node set are distinct. -/
theorem C5_witness :
    distinctGenes ({(1, 1), (0, 1)} ∪ {(2, 1), (1, 1)} : colored_node_set) :=
  C5_distinct_genes_single_alteration IterOrder.insertion pathGlobals 2 false 3 pathLevels 1
    ⟨[({(1, 1), (0, 1)} ∪ {(2, 1), (1, 1)}, 0)], [(0, ⟨2, 2, 1, [3]⟩)]⟩
    ({(1, 1), (0, 1)} ∪ {(2, 1), (1, 1)}) (Or.inl (by decide)) (by decide) (by decide)
    (by decide)
    (by
      intro gene m a b _ ha hb
      have key : ∀ c, (pathGlobals.geneAlterations gene m).testBit c = true → c = 0 := by
        intro c hc
        by_contra hne
        have hval : pathGlobals.geneAlterations gene m = 1 ∨
            pathGlobals.geneAlterations gene m = 0 := by
          simp only [pathGlobals]; split <;> simp
        rcases hval with hv | hv
        · rw [hv] at hc
          obtain ⟨c', rfl⟩ := Nat.exists_eq_succ_of_ne_zero hne
          simp [Nat.testBit_succ] at hc
        · rw [hv] at hc; simp at hc
      rw [key a ha, key b hb])

theorem pathGlobals_connected :
    pathGlobals.G.connectedOn (genesOf ({(1, 1), (0, 1)} ∪ {(2, 1), (1, 1)})) := by
  have e01 : pathGlobals.G.edge 0 1 := Or.inl ⟨by decide, (1, 0), by decide, rfl⟩
  have e12 : pathGlobals.G.edge 1 2 := Or.inl ⟨by decide, (2, 1), by decide, rfl⟩
  have h1 := connectedOn_pair pathGlobals.G 0 1 e01
  have h2 := connectedOn_pair pathGlobals.G 1 2 e12
  have := connectedOn_union pathGlobals.G _ _ h1 h2 1 (by decide) (by decide)
  have hg : genesOf ({(1, 1), (0, 1)} ∪ {(2, 1), (1, 1)}) =
      (insert 1 (insert 0 ∅) : Finset Nat) ∪ insert 2 (insert 1 ∅) := by decide
  rw [hg]; exact this

/-- C6. The genes of every set stored at any level by `solveMaxNetworkSize` or
`solveMaxColorfulNetwork` induce a connected subgraph of the input graph. -/
theorem C6_stored_sets_connected (o : IterOrder) (g : Globals) (minPatientSupport : Int)
    (exprout_inclusive_ : Bool) (fuel : Nat) (lv : List Level) (k : Nat) (L : Level)
    (S : colored_node_set)
    (h : solveMaxNetworkSize o g minPatientSupport fuel = some lv ∨
      solveMaxColorfulNetwork o g minPatientSupport exprout_inclusive_ fuel = some lv)
    (hL : lv[k]? = some L) (hS : S ∈ L.keys) :
    g.G.connectedOn (genesOf S) := by
  obtain ⟨test, ht⟩ := run_cases o g minPatientSupport exprout_inclusive_ fuel lv h
  obtain ⟨L0, h0, _, _⟩ := seedLevel_spec g minPatientSupport
  exact (levelAt_keys_inv o g minPatientSupport test L0 h0 k L S
    (stored_level o g minPatientSupport test fuel lv ht k L hL) hS).2.2.2.1

/-- C6 on the path input: the genes 0, 1, 2 of the stored three-node set are connected. -/
theorem C6_witness :
    pathGlobals.G.connectedOn (genesOf ({(1, 1), (0, 1)} ∪ {(2, 1), (1, 1)})) :=
  C6_stored_sets_connected IterOrder.insertion pathGlobals 2 false 3 pathLevels 1
    ⟨[({(1, 1), (0, 1)} ∪ {(2, 1), (1, 1)}, 0)], [(0, ⟨2, 2, 1, [3]⟩)]⟩
    ({(1, 1), (0, 1)} ∪ {(2, 1), (1, 1)}) (Or.inl (by decide)) (by decide) (by decide)

/-! ## Exhaustiveness of the levels of `solveMaxNetworkSize` -/

/-- A path that starts inside a set and ends outside it crosses its border. -/
theorem exists_crossing {α : Type} (r : α → α → Prop) (P : α → Prop) (a b : α)
    (h : Relation.ReflTransGen r a b) (ha : P a) (hb : ¬ P b) :
    ∃ u v, r u v ∧ P u ∧ ¬ P v := by
  induction h with
  | refl => exact absurd ha hb
  | tail hab hbc ih =>
    rename_i b' c
    by_cases hb' : P b'
    · exact ⟨b', c, hbc, hb', hb⟩
    · exact ih hb'

/-- Two colored nodes of a supported set whose genes are joined by an edge form a seed. -/
theorem seed_of_edge (g : Globals) (minPatientSupport : Int) (L0 : Level)
    (h0 : seedLevel g minPatientSupport = some L0) (hn : g.staleNonneg)
    (hsym : g.G.symmetric)
    (S : colored_node_set) (hcol : validColors g S)
    (hsup : (jointSupport g S : Int) ≥ minPatientSupport) (a x : colored_node)
    (ha : a ∈ S) (hx : x ∈ S) (hne : a.1 ≠ x.1) (hedge : g.G.edge a.1 x.1) :
    ({a, x} : colored_node_set) ∈ L0.keys := by
  have hsub : ({a, x} : colored_node_set) ⊆ S := by
    intro y hy
    simp only [Finset.mem_insert, Finset.mem_singleton] at hy
    rcases hy with rfl | rfl
    · exact ha
    · exact hx
  have hjs : (jointSupport g ({a, x} : colored_node_set) : Int) ≥ minPatientSupport := by
    have := jointSupport_mono g hsub
    omega
  have hsa : color_count g a.1 a.2 ≥ minPatientSupport := by
    have h1 := support_le_color_count g hn a.1 a.2 (hcol a ha).1 (hcol a ha).2
    have := jointSupport_le_support g S a ha
    omega
  have hsx : color_count g x.1 x.2 ≥ minPatientSupport := by
    have h1 := support_le_color_count g hn x.1 x.2 (hcol x hx).1 (hcol x hx).2
    have := jointSupport_le_support g S x hx
    omega
  have hadj : g.G.adjacent a.1 x.1 ∧ g.G.adjacent x.1 a.1 := by
    rcases hedge with h | h
    · exact ⟨h, hsym _ _ h⟩
    · exact ⟨hsym _ _ h, h⟩
  rw [seed_keys g minPatientSupport L0 h0]
  rcases Nat.lt_or_gt_of_ne hne with hlt | hgt
  · refine ⟨a.1, x.1, a.2, x.2, (pair_eq a x).symm, hadj.1, hlt, hcol a ha, hcol x hx, hsa, hsx,
      hjs⟩
  · refine ⟨x.1, a.1, x.2, a.2, ?_, hadj.2, hgt, hcol x hx, hcol a ha, hsx, hsa, hjs⟩
    rw [pair_eq x a, Finset.pair_comm]

/-- A proper non-empty part `T` of a connected set `S` with distinct genes has a colored node
`a` and `S` a colored node `x` outside `T` whose genes are joined by an edge. -/
theorem exists_extension (G : Graph) (S T : colored_node_set) (hdist : distinctGenes S)
    (hconn : G.connectedOn (genesOf S)) (hTS : T ⊆ S) (hne : T ≠ S) (hT : T.Nonempty) :
    ∃ a ∈ T, ∃ x ∈ S, x ∉ T ∧ a.1 ≠ x.1 ∧ G.edge a.1 x.1 := by
  obtain ⟨a0, ha0⟩ := hT
  obtain ⟨y, hyS, hyT⟩ : ∃ y ∈ S, y ∉ T := by
    by_contra hc
    push_neg at hc
    exact hne (Finset.Subset.antisymm hTS hc)
  have hy_gene : y.1 ∉ genesOf T := by
    intro hmem
    obtain ⟨z, hz, hzy⟩ := Finset.mem_image.mp hmem
    have := hdist z (hTS hz) y hyS hzy
    rw [← this] at hyT
    exact hyT hz
  have hpath := hconn.2 a0.1 (Finset.mem_image_of_mem _ (hTS ha0)) y.1
    (Finset.mem_image_of_mem _ hyS)
  obtain ⟨u, v, ⟨_, hvS, huv⟩, huT, hvT⟩ :=
    exists_crossing _ (fun n => n ∈ genesOf T) a0.1 y.1 hpath
      (Finset.mem_image_of_mem _ ha0) hy_gene
  obtain ⟨a, ha, rfl⟩ := Finset.mem_image.mp huT
  obtain ⟨x, hx, rfl⟩ := Finset.mem_image.mp hvS
  refine ⟨a, ha, x, hx, ?_, ?_, huv⟩
  · intro hxT; exact hvT (Finset.mem_image_of_mem _ hxT)
  · intro heq; rw [← heq] at hvT; exact hvT (Finset.mem_image_of_mem _ ha)

/-- Growing a stored part `T` of `S` node by node reaches `S`. -/
theorem exhaustive_from (o : IterOrder) (g : Globals) (minPatientSupport : Int) (L0 : Level)
    (h0 : seedLevel g minPatientSupport = some L0) (hn : g.staleNonneg)
    (hsym : g.G.symmetric)
    (S : colored_node_set) (hcol : validColors g S) (hdist : distinctGenes S)
    (hconn : g.G.connectedOn (genesOf S))
    (hsup : (jointSupport g S : Int) ≥ minPatientSupport) :
    ∀ (d t : Nat) (T : colored_node_set), T ⊆ S → T.card = t + 2 → T.card + d = S.card →
      (∃ L, levelAt o g minPatientSupport (fun _ => true) t = some L ∧ T ∈ L.keys) →
      ∃ L, levelAt o g minPatientSupport (fun _ => true) (t + d) = some L ∧ S ∈ L.keys := by
  intro d
  induction d with
  | zero =>
    intro t T hTS _ hd hT
    have : T = S := Finset.eq_of_subset_of_card_le hTS (by omega)
    subst this
    exact hT
  | succ d ih =>
    intro t T hTS hcard hd ⟨L, hL, hT⟩
    have hne : T ≠ S := by
      intro hc; rw [hc] at hd; omega
    have hTne : T.Nonempty := by
      rw [← Finset.card_pos]; omega
    obtain ⟨a, ha, x, hx, hxT, hax, hedge⟩ := exists_extension g.G S T hdist hconn hTS hne hTne
    have hseed := seed_of_edge g minPatientSupport L0 h0 hn hsym S hcol hsup a x (hTS ha) hx
      hax hedge
    have hunion : T ∪ {a, x} = insert x T := by
      ext y
      simp only [Finset.mem_union, Finset.mem_insert, Finset.mem_singleton]
      constructor
      · rintro (h | rfl | rfl)
        · exact Or.inr h
        · exact Or.inr ha
        · exact Or.inl rfl
      · rintro (rfl | h)
        · exact Or.inr (Or.inr rfl)
        · exact Or.inl h
    have hsub : insert x T ⊆ S := Finset.insert_subset hx hTS
    obtain ⟨L', hL', _⟩ := levelAt_ok o g minPatientSupport (fun _ => true) (t + 1)
    have hmem : insert x T ∈ L'.keys := by
      rw [levelAt_succ_keys o g minPatientSupport (fun _ => true) t L L0 L' hL h0 hL']
      refine ⟨T, hT, {a, x}, hseed, hunion.symm, ?_, rfl, ?_⟩
      · rw [Finset.card_insert_of_not_mem hxT]; omega
      · have := jointSupport_mono g hsub
        omega
    have := ih (t + 1) (insert x T) hsub
      (by rw [Finset.card_insert_of_not_mem hxT]; omega)
      (by rw [Finset.card_insert_of_not_mem hxT]; omega) ⟨L', hL', hmem⟩
    rw [show t + (d + 1) = t + 1 + d by omega]
    exact this

/-- When no stale cell of the table holds a negative value, every connected set of `k + 2`
colored nodes with distinct genes, colors of the catalog and joint support at least the
threshold is a key of level `k` of the sequence. -/
theorem exhaustive_levelAt (o : IterOrder) (g : Globals) (minPatientSupport : Int)
    (hn : g.staleNonneg) (hsym : g.G.symmetric) (S : colored_node_set) (k : Nat) (hcol : validColors g S)
    (hcard : S.card = k + 2) (hdist : distinctGenes S) (hconn : g.G.connectedOn (genesOf S))
    (hsup : (jointSupport g S : Int) ≥ minPatientSupport) :
    ∃ L, levelAt o g minPatientSupport (fun _ => true) k = some L ∧ S ∈ L.keys := by
  obtain ⟨L0, h0, _, _⟩ := seedLevel_spec g minPatientSupport
  obtain ⟨a0, ha0⟩ : S.Nonempty := by rw [← Finset.card_pos]; omega
  have hsub0 : ({a0} : colored_node_set) ⊆ S := Finset.singleton_subset_iff.mpr ha0
  have hne0 : ({a0} : colored_node_set) ≠ S := by
    intro hc
    have := congrArg Finset.card hc
    rw [Finset.card_singleton] at this
    omega
  obtain ⟨a, ha, x, hx, hxT, hax, hedge⟩ :=
    exists_extension g.G S {a0} hdist hconn hsub0 hne0 (Finset.singleton_nonempty a0)
  rw [Finset.mem_singleton] at ha
  subst ha
  have hseed := seed_of_edge g minPatientSupport L0 h0 hn hsym S hcol hsup a x ha0 hx hax
    hedge
  have hpair : ({a, x} : colored_node_set) ⊆ S := by
    intro y hy
    simp only [Finset.mem_insert, Finset.mem_singleton] at hy
    rcases hy with rfl | rfl
    · exact ha0
    · exact hx
  have hc2 : ({a, x} : colored_node_set).card = 2 := by
    rw [Finset.card_pair]
    intro hc; exact hax (congrArg Prod.fst hc)
  have := exhaustive_from o g minPatientSupport L0 h0 hn hsym S hcol hdist hconn hsup k 0
    {a, x}
    hpair (by rw [hc2]) (by rw [hc2]; omega) ⟨L0, h0, hseed⟩
  rw [Nat.zero_add] at this
  exact this

/-- A level of the sequence that has a key is one of the stored levels. -/
theorem stored_of_nonempty (o : IterOrder) (g : Globals) (minPatientSupport : Int)
    (test : colored_node_set → Bool) (fuel : Nat) (lv : List Level)
    (h : enumerate o g minPatientSupport test fuel = some lv) (k : Nat) (L : Level)
    (S : colored_node_set) (hL : levelAt o g minPatientSupport test k = some L)
    (hS : S ∈ L.keys) : lv[k]? = some L := by
  obtain ⟨_, hpre, ⟨E, hE, hnil⟩, _⟩ := enumerate_spec o g minPatientSupport test fuel lv h
  have hk : k < lv.length := by
    by_contra hc
    obtain ⟨E', hE', hnil'⟩ :=
      levelAt_empty_of_le o g minPatientSupport test lv.length E hE hnil k (by omega)
    rw [hL] at hE'
    cases hE'
    rw [(keys_eq_nil L).mpr hnil'] at hS
    simp at hS
  rw [hpre k hk, hL]

theorem pathGlobals_symmetric : pathGlobals.G.symmetric := by
  rintro a b ⟨ha, p, hp, rfl⟩
  have ha' : a < 3 := ha
  have hcases : a = 0 ∨ a = 1 ∨ a = 2 := by omega
  rcases hcases with rfl | rfl | rfl
  · have : p = (1, 0) := by simpa [pathGlobals] using hp
    subst this
    exact ⟨by decide, (0, 0), by decide, rfl⟩
  · have : p = (0, 0) ∨ p = (2, 1) := by simpa [pathGlobals] using hp
    rcases this with rfl | rfl
    · exact ⟨by decide, (1, 0), by decide, rfl⟩
    · exact ⟨by decide, (1, 0), by decide, rfl⟩
  · have : p = (1, 0) := by simpa [pathGlobals] using hp
    subst this
    exact ⟨by decide, (2, 1), by decide, rfl⟩

/-- When no stale cell of the table holds a negative value: in `solveMaxNetworkSize` on a
graph whose edges are listed at both endpoints, level `k` is exhaustive: every set of
`k + 2` colored nodes (colors of the catalog) with pairwise distinct genes, whose genes
induce a connected subgraph and whose joint support is at least `minPatientSupport`, is
stored at level `k`. -/
theorem levels_exhaustive (o : IterOrder) (g : Globals) (minPatientSupport : Int)
    (fuel : Nat) (lv : List Level) (k : Nat) (S : colored_node_set)
    (h : solveMaxNetworkSize o g minPatientSupport fuel = some lv) (hn : g.staleNonneg)
    (hsym : g.G.symmetric) (hcol : validColors g S) (hcard : S.card = k + 2)
    (hdist : distinctGenes S) (hconn : g.G.connectedOn (genesOf S))
    (hsup : (jointSupport g S : Int) ≥ minPatientSupport) :
    ∃ L, lv[k]? = some L ∧ S ∈ L.keys := by
  obtain ⟨L, hL, hS⟩ :=
    exhaustive_levelAt o g minPatientSupport hn hsym S k hcol hcard hdist hconn hsup
  exact ⟨L, stored_of_nonempty o g minPatientSupport (fun _ => true) fuel lv h k L S hL hS, hS⟩

/-- Exhaustiveness on the path input: the set of all three genes, each with color 1, is
stored at level 1. -/
theorem levels_exhaustive_on_path :
    ∃ L, pathLevels[1]? = some L ∧
      ({(1, 1), (0, 1)} ∪ {(2, 1), (1, 1)} : colored_node_set) ∈ L.keys :=
  levels_exhaustive IterOrder.insertion pathGlobals 2 3 pathLevels 1
    ({(1, 1), (0, 1)} ∪ {(2, 1), (1, 1)}) (by decide) (fun _ => Int.le_refl 0)
    pathGlobals_symmetric
    (by decide) (by decide) (by decide) pathGlobals_connected (by decide)

/-- When no stale cell of the table holds a negative value and `solveMaxNetworkSize` stops
with last stored level `K = lv.length - 1`, on a graph whose edges are listed at both
endpoints, no connected colored node set (colors of the catalog, pairwise distinct genes)
with more than `K + 2` nodes has joint support `>= minPatientSupport`. -/
theorem terminal_level_maximal (o : IterOrder) (g : Globals) (minPatientSupport : Int)
    (fuel : Nat) (lv : List Level) (S : colored_node_set)
    (h : solveMaxNetworkSize o g minPatientSupport fuel = some lv) (hn : g.staleNonneg)
    (hsym : g.G.symmetric) (hcol : validColors g S) (hdist : distinctGenes S)
    (hconn : g.G.connectedOn (genesOf S)) (hbig : (lv.length - 1) + 2 < S.card) :
    (jointSupport g S : Int) < minPatientSupport := by
  by_contra hc
  have hsup : (jointSupport g S : Int) ≥ minPatientSupport := by omega
  obtain ⟨L, hL, hS⟩ := exhaustive_levelAt o g minPatientSupport hn hsym S (S.card - 2) hcol
    (by omega) hdist hconn hsup
  have hst := stored_of_nonempty o g minPatientSupport (fun _ => true) fuel lv h _ L S hL hS
  have hk : S.card - 2 < lv.length := by
    by_contra hge
    rw [List.getElem?_eq_none (by omega)] at hst
    exact Option.noConfusion hst
  omega

/-- Maximality on the path input with threshold 3: only the empty level 0 is stored, and
the three-node set has joint support below 3. -/
theorem terminal_level_maximal_on_path :
    (jointSupport pathGlobals ({(1, 1), (0, 1)} ∪ {(2, 1), (1, 1)}) : Int) < 3 :=
  terminal_level_maximal IterOrder.insertion pathGlobals 3 1 [⟨[], []⟩]
    ({(1, 1), (0, 1)} ∪ {(2, 1), (1, 1)}) (by decide) (fun _ => Int.le_refl 0)
    pathGlobals_symmetric
    (by decide) (by decide) pathGlobals_connected (by decide)

/-! ## Termination -/

theorem levelAt_empty_of_card (o : IterOrder) (g : Globals) (minPatientSupport : Int)
    (test : colored_node_set → Bool) (k : Nat)
    (hk : seedNodeCount g minPatientSupport < k + 2) :
    ∃ E, levelAt o g minPatientSupport test k = some E ∧ E.subNetwork = [] := by
  obtain ⟨L0, h0, _, _⟩ := seedLevel_spec g minPatientSupport
  obtain ⟨E, hE, _⟩ := levelAt_ok o g minPatientSupport test k
  refine ⟨E, hE, ?_⟩
  rw [← keys_eq_nil]
  apply List.eq_nil_iff_forall_not_mem.mpr
  intro S hS
  obtain ⟨hcard, hsub, _⟩ := levelAt_keys_inv o g minPatientSupport test L0 h0 k E S hE hS
  have := Finset.card_le_card hsub
  simp only [seedNodeCount, h0] at hk
  omega

theorem enumerate_terminates (o : IterOrder) (g : Globals) (minPatientSupport : Int)
    (test : colored_node_set → Bool) (fuel : Nat)
    (hfuel : seedNodeCount g minPatientSupport < fuel) :
    ∃ lv, enumerate o g minPatientSupport test fuel = some lv ∧
      (∃ E, levelAt o g minPatientSupport test lv.length = some E ∧ E.subNetwork = []) ∧
      ∀ k L, lv[k]? = some L → seedNodeCount g minPatientSupport < k + 2 →
        L.subNetwork = [] := by
  obtain ⟨L0, h0, _, _⟩ := seedLevel_spec g minPatientSupport
  have hB := levelAt_empty_of_card o g minPatientSupport test
    (seedNodeCount g minPatientSupport - 1) (by omega)
  obtain ⟨lv, hlv⟩ := growLoop_terminates o g minPatientSupport test _ hB fuel [L0] 1 rfl
    (Nat.le_refl _)
    (by intro k hk
        have : k = 0 := by omega
        subst this
        simp [levelAt, h0]) (by omega) (by omega)
  have hrun : enumerate o g minPatientSupport test fuel = some lv := by
    simp only [enumerate, h0, hlv]
  refine ⟨lv, hrun, (enumerate_spec o g minPatientSupport test fuel lv hrun).2.2.1, ?_⟩
  intro k L hL hk
  obtain ⟨E, hE, hnil⟩ := levelAt_empty_of_card o g minPatientSupport test k hk
  rw [stored_level o g minPatientSupport test fuel lv hrun k L hL] at hE
  cases hE
  exact hnil

theorem support_le (g : Globals) (gene c : Nat) : support g gene c ≤ g.numSamples := by
  unfold support
  exact (List.countP_le_length _).trans (by simp)

theorem seedTuples_eq_nil (g : Globals) (minPatientSupport : Int)
    (h : (g.numSamples : Int) < minPatientSupport) : seedTuples g minPatientSupport = [] := by
  apply List.eq_nil_iff_forall_not_mem.mpr
  rintro ⟨j, nb, k, l⟩ ht
  obtain ⟨_, hlt, _, hl, _, hs⟩ := (mem_seedTuples g _ _ _ _ _).mp ht
  rw [color_count_eq_support g nb l hl.1 hl.2 (fun h0 => by omega)] at hs
  have := support_le g nb l
  omega

/-- C10. If `minPatientSupport` exceeds the number of samples, level 0 built by
`solveMaxNetworkSize` is empty and the loop breaks in its first iteration: the stored
vector is the single empty level 0. -/
theorem C10_threshold_above_sample_count (o : IterOrder) (g : Globals)
    (minPatientSupport : Int) (fuel : Nat)
    (h : (g.numSamples : Int) < minPatientSupport) :
    solveMaxNetworkSize o g minPatientSupport (fuel + 1) = some [⟨[], []⟩] := by
  have hseed : seedLevel g minPatientSupport = some ⟨[], []⟩ := by
    simp only [seedLevel, seedTuples_eq_nil g minPatientSupport h]
    rfl
  have hiter : o.iterate [] = [] := List.Perm.eq_nil (o.perm [])
  have hstep : growStep o minPatientSupport (fun _ => true) 1 ⟨[], []⟩ ⟨[], []⟩ =
      some ⟨[], []⟩ := by
    simp only [growStep, growPairs, hiter]
    rfl
  simp only [solveMaxNetworkSize, enumerate, hseed, growLoop]
  simp [hstep]

/-- C10 on the path input: two samples, threshold 3. -/
theorem C10_witness :
    solveMaxNetworkSize IterOrder.reversed pathGlobals 3 (0 + 1) = some [⟨[], []⟩] :=
  C10_threshold_above_sample_count IterOrder.reversed pathGlobals 3 0 (by decide)

/-! ## The two-color input under any iteration order -/

/-- Whatever the iteration order of the maps, `solveMaxNetworkSize` on `twoColorGlobals`
with threshold 1 stores at level 1 the set in which gene 0 has both colors. -/
theorem twoColorGlobals_any_order (o : IterOrder) :
    ∃ lv L, solveMaxNetworkSize o twoColorGlobals 1 4 = some lv ∧ lv[1]? = some L ∧
      ({(1, 1), (0, 1)} ∪ {(1, 1), (0, 2)} : colored_node_set) ∈ L.keys := by
  obtain ⟨lv, hlv, _, _⟩ :=
    enumerate_terminates o twoColorGlobals 1 (fun _ => true) 4 (by decide)
  have h0 : seedLevel twoColorGlobals 1 =
      some ⟨[({(1, 1), (0, 1)}, 0), ({(1, 1), (0, 2)}, 1)],
        [(0, ⟨1, 1, 1, [1]⟩), (1, ⟨1, 1, 1, [1]⟩)]⟩ := by decide
  obtain ⟨L, hL, _⟩ := levelAt_ok o twoColorGlobals 1 (fun _ => true) 1
  have hmem : ({(1, 1), (0, 1)} ∪ {(1, 1), (0, 2)} : colored_node_set) ∈ L.keys := by
    rw [levelAt_succ_keys o twoColorGlobals 1 (fun _ => true) 0 _ _ L h0 h0 hL]
    exact ⟨{(1, 1), (0, 1)}, by decide, {(1, 1), (0, 2)}, by decide, rfl, by decide, rfl,
      by decide⟩
  exact ⟨lv, L, hlv, stored_of_nonempty o twoColorGlobals 1 (fun _ => true) 4 lv hlv 1 L _ hL
    hmem, hmem⟩

/-! ## PatientBitmask: setBit and the population count -/

theorem getBit_eq_bitAt (P : PatientBitmask) (p : Nat) (h : p / 64 < P.len) :
    P.getBit p = some (bitAt P.bits p) := by
  have hidx : ¬ (p / 64 ≥ P.len) := by omega
  simp only [PatientBitmask.getBit, hidx, if_false, and_one_shiftLeft_ne_zero]
  rfl

theorem getBit_eq_none (P : PatientBitmask) (p : Nat) (h : P.len ≤ p / 64) :
    P.getBit p = none := by
  simp only [PatientBitmask.getBit, ge_iff_le, h, if_true]

theorem popcount_eq (P : PatientBitmask) :
    P.popcount = (List.range (64 * P.len)).countP (bitAt P.bits) := by
  unfold PatientBitmask.popcount
  apply List.countP_congr
  intro p hp
  have hp' : p / 64 < P.len := by
    have := List.mem_range.mp hp
    omega
  rw [getBit_eq_bitAt P p hp']
  cases bitAt P.bits p <;> simp

theorem bitAt_flip (bits : List Nat) (p q : Nat) (h : p / 64 < bits.length) :
    bitAt (bits.set (p / 64) (bits.getD (p / 64) 0 ^^^ (1 <<< (p % 64)))) q =
      if q = p then !bitAt bits p else bitAt bits q := by
  rw [bitAt_set _ _ _ _ h, Nat.one_shiftLeft, Nat.testBit_xor, Nat.testBit_two_pow]
  by_cases hq : q = p
  · subst hq
    simp [bitAt]
  · rw [if_neg hq]
    by_cases hw : p / 64 = q / 64
    · have hne : ¬ (p % 64 = q % 64) := by omega
      rw [if_pos hw, hw]
      simp [bitAt, hne]
    · rw [if_neg hw]

theorem countP_flip (f : Nat → Bool) (N p : Nat) (hp : p < N) :
    (List.range N).countP (fun q => if q = p then !f p else f q) + (if f p then 1 else 0) =
      (List.range N).countP f + (if f p then 0 else 1) := by
  induction N with
  | zero => omega
  | succ N ih =>
    rw [countP_range_succ, countP_range_succ]
    by_cases hN : p = N
    · subst hN
      have hsame : (List.range p).countP (fun q => if q = p then !f p else f q) =
          (List.range p).countP f := by
        apply List.countP_congr
        intro q hq
        have : q ≠ p := by have := List.mem_range.mp hq; omega
        simp [this]
      rw [hsame]
      cases f p <;> simp
    · have := ih (by omega)
      have hNp : ¬ (N = p) := fun h => hN h.symm
      simp only [hNp, if_false]
      omega

/-- The state kept by `setBit`: capacity `n`, the constructor's shape, and a running count
equal to the true population count. -/
theorem setBit_step (n : Nat) (P : PatientBitmask) (p : Nat) (v : Bool)
    (hn : P.maxSize = n) (hwf : P.wellFormed) (hsize : P.getSize = P.popcount) (hp : p < n) :
    ∃ P' old, P.getBit p = some old ∧ P.setBit p v = some P' ∧
      P'.maxSize = n ∧ P'.wellFormed ∧ P'.getSize = P'.popcount ∧
      P'.getBit p = some v ∧
      (∀ q, q ≠ p → P'.getBit q = P.getBit q) ∧
      (old = v → P'.getSize = P.getSize) ∧
      (old ≠ v → P'.getSize = P.getSize + (if v then 1 else -1)) := by
  obtain ⟨hlen, hbits⟩ := hwf
  have hidx : p / 64 < P.len := by rw [hlen, hn]; omega
  have hidx' : ¬ (p / 64 ≥ P.len) := by omega
  have hget := getBit_eq_bitAt P p hidx
  by_cases hold : bitAt P.bits p = v
  · refine ⟨P, bitAt P.bits p, hget, ?_, hn, ⟨hlen, hbits⟩, hsize, by rw [hget, hold],
      fun _ _ => rfl, fun _ => rfl, fun h => absurd hold h⟩
    simp [PatientBitmask.setBit, hidx', hget, hold]
  · have hxor : (bitAt P.bits p ^^ v) = true := by
      cases h1 : bitAt P.bits p <;> cases h2 : v <;> simp_all
    have hnot : (!bitAt P.bits p) = v := by
      cases h1 : bitAt P.bits p <;> cases h2 : v <;> simp_all
    have hblen : p / 64 < P.bits.length := by rw [hbits]; exact hidx
    let bits' := P.bits.set (p / 64) (P.bits.getD (p / 64) 0 ^^^ (1 <<< (p % 64)))
    let P' : PatientBitmask :=
      { P with bits := bits', size := P.size + (if v then 1 else -1) }
    have hset : P.setBit p v = some P' := by
      simp only [PatientBitmask.setBit, hidx', if_false, hget, hxor, if_true]
      cases v <;> rfl
    have hbits' : P'.bits.length = P'.len := by
      show (P.bits.set _ _).length = P.len
      rw [List.length_set]; exact hbits
    have hbit' : ∀ q, bitAt P'.bits q = if q = p then v else bitAt P.bits q := by
      intro q
      show bitAt bits' q = _
      rw [bitAt_flip P.bits p q hblen, hnot]
    have hget' : ∀ q, P'.getBit q = if q = p then some v else P.getBit q := by
      intro q
      by_cases hq : q / 64 < P.len
      · rw [getBit_eq_bitAt P' q hq, getBit_eq_bitAt P q hq, hbit' q]
        split <;> rfl
      · have hqp : q ≠ p := by rintro rfl; exact hq hidx
        rw [getBit_eq_none P' q (by show P.len ≤ _; omega), getBit_eq_none P q (by omega),
          if_neg hqp]
    have hpop : (P'.popcount : Int) = P.popcount + (if v then 1 else -1) := by
      rw [popcount_eq, popcount_eq]
      show (((List.range (64 * P.len)).countP (bitAt bits') : Nat) : Int) = _
      have hcongr : (List.range (64 * P.len)).countP (bitAt bits') =
          (List.range (64 * P.len)).countP
            (fun q => if q = p then !bitAt P.bits p else bitAt P.bits q) := by
        apply List.countP_congr
        intro q _
        rw [bitAt_flip P.bits p q hblen]
      have hflip := countP_flip (bitAt P.bits) (64 * P.len) p (by omega)
      rw [hcongr]
      cases hv : v <;> cases hb : bitAt P.bits p <;> simp_all
      all_goals omega
    refine ⟨P', bitAt P.bits p, hget, hset, hn, ⟨hlen, hbits'⟩, ?_, by rw [hget' p, if_pos rfl],
      fun q hq => by rw [hget' q, if_neg hq], fun h => absurd h hold, fun _ => rfl⟩
    show P.size + (if v then 1 else -1) = _
    rw [hpop]
    have : P.size = (P.popcount : Int) := hsize
    rw [this]

theorem new_wellFormed (n : Nat) : (PatientBitmask.new n).wellFormed :=
  ⟨rfl, by simp [PatientBitmask.new]⟩

theorem new_popcount (n : Nat) : (PatientBitmask.new n).popcount = 0 := by
  rw [popcount_eq, List.countP_eq_zero]
  intro p _
  simp [bitAt, PatientBitmask.new, getD_replicate_zero]

theorem setBits_good (n : Nat) (calls : List (Nat × Bool)) :
    ∀ (P : PatientBitmask), P.maxSize = n → P.wellFormed → P.getSize = P.popcount →
      (∀ c ∈ calls, c.1 < n) →
      ∃ Q, P.setBits calls = some Q ∧ Q.maxSize = n ∧ Q.wellFormed ∧
        Q.getSize = Q.popcount := by
  induction calls with
  | nil => intro P hn hwf hs _; exact ⟨P, rfl, hn, hwf, hs⟩
  | cons c calls ih =>
    intro P hn hwf hs hr
    obtain ⟨P', _, _, hset, hn', hwf', hs', _⟩ :=
      setBit_step n P c.1 c.2 hn hwf hs (hr c (List.mem_cons_self _ _))
    obtain ⟨Q, hQ, hQn, hQwf, hQs⟩ := ih P' hn' hwf' hs'
      (fun d hd => hr d (List.mem_cons_of_mem _ hd))
    refine ⟨Q, ?_, hQn, hQwf, hQs⟩
    simp only [PatientBitmask.setBits, List.foldlM_cons, Option.bind_eq_bind, hset,
      Option.some_bind]
    exact hQ

/-- C17. For every capacity `n` and every sequence of calls `setBit(p, v)` with `p < n` on a
freshly constructed mask: all calls succeed and `getSize()` equals the number of positions
at which `getBit` returns true; moreover each single call leaves the count unchanged when
the bit already has value `v`, and changes it by `+1` (for `v = true`) or `-1` (for
`v = false`) when the bit changes. -/
theorem C17_size_is_population_count (n : Nat) (calls : List (Nat × Bool))
    (hrange : ∀ c ∈ calls, c.1 < n) :
    (∃ P, (PatientBitmask.new n).setBits calls = some P ∧ P.getSize = P.popcount) ∧
    (∀ pre c post, calls = pre ++ c :: post →
      ∃ Q Q' old, (PatientBitmask.new n).setBits pre = some Q ∧ Q.getBit c.1 = some old ∧
        Q.setBit c.1 c.2 = some Q' ∧ Q'.getBit c.1 = some c.2 ∧
        (old = c.2 → Q'.getSize = Q.getSize) ∧
        (old ≠ c.2 → Q'.getSize = Q.getSize + (if c.2 then 1 else -1))) := by
  have hnew : (PatientBitmask.new n).getSize = (PatientBitmask.new n).popcount := by
    rw [new_popcount]; rfl
  constructor
  · obtain ⟨P, hP, _, _, hs⟩ :=
      setBits_good n calls (PatientBitmask.new n) rfl (new_wellFormed n) hnew hrange
    exact ⟨P, hP, hs⟩
  · intro pre c post hsplit
    have hpre : ∀ d ∈ pre, d.1 < n := fun d hd => hrange d (by rw [hsplit]; simp [hd])
    have hc : c.1 < n := hrange c (by rw [hsplit]; simp)
    obtain ⟨Q, hQ, hQn, hQwf, hQs⟩ :=
      setBits_good n pre (PatientBitmask.new n) rfl (new_wellFormed n) hnew hpre
    obtain ⟨Q', old, hold, hset, _, _, _, hnewbit, _, hsame, hchg⟩ :=
      setBit_step n Q c.1 c.2 hQn hQwf hQs hc
    exact ⟨Q, Q', old, hQ, hold, hset, hnewbit, hsame, hchg⟩

/-- C17 on capacity 70 with the calls `setBit(3,1)`, `setBit(65,1)`, `setBit(3,1)`,
`setBit(3,0)`. -/
theorem C17_witness :
    (∃ P, (PatientBitmask.new 70).setBits [(3, true), (65, true), (3, true), (3, false)] =
      some P ∧ P.getSize = P.popcount) ∧
    (∀ pre c post, [(3, true), (65, true), (3, true), (3, false)] = pre ++ c :: post →
      ∃ Q Q' old, (PatientBitmask.new 70).setBits pre = some Q ∧ Q.getBit c.1 = some old ∧
        Q.setBit c.1 c.2 = some Q' ∧ Q'.getBit c.1 = some c.2 ∧
        (old = c.2 → Q'.getSize = Q.getSize) ∧
        (old ≠ c.2 → Q'.getSize = Q.getSize + (if c.2 then 1 else -1))) :=
  C17_size_is_population_count 70 [(3, true), (65, true), (3, true), (3, false)] (by decide)

/-! ## PatientBitmask: mergeBitmask as a word-wise operation -/

theorem map_getD_range (bits : List Nat) (n : Nat) (h : bits.length = n) :
    (List.range n).map (fun i => bits.getD i 0) = bits := by
  apply List.ext_getElem
  · simp [h]
  · intro i h1 h2
    simp [List.getD_eq_getElem?_getD, List.getElem?_eq_getElem h2]

theorem getD_map_range (f : Nat → Nat) (n j : Nat) (h : j < n) :
    ((List.range n).map f).getD j 0 = f j := by
  simp [List.getD_eq_getElem?_getD, List.getElem?_map, List.getElem?_range h]

/-- The result of `mergeBitmask`, field by field. -/
theorem mergeBitmask_eq (P Q : PatientBitmask) (hP : P.bits.length = P.len) :
    P.mergeBitmask Q =
      { maxSize := P.maxSize
        size := (((List.range P.len).map
          (fun j => popcountll (P.bits.getD j 0 &&& Q.bits.getD j 0))).sum : Nat)
        len := P.len
        bits := (List.range P.len).map (fun j => P.bits.getD j 0 &&& Q.bits.getD j 0) } := by
  have key : (P.mergeBitmask Q).maxSize = P.maxSize ∧ (P.mergeBitmask Q).len = P.len ∧
      (P.mergeBitmask Q).bits.length = P.bits.length ∧
      (∀ j, (P.mergeBitmask Q).bits.getD j 0 =
        if j < P.len then P.bits.getD j 0 &&& Q.bits.getD j 0 else P.bits.getD j 0) ∧
      (P.mergeBitmask Q).size = (((List.range P.len).map
        (fun j => popcountll (P.bits.getD j 0 &&& Q.bits.getD j 0))).sum : Nat) :=
    mergeBitmask_fold P Q hP P.len (Nat.le_refl _)
  obtain ⟨h1, h2, h3, h4, h5⟩ := key
  have hbits : (P.mergeBitmask Q).bits =
      (List.range P.len).map (fun j => P.bits.getD j 0 &&& Q.bits.getD j 0) := by
    rw [← map_getD_range (P.mergeBitmask Q).bits P.len (by rw [h3, hP])]
    apply List.map_congr_left
    intro j hj
    rw [h4 j, if_pos (List.mem_range.mp hj)]
  generalize P.mergeBitmask Q = M at h1 h2 h5 hbits
  cases M
  simp only at h1 h2 h5 hbits
  rw [h1, h2, h5, hbits]

theorem mergeBitmask_wellFormed (P Q : PatientBitmask) (hP : P.wellFormed) :
    (P.mergeBitmask Q).wellFormed := by
  rw [mergeBitmask_eq P Q hP.2]
  exact ⟨hP.1, by simp⟩

theorem copy_wellFormed (P : PatientBitmask) (hP : P.wellFormed) :
    (PatientBitmask.copy P).wellFormed := by
  rw [copy_eq P hP.2]; exact hP

/-- C18. For masks `A`, `B` of equal capacity (each of the shape its constructor gives),
after `A.mergeBitmask(B)` every position `p` has `getBit(p)` equal to the conjunction of the
two old bits (and fails exactly where it failed before), and `getSize()` is the number of
positions at which both operands had the bit set.  The operand `B` is only read. -/
theorem C18_merge_is_intersection (A B : PatientBitmask) (hA : A.wellFormed)
    (hB : B.wellFormed) (hcap : A.maxSize = B.maxSize) :
    (∀ p, (A.mergeBitmask B).getBit p =
      match A.getBit p, B.getBit p with
      | some a, some b => some (a && b)
      | _, _ => none) ∧
    (A.mergeBitmask B).getSize =
      ((List.range (64 * A.len)).countP
        (fun p => A.getBit p == some true && B.getBit p == some true) : Nat) ∧
    (A.mergeBitmask B).maxSize = A.maxSize ∧ (A.mergeBitmask B).wellFormed := by
  obtain ⟨h1, h2, _, h4, h5⟩ := mergeBitmask_spec A B hA.2
  have hlen : B.len = A.len := by rw [hA.1, hB.1, hcap]
  refine ⟨?_, ?_, h1, mergeBitmask_wellFormed A B hA⟩
  · intro p
    by_cases hp : p / 64 < A.len
    · rw [getBit_eq_bitAt _ p (by rw [h2]; exact hp), getBit_eq_bitAt A p hp,
        getBit_eq_bitAt B p (by rw [hlen]; exact hp), h4]
    · rw [getBit_eq_none _ p (by rw [h2]; omega), getBit_eq_none A p (by omega)]
  · show (A.mergeBitmask B).size = _
    rw [h5]
    congr 1
    apply List.countP_congr
    intro p hp
    have hp' : p / 64 < A.len := by
      have := List.mem_range.mp hp
      omega
    rw [getBit_eq_bitAt A p hp', getBit_eq_bitAt B p (by rw [hlen]; exact hp')]
    cases bitAt A.bits p <;> cases bitAt B.bits p <;> simp

/-- C18 on two masks of capacity 70. -/
theorem C18_witness :
    (∀ p, ((⟨70, 3, 2, [10, 2]⟩ : PatientBitmask).mergeBitmask ⟨70, 2, 2, [12, 0]⟩).getBit p =
      match (⟨70, 3, 2, [10, 2]⟩ : PatientBitmask).getBit p,
        (⟨70, 2, 2, [12, 0]⟩ : PatientBitmask).getBit p with
      | some a, some b => some (a && b)
      | _, _ => none) ∧
    ((⟨70, 3, 2, [10, 2]⟩ : PatientBitmask).mergeBitmask ⟨70, 2, 2, [12, 0]⟩).getSize =
      ((List.range (64 * 2)).countP
        (fun p => (⟨70, 3, 2, [10, 2]⟩ : PatientBitmask).getBit p == some true &&
          (⟨70, 2, 2, [12, 0]⟩ : PatientBitmask).getBit p == some true) : Nat) ∧
    ((⟨70, 3, 2, [10, 2]⟩ : PatientBitmask).mergeBitmask ⟨70, 2, 2, [12, 0]⟩).maxSize = 70 ∧
    ((⟨70, 3, 2, [10, 2]⟩ : PatientBitmask).mergeBitmask ⟨70, 2, 2, [12, 0]⟩).wellFormed :=
  C18_merge_is_intersection ⟨70, 3, 2, [10, 2]⟩ ⟨70, 2, 2, [12, 0]⟩ ⟨by decide, by decide⟩
    ⟨by decide, by decide⟩ rfl

/-- C19. Merging with an identical mask changes nothing: for every mask `A` (of the shape
its constructor gives) whose count equals its number of set bits, and every mask `B` holding
the same words (in particular `B = A`, the call `A.mergeBitmask(A)`), the merge leaves the
words and `getSize()` of `A` as they were. -/
theorem C19_merge_idempotent (A B : PatientBitmask) (hA : A.wellFormed)
    (hcount : A.getSize = A.popcount) (hsame : B.bits = A.bits) :
    A.mergeBitmask B = A ∧ A.mergeBitmask A = A ∧ (A.mergeBitmask A).bits = A.bits ∧
      (A.mergeBitmask A).getSize = A.getSize := by
  have heq : ∀ Q : PatientBitmask, Q.bits = A.bits → A.mergeBitmask Q = A := by
    intro Q hQ
    rw [mergeBitmask_eq A Q hA.2, hQ]
    have hbits : (List.range A.len).map (fun j => A.bits.getD j 0 &&& A.bits.getD j 0) =
        A.bits := by
      rw [← map_getD_range A.bits A.len hA.2]
      apply List.map_congr_left
      intro j _
      rw [map_getD_range A.bits A.len hA.2, Nat.and_self]
    have hsize : ((((List.range A.len).map
        (fun j => popcountll (A.bits.getD j 0 &&& A.bits.getD j 0))).sum : Nat) : Int) =
        A.size := by
      have h1 : ((List.range A.len).map
          (fun j => popcountll (A.bits.getD j 0 &&& A.bits.getD j 0))).sum =
          ((List.range A.len).map (fun j => popcountll (A.bits.getD j 0))).sum := by
        congr 1
        apply List.map_congr_left
        intro j _
        rw [Nat.and_self]
      rw [h1, popcount_flatten, ← popcount_eq]
      exact hcount.symm
    rw [hbits, hsize]
  exact ⟨heq B hsame, heq A rfl, by rw [heq A rfl], by rw [heq A rfl]⟩

/-- C19 on a mask of capacity 70 with bits 3 and 65 set. -/
theorem C19_witness :
    (⟨70, 2, 2, [8, 2]⟩ : PatientBitmask).mergeBitmask ⟨70, 2, 2, [8, 2]⟩ = ⟨70, 2, 2, [8, 2]⟩ ∧
    (⟨70, 2, 2, [8, 2]⟩ : PatientBitmask).mergeBitmask ⟨70, 2, 2, [8, 2]⟩ = ⟨70, 2, 2, [8, 2]⟩ ∧
    ((⟨70, 2, 2, [8, 2]⟩ : PatientBitmask).mergeBitmask ⟨70, 2, 2, [8, 2]⟩).bits = [8, 2] ∧
    ((⟨70, 2, 2, [8, 2]⟩ : PatientBitmask).mergeBitmask ⟨70, 2, 2, [8, 2]⟩).getSize =
      (⟨70, 2, 2, [8, 2]⟩ : PatientBitmask).getSize :=
  C19_merge_idempotent ⟨70, 2, 2, [8, 2]⟩ ⟨70, 2, 2, [8, 2]⟩ ⟨by decide, by decide⟩ (by decide)
    rfl

/-- C20. On masks of equal capacity (each of the shape its constructor gives) the merge is
commutative and associative: merging `B` into a copy of `A` gives the same mask (words,
count, capacity) as merging `A` into a copy of `B`, and `(A merge B) merge C` gives the same
mask as `A merge (B merge C)`, whatever the words of `C`. -/
theorem C20_merge_comm_assoc (A B C : PatientBitmask) (hA : A.wellFormed)
    (hB : B.wellFormed) (hAB : A.maxSize = B.maxSize) :
    (PatientBitmask.copy A).mergeBitmask B = (PatientBitmask.copy B).mergeBitmask A ∧
    ((PatientBitmask.copy A).mergeBitmask B).mergeBitmask C =
      (PatientBitmask.copy A).mergeBitmask ((PatientBitmask.copy B).mergeBitmask C) := by
  have hlenAB : A.len = B.len := by rw [hA.1, hB.1, hAB]
  rw [copy_eq A hA.2, copy_eq B hB.2]
  constructor
  · rw [mergeBitmask_eq A B hA.2, mergeBitmask_eq B A hB.2, ← hlenAB, ← hAB]
    have hw : (fun j => A.bits.getD j 0 &&& B.bits.getD j 0) =
        (fun j => B.bits.getD j 0 &&& A.bits.getD j 0) := by
      funext j; exact Nat.land_comm _ _
    have hw2 : (fun j => popcountll (A.bits.getD j 0 &&& B.bits.getD j 0)) =
        (fun j => popcountll (B.bits.getD j 0 &&& A.bits.getD j 0)) := by
      funext j; rw [Nat.land_comm]
    rw [hw, hw2]
  · have hM : (A.mergeBitmask B).bits.length = (A.mergeBitmask B).len :=
      (mergeBitmask_wellFormed A B hA).2
    rw [mergeBitmask_eq (A.mergeBitmask B) C hM, mergeBitmask_eq A (B.mergeBitmask C) hA.2]
    have hlen : (A.mergeBitmask B).len = A.len := by rw [mergeBitmask_eq A B hA.2]
    have hmax : (A.mergeBitmask B).maxSize = A.maxSize := by rw [mergeBitmask_eq A B hA.2]
    have hword : ∀ j ∈ List.range A.len,
        (A.mergeBitmask B).bits.getD j 0 &&& C.bits.getD j 0 =
          A.bits.getD j 0 &&& (B.mergeBitmask C).bits.getD j 0 := by
      intro j hj
      have hj' := List.mem_range.mp hj
      rw [mergeBitmask_eq A B hA.2, mergeBitmask_eq B C hB.2]
      show ((List.range A.len).map _).getD j 0 &&& _ = _ &&& ((List.range B.len).map _).getD j 0
      rw [getD_map_range _ _ _ hj', getD_map_range _ _ _ (by omega), Nat.land_assoc]
    rw [hlen, hmax]
    have hbits := List.map_congr_left hword
    have hsum : ((List.range A.len).map
        (fun j => popcountll ((A.mergeBitmask B).bits.getD j 0 &&& C.bits.getD j 0))).sum =
        ((List.range A.len).map
          (fun j => popcountll (A.bits.getD j 0 &&& (B.mergeBitmask C).bits.getD j 0))).sum := by
      congr 1
      apply List.map_congr_left
      intro j hj
      rw [hword j hj]
    rw [hbits, hsum]

/-- C20 on three masks of capacity 70. -/
theorem C20_witness :
    (PatientBitmask.copy ⟨70, 3, 2, [10, 2]⟩).mergeBitmask ⟨70, 2, 2, [12, 0]⟩ =
      (PatientBitmask.copy ⟨70, 2, 2, [12, 0]⟩).mergeBitmask ⟨70, 3, 2, [10, 2]⟩ ∧
    ((PatientBitmask.copy ⟨70, 3, 2, [10, 2]⟩).mergeBitmask ⟨70, 2, 2, [12, 0]⟩).mergeBitmask
        ⟨70, 2, 2, [9, 1]⟩ =
      (PatientBitmask.copy ⟨70, 3, 2, [10, 2]⟩).mergeBitmask
        ((PatientBitmask.copy ⟨70, 2, 2, [12, 0]⟩).mergeBitmask ⟨70, 2, 2, [9, 1]⟩) :=
  C20_merge_comm_assoc ⟨70, 3, 2, [10, 2]⟩ ⟨70, 2, 2, [12, 0]⟩ ⟨70, 2, 2, [9, 1]⟩
    ⟨by decide, by decide⟩ ⟨by decide, by decide⟩ rfl

/-! ## The triangle scenario -/

theorem colorful_test_plain (g : Globals) (S : colored_node_set) :
    colorful_test g false S = true ↔ ∃ x ∈ S, ∃ y ∈ S, x.2 ≠ y.2 := by
  simp only [colorful_test, Bool.not_false, if_true, decide_eq_true_eq, ge_iff_le]
  rw [show (2 ≤ (S.image Prod.snd).card) ↔ 1 < (S.image Prod.snd).card from Iff.rfl,
    Finset.one_lt_card]
  constructor
  · rintro ⟨a, ha, b, hb, hab⟩
    obtain ⟨x, hx, rfl⟩ := Finset.mem_image.mp ha
    obtain ⟨y, hy, rfl⟩ := Finset.mem_image.mp hb
    exact ⟨x, hx, y, hy, hab⟩
  · rintro ⟨x, hx, y, hy, hxy⟩
    exact ⟨x.2, Finset.mem_image_of_mem _ hx, y.2, Finset.mem_image_of_mem _ hy, hxy⟩

theorem growBody_of_test_false (minPatientSupport : Int) (test : colored_node_set → Bool)
    (network_size : Nat) (prev seed : Level) (st st' : LevelState)
    (s : (colored_node_set × Nat) × (colored_node_set × Nat))
    (htest : test (s.1.1 ∪ s.2.1) = false)
    (h : growBody minPatientSupport test network_size prev seed st s = some st') :
    st' = st := by
  unfold growBody at h
  simp only [htest, Bool.false_and] at h
  split at h
  · split at h
    · simp at h; exact h.symm
    · exact Option.noConfusion h
  · simp at h; exact h.symm

/-- C14. In the plain mode of `solveMaxColorfulNetwork`, a growth candidate all of whose
nodes carry the same color id leaves the maps of the next level as they are, whatever its
support; hence every set stored at a level `k >= 1` has two nodes with different color
ids. -/
theorem C14_plain_mode_rejects_monochromatic (o : IterOrder) (g : Globals)
    (minPatientSupport : Int) (fuel : Nat) (lv : List Level) (k : Nat) (L : Level)
    (S : colored_node_set)
    (h : solveMaxColorfulNetwork o g minPatientSupport false fuel = some lv)
    (hk : 1 ≤ k) (hL : lv[k]? = some L) (hS : S ∈ L.keys) :
    (∃ x ∈ S, ∃ y ∈ S, x.2 ≠ y.2) ∧
    (∀ (network_size : Nat) (prev seed : Level) (st st' : LevelState)
      (s : (colored_node_set × Nat) × (colored_node_set × Nat)),
      (∀ x ∈ s.1.1 ∪ s.2.1, ∀ y ∈ s.1.1 ∪ s.2.1, x.2 = y.2) →
      growBody minPatientSupport (colorful_test g false) network_size prev seed st s =
        some st' → st' = st) := by
  constructor
  · obtain ⟨k', rfl⟩ : ∃ k', k = k' + 1 := ⟨k - 1, by omega⟩
    have hlev := stored_level o g minPatientSupport _ fuel lv h _ L hL
    obtain ⟨prev, hprev, _⟩ := levelAt_ok o g minPatientSupport (colorful_test g false) k'
    obtain ⟨L0, h0, _, _⟩ := seedLevel_spec g minPatientSupport
    obtain ⟨_, _, _, _, _, _, ht, _⟩ :=
      (levelAt_succ_keys o g minPatientSupport _ k' prev L0 L hprev h0 hlev S).mp hS
    exact (colorful_test_plain g S).mp ht
  · intro n prev seed st st' s hmono hbody
    apply growBody_of_test_false minPatientSupport _ n prev seed st st' s _ hbody
    rw [Bool.eq_false_iff]
    intro ht
    obtain ⟨x, hx, y, hy, hxy⟩ := (colorful_test_plain g _).mp ht
    exact hxy (hmono x hx y hy)

/-- C15, the failing input. On the path input with threshold 2 in the plain mode,
`solveMaxColorfulNetwork` stops with level 0 as its terminal level, the level that is
written out; its first set is `{(A,MUT),(B,MUT)}`, both of whose nodes share color 1, and
the plain colorfulness test is false on it. -/
theorem C15_terminal_level_not_colorful :
    solveMaxColorfulNetwork IterOrder.insertion pathGlobals 2 false 3 =
      some [⟨[({(1, 1), (0, 1)}, 0), ({(2, 1), (1, 1)}, 1)],
        [(0, ⟨2, 2, 1, [3]⟩), (1, ⟨2, 2, 1, [3]⟩)]⟩] ∧
    colorful_test pathGlobals false {(1, 1), (0, 1)} = false ∧
    (∀ x ∈ ({(1, 1), (0, 1)} : colored_node_set), x.2 = 1) := by
  refine ⟨by decide, by decide, by decide⟩

/-- C16, the failing input. With a catalog of five alteration types whose fifth is
`EXPROUT`, on `fiveTypeGlobals` with threshold 1: the union of the seeds
`{(A,EXPROUT),(B,EXPROUT)}` and `{(B,EXPROUT),(C,MUT)}` is an admissible candidate (three
colored nodes, joint support 1) with exactly one node whose color is not `EXPROUT`, yet the
test of the mode with `exprout_inclusive_` is false on it (the two `EXPROUT` nodes are
counted in slot 4), and the run stores no level beyond level 0. -/
theorem C16_fifth_type_background_miscounted :
    umFind fiveTypeGlobals.alterations.indices "EXPROUT" = some 4 ∧
    (seedLevel fiveTypeGlobals 1).map (fun L => L.keys.take 2) =
      some [{(1, 5), (0, 5)}, {(2, 1), (1, 5)}] ∧
    ({(1, 5), (0, 5)} ∪ {(2, 1), (1, 5)} : colored_node_set).card = 1 + 2 ∧
    (jointSupport fiveTypeGlobals ({(1, 5), (0, 5)} ∪ {(2, 1), (1, 5)}) : Int) ≥ 1 ∧
    (({(1, 5), (0, 5)} ∪ {(2, 1), (1, 5)} : colored_node_set).filter
      (fun node => node.2 ≠ 4 + 1)).card = 1 ∧
    colorful_test fiveTypeGlobals true ({(1, 5), (0, 5)} ∪ {(2, 1), (1, 5)}) = false ∧
    (solveMaxColorfulNetwork IterOrder.insertion fiveTypeGlobals 1 true 3).map List.length =
      some 1 := by
  refine ⟨by decide, by decide, by decide, by decide, by decide, by decide, by decide⟩

/-- With at most four alteration types, `EXPROUT` among them, the test of the mode with
`exprout_inclusive_` holds exactly when one or two nodes have a color other than
`EXPROUT`. -/
theorem colorful_test_exprout_four_types (g : Globals) (S : colored_node_set) (e : Nat)
    (hex : umFind g.alterations.indices "EXPROUT" = some e) (he : e < 4)
    (hval : ∀ x ∈ S, 1 ≤ x.2 ∧ x.2 ≤ 4) :
    colorful_test g true S = true ↔
      1 ≤ (S.filter (fun x => x.2 ≠ e + 1)).card ∧
      (S.filter (fun x => x.2 ≠ e + 1)).card ≤ 2 := by
  have hfib := Finset.card_eq_sum_card_fiberwise (s := S) (t := Finset.range 4)
    (f := fun x => x.2 - 1) (by
      intro x hx
      have := hval x hx
      simp only [Finset.mem_range]; omega)
  simp only [Finset.sum_range_succ, Finset.sum_range_zero, Nat.zero_add] at hfib
  have h4 : (S.filter (fun node => node.2 - 1 = 4)).card = 0 := by
    rw [Finset.card_eq_zero, Finset.filter_eq_empty_iff]
    intro x hx
    have := hval x hx
    omega
  have hsplit := Finset.filter_card_add_filter_neg_card_eq_card (s := S)
    (fun x : colored_node => x.2 - 1 = e)
  have hne : S.filter (fun x => ¬ (x.2 - 1 = e)) = S.filter (fun x => x.2 ≠ e + 1) := by
    apply Finset.filter_congr
    intro x hx
    have := hval x hx
    constructor <;> intro h <;> omega
  rw [hne] at hsplit
  simp only [colorful_test, Bool.not_true, Bool.false_eq_true, if_false, hex, Option.getD_some,
    decide_eq_true_eq, h4, Nat.zero_add]
  have hcases : e = 0 ∨ e = 1 ∨ e = 2 ∨ e = 3 := by omega
  rcases hcases with rfl | rfl | rfl | rfl
  all_goals
    simp only [ne_eq] at hsplit
    simp only [List.range, List.range.loop, List.filter, ne_eq, OfNat.ofNat_ne_zero,
      not_false_eq_true, decide_True, decide_False, not_true_eq_false, List.map_cons,
      List.map_nil, List.sum_cons, List.sum_nil, Nat.add_zero, OfNat.zero_ne_ofNat,
      OfNat.ofNat_ne_one, OfNat.one_ne_ofNat, Nat.reduceEqDiff, one_ne_zero, zero_ne_one,
      Nat.succ_ne_self, decide_not, Bool.not_eq_true', decide_eq_false_iff_not]
    omega

/-! ## Deduplication: first writer wins -/

theorem umFind_eq_none_of_not_mem {κ ν : Type} [DecidableEq κ] (m : List (κ × ν)) (k : κ)
    (h : k ∉ m.map Prod.fst) : umFind m k = none :=
  (umFind_eq_none_iff m k).mpr h

theorem umAssign_of_not_mem {κ ν : Type} [DecidableEq κ] (m : List (κ × ν)) (k : κ) (v : ν)
    (h : k ∉ m.map Prod.fst) : umAssign m k v = m ++ [(k, v)] := by
  induction m with
  | nil => rfl
  | cons e m ih =>
    simp only [List.map_cons, List.mem_cons, not_or] at h
    have hne : ¬ e.1 = k := fun hc => h.1 hc.symm
    simp only [umAssign, if_neg hne, ih h.2, List.cons_append]

theorem insertEntry_of_mem (st : LevelState) (S : colored_node_set) (P : PatientBitmask)
    (h : S ∈ st.subNetwork.map Prod.fst) : insertEntry st S P = st := by
  unfold insertEntry umInsert
  cases hf : umFind st.subNetwork S with
  | none => exact absurd h ((umFind_eq_none_iff _ _).mp hf)
  | some v => rfl

theorem insertEntry_of_not_mem (st : LevelState) (S : colored_node_set) (P : PatientBitmask)
    (h : S ∉ st.subNetwork.map Prod.fst) :
    insertEntry st S P =
      { subNetwork := st.subNetwork ++ [(S, st.valid)]
        patientProfile := umAssign st.patientProfile st.valid P
        valid := st.valid + 1 } := by
  unfold insertEntry umInsert
  rw [umFind_eq_none_of_not_mem _ _ h]

theorem firstDerivation_append {α : Type}
    (Der : α → colored_node_set → PatientBitmask → Prop) (l : List α) (x : α)
    (S : colored_node_set) (P : PatientBitmask) (h : firstDerivation Der l S P) :
    firstDerivation Der (l ++ [x]) S P := by
  obtain ⟨pre, y, post, hl, hd, hfirst⟩ := h
  exact ⟨pre, y, post ++ [x], by rw [hl]; simp, hd, hfirst⟩

/-- A loop whose body either inserts the one key derived from the item or leaves the maps
alone builds maps with pairwise different keys and identifiers `0, 1, ...`, in which every
key has the profile of its first derivation. -/
theorem collect_first {α : Type} (Der : α → colored_node_set → PatientBitmask → Prop)
    (f : LevelState → α → Option LevelState) (l : List α)
    (hstep : ∀ st x, x ∈ l →
      (∃ S P, Der x S P ∧ (∀ S' P', Der x S' P' → S' = S) ∧
        f st x = some (insertEntry st S P)) ∨
      (f st x = some st ∧ ∀ S P, ¬ Der x S P)) :
    ∃ st, l.foldlM f ⟨[], [], 0⟩ = some st ∧
      (st.subNetwork.map Prod.fst).Nodup ∧
      st.subNetwork.map Prod.snd = List.range st.subNetwork.length ∧
      st.patientProfile.map Prod.fst = List.range st.subNetwork.length ∧
      ∀ e ∈ st.subNetwork, ∃ P, umFind st.patientProfile e.2 = some P ∧
        firstDerivation Der l e.1 P := by
  have := foldlM_inv f
    (fun pre st =>
      ((st.subNetwork.map Prod.fst).Nodup ∧
        st.subNetwork.map Prod.snd = List.range st.valid ∧
        st.patientProfile.map Prod.fst = List.range st.valid) ∧
      (∀ e ∈ st.subNetwork, ∃ P, umFind st.patientProfile e.2 = some P ∧
        firstDerivation Der pre e.1 P) ∧
      (∀ y ∈ pre, ∀ S Q, Der y S Q → S ∈ st.subNetwork.map Prod.fst))
    l [] ⟨[], [], 0⟩ ⟨⟨by simp, by simp, by simp⟩, by simp, by simp⟩ ?_
  · obtain ⟨st, hst, ⟨hnd, hids, hpp⟩, hent, _⟩ := this
    have hlen : st.subNetwork.length = st.valid := by
      have := congrArg List.length hids
      simpa using this
    refine ⟨st, hst, hnd, by rw [hlen]; exact hids, by rw [hlen]; exact hpp, ?_⟩
    simpa using hent
  · intro pre x st hx ⟨⟨hnd, hids, hpp⟩, hent, hcomp⟩
    rcases hstep st x hx with ⟨S, P, hder, huniq, hf⟩ | ⟨hf, hno⟩
    · by_cases hmem : S ∈ st.subNetwork.map Prod.fst
      · rw [insertEntry_of_mem st S P hmem] at hf
        refine ⟨st, hf, ⟨hnd, hids, hpp⟩, ?_, ?_⟩
        · intro e he
          obtain ⟨Q, hQ, hfd⟩ := hent e he
          exact ⟨Q, hQ, firstDerivation_append Der pre x e.1 Q hfd⟩
        · intro y hy S' Q hd
          simp only [List.mem_append, List.mem_singleton] at hy
          rcases hy with hy | rfl
          · exact hcomp y hy S' Q hd
          · rw [huniq S' Q hd]; exact hmem
      · rw [insertEntry_of_not_mem st S P hmem] at hf
        have hfresh : st.valid ∉ st.patientProfile.map Prod.fst := by
          rw [hpp]; simp
        refine ⟨_, hf, ⟨?_, ?_, ?_⟩, ?_, ?_⟩
        · show ((st.subNetwork ++ [(S, st.valid)]).map Prod.fst).Nodup
          rw [List.map_append, List.nodup_append]
          refine ⟨hnd, by simp, ?_⟩
          intro a ha hb
          simp only [List.map_cons, List.map_nil, List.mem_singleton] at hb
          subst hb
          exact hmem ha
        · show (st.subNetwork ++ [(S, st.valid)]).map Prod.snd = List.range (st.valid + 1)
          rw [List.map_append, hids, List.range_succ]; rfl
        · show (umAssign st.patientProfile st.valid P).map Prod.fst = List.range (st.valid + 1)
          rw [umAssign_of_not_mem _ _ _ hfresh, List.map_append, hpp, List.range_succ]; rfl
        · intro e he
          have he' : e ∈ st.subNetwork ∨ e = (S, st.valid) := by
            simpa using he
          show ∃ Q, umFind (umAssign st.patientProfile st.valid P) e.2 = some Q ∧ _
          rcases he' with he' | rfl
          · obtain ⟨Q, hQ, hfd⟩ := hent e he'
            have hlt : e.2 ≠ st.valid := by
              have : e.2 ∈ st.subNetwork.map Prod.snd := List.mem_map_of_mem _ he'
              rw [hids, List.mem_range] at this
              omega
            refine ⟨Q, ?_, firstDerivation_append Der pre x e.1 Q hfd⟩
            rw [umFind_umAssign, if_neg (fun hc => hlt hc.symm), hQ]
          · refine ⟨P, by rw [umFind_umAssign, if_pos rfl], pre, x, [], rfl, hder, ?_⟩
            intro y hy Q hd
            exact hmem (hcomp y hy S Q hd)
        · intro y hy S' Q hd
          show S' ∈ (st.subNetwork ++ [(S, st.valid)]).map Prod.fst
          simp only [List.mem_append, List.mem_singleton] at hy
          rw [List.map_append, List.mem_append]
          rcases hy with hy | rfl
          · exact Or.inl (hcomp y hy S' Q hd)
          · right; rw [huniq S' Q hd]; simp
    · refine ⟨st, hf, ⟨hnd, hids, hpp⟩, ?_, ?_⟩
      · intro e he
        obtain ⟨Q, hQ, hfd⟩ := hent e he
        exact ⟨Q, hQ, firstDerivation_append Der pre x e.1 Q hfd⟩
      · intro y hy S' Q hd
        simp only [List.mem_append, List.mem_singleton] at hy
        rcases hy with hy | rfl
        · exact hcomp y hy S' Q hd
        · exact absurd hd (hno S' Q)

theorem seedLevel_first (g : Globals) (minPatientSupport : Int) :
    ∃ L0, seedLevel g minPatientSupport = some L0 ∧ L0.wellIndexed ∧
      ∀ e ∈ L0.subNetwork, ∃ P, umFind L0.patientProfile e.2 = some P ∧
        firstDerivation (seedDerives g minPatientSupport) (seedTuples g minPatientSupport)
          e.1 P := by
  obtain ⟨st, hst, hnd, hids, hpp, hent⟩ := collect_first (seedDerives g minPatientSupport)
    (seedBody g minPatientSupport) (seedTuples g minPatientSupport) (by
      intro st t _
      obtain ⟨P, hP, _⟩ := seedProfile_spec g t.1 t.2.2.1 t.2.1 t.2.2.2
      by_cases hsum : (((List.range g.numSamples).countP (fun m =>
          hasAlteration (g.geneAlterations t.1 m) (t.2.2.1 - 1) &&
          hasAlteration (g.geneAlterations t.2.1 m) (t.2.2.2 - 1)) : Nat) : Int)
          ≥ minPatientSupport
      · left
        refine ⟨insert (t.2.1, t.2.2.2) (insert (t.1, t.2.2.1) ∅), P, ⟨rfl, _, hP, hsum⟩,
          fun S' _ h => h.1, ?_⟩
        simp only [seedBody, hP, hsum, if_true]
      · right
        refine ⟨by simp only [seedBody, hP, hsum, if_false], ?_⟩
        rintro S Q ⟨_, sum, hs, hge⟩
        rw [hP] at hs
        cases hs
        exact hsum hge)
  refine ⟨st.toLevel, by simp only [seedLevel, hst, Option.map_some'], ⟨hnd, hids, hpp⟩, hent⟩

theorem growStep_first (o : IterOrder) (g : Globals) (minPatientSupport : Int)
    (test : colored_node_set → Bool) (network_size : Nat) (prev seed : Level)
    (hprev : LevelOK g prev) (hseed : LevelOK g seed) :
    ∃ L, growStep o minPatientSupport test network_size prev seed = some L ∧ L.wellIndexed ∧
      ∀ e ∈ L.subNetwork, ∃ P, umFind L.patientProfile e.2 = some P ∧
        firstDerivation (growDerives minPatientSupport test network_size prev seed)
          (growPairs o prev seed) e.1 P := by
  obtain ⟨st, hst, hnd, hids, hpp, hent⟩ := collect_first
    (growDerives minPatientSupport test network_size prev seed)
    (growBody minPatientSupport test network_size prev seed) (growPairs o prev seed) (by
      intro st s hs
      rw [mem_growPairs] at hs
      obtain ⟨P1, hP1, _⟩ := hprev s.1 hs.1
      obtain ⟨P2, hP2, _⟩ := hseed s.2 hs.2
      have hcp : candidateProfile prev seed s =
          some ((PatientBitmask.copy P1).mergeBitmask P2) := by
        simp only [candidateProfile, hP1, hP2]
      by_cases hcard : (s.1.1 ∪ s.2.1).card = network_size + 2
      · by_cases hacc : (test (s.1.1 ∪ s.2.1) &&
            decide (((PatientBitmask.copy P1).mergeBitmask P2).getSize ≥ minPatientSupport))
            = true
        · left
          have hacc' := hacc
          simp only [Bool.and_eq_true, decide_eq_true_eq] at hacc'
          refine ⟨s.1.1 ∪ s.2.1, _, ⟨rfl, hcard, hcp, hacc'.1, hacc'.2⟩, fun S' _ h => h.1, ?_⟩
          simp only [growBody, hcard, if_true, hP1, hP2, hacc]
        · right
          refine ⟨?_, ?_⟩
          · simp only [growBody, hcard, if_true, hP1, hP2, hacc, if_false]
            rfl
          · rintro S Q ⟨rfl, _, hq, ht, hsz⟩
            rw [hcp] at hq
            cases hq
            apply hacc
            simp only [Bool.and_eq_true, decide_eq_true_eq]
            exact ⟨ht, hsz⟩
      · right
        refine ⟨by simp only [growBody, hcard, if_false], ?_⟩
        rintro S Q ⟨rfl, hc, _⟩
        exact hcard hc)
  refine ⟨st.toLevel, by simp only [growStep, hst, Option.map_some'], ⟨hnd, hids, hpp⟩, hent⟩

/-- C12. In every level `L` stored by `solveMaxNetworkSize`: the keys are pairwise different
sets, the identifiers of the `n` entries are `0, ..., n-1`, the profile table has exactly
the keys `0, ..., n-1`, and the profile stored for a key is the one computed by its first
derivation in loop order (among the seeding iterations for level 0, among the pairs
`(s1, s2)` for a later level).  A later derivation of a key that is present changes
nothing: `insertEntry` returns the maps as they are.  Sets built by different union orders
are equal keys. -/
theorem C12_first_writer_wins (o : IterOrder) (g : Globals) (minPatientSupport : Int)
    (fuel : Nat) (lv : List Level) (k : Nat) (L : Level)
    (h : solveMaxNetworkSize o g minPatientSupport fuel = some lv) (hL : lv[k]? = some L) :
    L.wellIndexed ∧
    (k = 0 → ∀ e ∈ L.subNetwork, ∃ P, umFind L.patientProfile e.2 = some P ∧
      firstDerivation (seedDerives g minPatientSupport) (seedTuples g minPatientSupport)
        e.1 P) ∧
    (∀ prev L0, 1 ≤ k → lv[k - 1]? = some prev → lv[0]? = some L0 →
      ∀ e ∈ L.subNetwork, ∃ P, umFind L.patientProfile e.2 = some P ∧
        firstDerivation (growDerives minPatientSupport (fun _ => true) k prev L0)
          (growPairs o prev L0) e.1 P) ∧
    (∀ (st : LevelState) (S : colored_node_set) (P : PatientBitmask),
      S ∈ st.subNetwork.map Prod.fst → insertEntry st S P = st) ∧
    (∀ A B C : colored_node_set, A ∪ B = B ∪ A ∧ (A ∪ B) ∪ C = A ∪ (B ∪ C)) := by
  have hlev := stored_level o g minPatientSupport _ fuel lv h k L hL
  obtain ⟨L0', h0', hwi0, hfirst0⟩ := seedLevel_first g minPatientSupport
  have step : ∀ k' prev, levelAt o g minPatientSupport (fun _ => true) k' = some prev →
      ∀ L', levelAt o g minPatientSupport (fun _ => true) (k' + 1) = some L' →
      L'.wellIndexed ∧ ∀ e ∈ L'.subNetwork, ∃ P, umFind L'.patientProfile e.2 = some P ∧
        firstDerivation (growDerives minPatientSupport (fun _ => true) (k' + 1) prev L0')
          (growPairs o prev L0') e.1 P := by
    intro k' prev hprev L' hL'
    obtain ⟨prev', hprev', hokp⟩ := levelAt_ok o g minPatientSupport (fun _ => true) k'
    rw [hprev] at hprev'; cases hprev'
    obtain ⟨L0'', h0'', hok0, _⟩ := seedLevel_spec g minPatientSupport
    rw [h0'] at h0''; cases h0''
    obtain ⟨L'', hL'', hwi, hfirst⟩ :=
      growStep_first o g minPatientSupport (fun _ => true) (k' + 1) prev L0' hokp hok0
    simp only [levelAt, hprev, h0', hL''] at hL'
    cases hL'
    exact ⟨hwi, hfirst⟩
  refine ⟨?_, ?_, ?_, insertEntry_of_mem, fun A B C =>
    ⟨Finset.union_comm A B, Finset.union_assoc A B C⟩⟩
  · cases k with
    | zero =>
      have : seedLevel g minPatientSupport = some L := hlev
      rw [h0'] at this; cases this
      exact hwi0
    | succ k' =>
      obtain ⟨prev, hprev, _⟩ := levelAt_ok o g minPatientSupport (fun _ => true) k'
      exact (step k' prev hprev L hlev).1
  · intro hk
    subst hk
    have : seedLevel g minPatientSupport = some L := hlev
    rw [h0'] at this; cases this
    exact hfirst0
  · intro prev L0 hk hprev hL0
    obtain ⟨k', rfl⟩ : ∃ k', k = k' + 1 := ⟨k - 1, by omega⟩
    rw [Nat.add_sub_cancel] at hprev
    have hp := stored_level o g minPatientSupport _ fuel lv h k' prev hprev
    have h0 : seedLevel g minPatientSupport = some L0 :=
      stored_level o g minPatientSupport _ fuel lv h 0 L0 hL0
    rw [h0'] at h0; cases h0
    exact (step k' prev hp L hlev).2

/-- C12 on the path input: level 1 and the profile of its one entry. -/
theorem C12_witness :
    (⟨[({(1, 1), (0, 1)} ∪ {(2, 1), (1, 1)}, 0)], [(0, ⟨2, 2, 1, [3]⟩)]⟩ : Level).wellIndexed ∧
    (1 = 0 → ∀ e ∈ [(({(1, 1), (0, 1)} ∪ {(2, 1), (1, 1)} : colored_node_set), 0)],
      ∃ P, umFind [(0, (⟨2, 2, 1, [3]⟩ : PatientBitmask))] e.2 = some P ∧
      firstDerivation (seedDerives pathGlobals 2) (seedTuples pathGlobals 2) e.1 P) ∧
    (∀ prev L0, 1 ≤ 1 → pathLevels[1 - 1]? = some prev → pathLevels[0]? = some L0 →
      ∀ e ∈ [(({(1, 1), (0, 1)} ∪ {(2, 1), (1, 1)} : colored_node_set), 0)],
        ∃ P, umFind [(0, (⟨2, 2, 1, [3]⟩ : PatientBitmask))] e.2 = some P ∧
        firstDerivation (growDerives 2 (fun _ => true) 1 prev L0)
          (growPairs IterOrder.insertion prev L0) e.1 P) ∧
    (∀ (st : LevelState) (S : colored_node_set) (P : PatientBitmask),
      S ∈ st.subNetwork.map Prod.fst → insertEntry st S P = st) ∧
    (∀ A B C : colored_node_set, A ∪ B = B ∪ A ∧ (A ∪ B) ∪ C = A ∪ (B ∪ C)) :=
  C12_first_writer_wins IterOrder.insertion pathGlobals 2 3 pathLevels 1
    ⟨[({(1, 1), (0, 1)} ∪ {(2, 1), (1, 1)}, 0)], [(0, ⟨2, 2, 1, [3]⟩)]⟩ (by decide) (by decide)

/-! ## The words of the stored profiles -/

theorem getD_lt_of_bounded (bits : List Nat) (h : ∀ w ∈ bits, w < 2 ^ 64) (i : Nat) :
    bits.getD i 0 < 2 ^ 64 := by
  rw [List.getD_eq_getElem?_getD]
  by_cases hi : i < bits.length
  · rw [List.getElem?_eq_getElem hi]
    exact h _ (List.getElem_mem hi)
  · rw [List.getElem?_eq_none (by omega)]
    exact Nat.pos_pow_of_pos 64 (by decide)

theorem new_wordsBounded (n : Nat) : (PatientBitmask.new n).wordsBounded := by
  intro w hw
  simp only [PatientBitmask.new] at hw
  rw [List.eq_of_mem_replicate hw]
  exact Nat.pos_pow_of_pos 64 (by decide)

theorem setBit_wordsBounded (P P' : PatientBitmask) (p : Nat) (v : Bool)
    (hP : P.wordsBounded) (h : P.setBit p v = some P') : P'.wordsBounded := by
  have hnew : ∀ w ∈ P.bits.set (p / 64) (P.bits.getD (p / 64) 0 ^^^ (1 <<< (p % 64))),
      w < 2 ^ 64 := by
    intro w hw
    rcases List.mem_or_eq_of_mem_set hw with hw | rfl
    · exact hP w hw
    · apply Nat.xor_lt_two_pow (getD_lt_of_bounded _ hP _)
      rw [Nat.one_shiftLeft]
      exact Nat.pow_lt_pow_right (by decide) (Nat.mod_lt _ (by decide))
  unfold PatientBitmask.setBit at h
  simp only at h
  split at h
  · exact Option.noConfusion h
  · split at h
    · exact Option.noConfusion h
    · split at h
      · split at h
        · cases h; exact hnew
        · cases h; exact hnew
      · cases h; exact hP

theorem seedProfile_wordsBounded (g : Globals) (j k nb l : Nat) (sum : Int)
    (P : PatientBitmask) (h : seedProfile g j k nb l = some (sum, P)) : P.wordsBounded := by
  have key : ∀ (ms : List Nat) (acc r : Int × PatientBitmask), acc.2.wordsBounded →
      ms.foldlM
        (fun (acc : Int × PatientBitmask) m =>
          if hasAlteration (g.geneAlterations j m) (k - 1) &&
              hasAlteration (g.geneAlterations nb m) (l - 1) then
            (acc.2.setBit m true).map (fun P => (acc.1 + 1, P))
          else some acc) acc = some r → r.2.wordsBounded := by
    intro ms
    induction ms with
    | nil =>
      intro acc r hacc hr
      simp only [List.foldlM_nil, Option.pure_def, Option.some.injEq] at hr
      rw [← hr]; exact hacc
    | cons m ms ih =>
      intro acc r hacc hr
      simp only [List.foldlM_cons, Option.bind_eq_bind] at hr
      split at hr
      · cases hs : acc.2.setBit m true with
        | none => simp [hs] at hr
        | some Q =>
          simp only [hs, Option.map_some', Option.some_bind] at hr
          exact ih (acc.1 + 1, Q) r (setBit_wordsBounded acc.2 Q m true hacc hs) hr
      · simp only [Option.some_bind] at hr
        exact ih acc r hacc hr
  exact key _ _ _ (new_wordsBounded _) h

theorem mergeBitmask_wordsBounded (P Q : PatientBitmask) (hlen : P.bits.length = P.len)
    (hP : P.wordsBounded) : (P.mergeBitmask Q).wordsBounded := by
  rw [mergeBitmask_eq P Q hlen]
  intro w hw
  obtain ⟨j, _, rfl⟩ := List.mem_map.mp hw
  exact Nat.lt_of_le_of_lt Nat.and_le_left (getD_lt_of_bounded _ hP j)

theorem candidateProfile_eq_some (prev seed : Level)
    (s : (colored_node_set × Nat) × (colored_node_set × Nat)) (P : PatientBitmask)
    (h : candidateProfile prev seed s = some P) :
    ∃ p1 p2, umFind prev.patientProfile s.1.2 = some p1 ∧
      umFind seed.patientProfile s.2.2 = some p2 ∧
      P = (PatientBitmask.copy p1).mergeBitmask p2 := by
  unfold candidateProfile at h
  split at h
  · rename_i p1 p2 h1 h2
    cases h
    exact ⟨p1, p2, h1, h2, rfl⟩
  · exact Option.noConfusion h

theorem mem_of_firstDerivation {α : Type}
    {Der : α → colored_node_set → PatientBitmask → Prop} {l : List α} {S : colored_node_set}
    {P : PatientBitmask} (h : firstDerivation Der l S P) : ∃ x ∈ l, Der x S P := by
  obtain ⟨pre, x, post, hl, hd, _⟩ := h
  exact ⟨x, by rw [hl]; simp, hd⟩

/-- Every profile stored in a level of the sequence of `solveMaxNetworkSize` has words of
64 bits. -/
theorem levelAt_wordsBounded (o : IterOrder) (g : Globals) (minPatientSupport : Int)
    (test : colored_node_set → Bool) :
    ∀ (k : Nat) (L : Level), levelAt o g minPatientSupport test k = some L →
      ∀ e ∈ L.subNetwork, ∀ P, umFind L.patientProfile e.2 = some P → P.wordsBounded := by
  obtain ⟨L0, h0, _, hfirst0⟩ := seedLevel_first g minPatientSupport
  obtain ⟨L0', h0', hok0, _⟩ := seedLevel_spec g minPatientSupport
  rw [h0] at h0'; cases h0'
  intro k
  induction k with
  | zero =>
    intro L hL e he P hP
    have : seedLevel g minPatientSupport = some L := hL
    rw [h0] at this; cases this
    obtain ⟨Q, hQ, hfd⟩ := hfirst0 e he
    rw [hP] at hQ; cases hQ
    obtain ⟨t, _, _, sum, hs, _⟩ := mem_of_firstDerivation hfd
    exact seedProfile_wordsBounded g _ _ _ _ sum P hs
  | succ k ih =>
    intro L hL e he P hP
    obtain ⟨prev, hprev, hokp⟩ := levelAt_ok o g minPatientSupport test k
    obtain ⟨L', hL', _, hfirst⟩ :=
      growStep_first o g minPatientSupport test (k + 1) prev L0 hokp hok0
    simp only [levelAt, hprev, h0, hL'] at hL
    cases hL
    obtain ⟨Q, hQ, hfd⟩ := hfirst e he
    rw [hP] at hQ; cases hQ
    obtain ⟨s, hs, _, _, hcp, _⟩ := mem_of_firstDerivation hfd
    obtain ⟨p1, p2, hp1, _, rfl⟩ := candidateProfile_eq_some prev L0 s _ hcp
    rw [mem_growPairs] at hs
    obtain ⟨p1', hp1', hrep⟩ := hokp s.1 hs.1
    rw [hp1] at hp1'; cases hp1'
    have hb := ih prev hprev s.1 hs.1 p1 hp1
    rw [copy_eq p1 hrep.bits_len]
    exact mergeBitmask_wordsBounded p1 p2 hrep.bits_len hb

/-- Two masks that represent the same set of samples and have 64-bit words are equal. -/
theorem maskRep_unique {n : Nat} {f : Nat → Bool} {P P' : PatientBitmask}
    (h : MaskRep n f P) (h' : MaskRep n f P') (hb : P.wordsBounded) (hb' : P'.wordsBounded) :
    P = P' := by
  have hbits : P.bits = P'.bits := by
    apply List.ext_getElem
    · rw [h.bits_len, h'.bits_len, h.len_eq, h'.len_eq]
    · intro i hi hi'
      apply Nat.eq_of_testBit_eq
      intro b
      by_cases hb64 : b < 64
      · have e1 := h.bit_eq (64 * i + b)
        have e2 := h'.bit_eq (64 * i + b)
        have d1 : (64 * i + b) / 64 = i := by omega
        have d2 : (64 * i + b) % 64 = b := by omega
        simp only [bitAt, d1, d2, List.getD_eq_getElem?_getD, List.getElem?_eq_getElem hi,
          List.getElem?_eq_getElem hi', Option.getD_some] at e1 e2
        rw [e1, e2]
      · have l1 : P.bits[i] < 2 ^ b :=
          Nat.lt_of_lt_of_le (hb _ (List.getElem_mem hi))
            (Nat.pow_le_pow_right (by decide) (by omega))
        have l2 : P'.bits[i] < 2 ^ b :=
          Nat.lt_of_lt_of_le (hb' _ (List.getElem_mem hi'))
            (Nat.pow_le_pow_right (by decide) (by omega))
        rw [Nat.testBit_lt_two_pow l1, Nat.testBit_lt_two_pow l2]
  cases P; cases P'
  have e1 := h.maxSize_eq
  have e2 := h'.maxSize_eq
  have e3 := h.len_eq
  have e4 := h'.len_eq
  have e5 := h.size_eq
  have e6 := h'.size_eq
  simp only at e1 e2 e3 e4 e5 e6 hbits
  subst hbits
  rw [e1, e2, e3, e4, e5, e6]

/-- C13. In `solveMaxNetworkSize`, at the growth step that joins a stored level `prev` with
level 0, two pairs `(S1, seed)`, `(S1', seed')` with the same union get the same freshly
computed profile (copy of the parent's profile merged with the seed's): the same words, the
same count, and in fact the same mask, whose bit `m` says whether sample `m` exhibits the
candidate set. -/
theorem C13_candidate_mask_depends_on_set_only (o : IterOrder) (g : Globals)
    (minPatientSupport : Int) (fuel : Nat) (lv : List Level) (k : Nat) (prev L0 : Level)
    (s s' : (colored_node_set × Nat) × (colored_node_set × Nat))
    (h : solveMaxNetworkSize o g minPatientSupport fuel = some lv)
    (hprev : lv[k]? = some prev) (h0 : lv[0]? = some L0)
    (hs : s ∈ growPairs o prev L0) (hs' : s' ∈ growPairs o prev L0)
    (heq : s.1.1 ∪ s.2.1 = s'.1.1 ∪ s'.2.1) :
    ∃ P P', candidateProfile prev L0 s = some P ∧ candidateProfile prev L0 s' = some P' ∧
      P.bits = P'.bits ∧ P.getSize = P'.getSize ∧ P = P' ∧
      ∀ m, m < g.numSamples → P.getBit m = some (exhibits g (s.1.1 ∪ s.2.1) m) := by
  have hlp := stored_level o g minPatientSupport _ fuel lv h k prev hprev
  have hl0 := stored_level o g minPatientSupport _ fuel lv h 0 L0 h0
  obtain ⟨prev', hprev', hokp⟩ := levelAt_ok o g minPatientSupport (fun _ => true) k
  rw [hlp] at hprev'; cases hprev'
  obtain ⟨L0', h0', hok0⟩ := levelAt_ok o g minPatientSupport (fun _ => true) 0
  rw [hl0] at h0'; cases h0'
  have mk : ∀ t ∈ growPairs o prev L0, ∃ P, candidateProfile prev L0 t = some P ∧
      MaskRep g.numSamples (exhibits g (t.1.1 ∪ t.2.1)) P ∧ P.wordsBounded := by
    intro t ht
    rw [mem_growPairs] at ht
    obtain ⟨p1, hp1, hm1⟩ := hokp t.1 ht.1
    obtain ⟨p2, hp2, hm2⟩ := hok0 t.2 ht.2
    refine ⟨(PatientBitmask.copy p1).mergeBitmask p2, by simp only [candidateProfile, hp1, hp2],
      (hm1.merge hm2).congr (fun m _ => (exhibits_union g t.1.1 t.2.1 m).symm), ?_⟩
    rw [copy_eq p1 hm1.bits_len]
    exact mergeBitmask_wordsBounded p1 p2 hm1.bits_len
      (levelAt_wordsBounded o g minPatientSupport _ k prev hlp t.1 ht.1 p1 hp1)
  obtain ⟨P, hP, hrep, hb⟩ := mk s hs
  obtain ⟨P', hP', hrep', hb'⟩ := mk s' hs'
  rw [← heq] at hrep'
  have hPP : P = P' := maskRep_unique hrep hrep' hb hb'
  refine ⟨P, P', hP, hP', by rw [hPP], by rw [hPP], hPP, fun m hm => ?_⟩
  rw [MaskUpTo.getBit hrep hm]
  simp [hm]

/-- C13 on the path input: the pairs (first seed, second seed) and (second seed, first seed)
have the same union and get the same profile. -/
theorem C13_witness :
    ∃ P P',
      candidateProfile
        ⟨[({(1, 1), (0, 1)}, 0), ({(2, 1), (1, 1)}, 1)],
          [(0, ⟨2, 2, 1, [3]⟩), (1, ⟨2, 2, 1, [3]⟩)]⟩
        ⟨[({(1, 1), (0, 1)}, 0), ({(2, 1), (1, 1)}, 1)],
          [(0, ⟨2, 2, 1, [3]⟩), (1, ⟨2, 2, 1, [3]⟩)]⟩
        (({(1, 1), (0, 1)}, 0), ({(2, 1), (1, 1)}, 1)) = some P ∧
      candidateProfile
        ⟨[({(1, 1), (0, 1)}, 0), ({(2, 1), (1, 1)}, 1)],
          [(0, ⟨2, 2, 1, [3]⟩), (1, ⟨2, 2, 1, [3]⟩)]⟩
        ⟨[({(1, 1), (0, 1)}, 0), ({(2, 1), (1, 1)}, 1)],
          [(0, ⟨2, 2, 1, [3]⟩), (1, ⟨2, 2, 1, [3]⟩)]⟩
        (({(2, 1), (1, 1)}, 1), ({(1, 1), (0, 1)}, 0)) = some P' ∧
      P.bits = P'.bits ∧ P.getSize = P'.getSize ∧ P = P' ∧
      ∀ m, m < pathGlobals.numSamples →
        P.getBit m = some (exhibits pathGlobals ({(1, 1), (0, 1)} ∪ {(2, 1), (1, 1)}) m) :=
  C13_candidate_mask_depends_on_set_only IterOrder.insertion pathGlobals 2 3 pathLevels 0
    ⟨[({(1, 1), (0, 1)}, 0), ({(2, 1), (1, 1)}, 1)],
      [(0, ⟨2, 2, 1, [3]⟩), (1, ⟨2, 2, 1, [3]⟩)]⟩
    ⟨[({(1, 1), (0, 1)}, 0), ({(2, 1), (1, 1)}, 1)],
      [(0, ⟨2, 2, 1, [3]⟩), (1, ⟨2, 2, 1, [3]⟩)]⟩
    (({(1, 1), (0, 1)}, 0), ({(2, 1), (1, 1)}, 1))
    (({(2, 1), (1, 1)}, 1), ({(1, 1), (0, 1)}, 0))
    (by decide) (by decide) (by decide) (by decide) (by decide) (by decide)

/-- C14 on the two-color input in the plain mode: the set stored at level 1 has nodes of
colors 1 and 2. -/
theorem C14_witness :
    (∃ x ∈ ({(1, 1), (0, 1)} ∪ {(1, 1), (0, 2)} : colored_node_set),
      ∃ y ∈ ({(1, 1), (0, 1)} ∪ {(1, 1), (0, 2)} : colored_node_set), x.2 ≠ y.2) ∧
    (∀ (network_size : Nat) (prev seed : Level) (st st' : LevelState)
      (s : (colored_node_set × Nat) × (colored_node_set × Nat)),
      (∀ x ∈ s.1.1 ∪ s.2.1, ∀ y ∈ s.1.1 ∪ s.2.1, x.2 = y.2) →
      growBody 1 (colorful_test twoColorGlobals false) network_size prev seed st s =
        some st' → st' = st) :=
  C14_plain_mode_rejects_monochromatic IterOrder.insertion twoColorGlobals 1 3 twoColorLevels 1
    ⟨[({(1, 1), (0, 1)} ∪ {(1, 1), (0, 2)}, 0)], [(0, ⟨1, 1, 1, [1]⟩)]⟩
    ({(1, 1), (0, 1)} ∪ {(1, 1), (0, 2)}) (by decide) (by decide) (by decide) (by decide)

/-! ## PatientBitmask: positions out of range -/

/-- C21, as stated, fails: a mask of capacity 1 has one word, so position 1 (out of range,
`1 >= 1`) is accepted: `getBit(1)` returns a value and `setBit(1, true)` writes the bit and
increments the count. -/
theorem C21_counterexample :
    (1 : Nat) ≥ 1 ∧ (PatientBitmask.new 1).getBit 1 = some false ∧
    (PatientBitmask.new 1).setBit 1 true = some ⟨1, 1, 1, [2]⟩ ∧
    (PatientBitmask.new 1).getSize = 0 ∧
    (⟨1, 1, 1, [2]⟩ : PatientBitmask).getSize = 1 ∧
    (⟨1, 1, 1, [2]⟩ : PatientBitmask).getBit 1 = some true := by
  decide

/-- C21, amended. For a mask of capacity `n` in the shape the constructor builds (`len` is
`ceil(n / 64)` words): at every position `p >= 64 * ceil(n / 64)` both `getBit(p)` and
`setBit(p, v)` take the fatal exit, so nothing is written or returned; at every position
below that bound, also when `p >= n`, `getBit(p)` returns the stored bit and `setBit(p, v)`
succeeds, after which the bit is `v` and the count has changed by `+1` or `-1` exactly when
the bit changed. -/
theorem C21_fatal_beyond_allocated_words (P : PatientBitmask) (p : Nat) (v : Bool)
    (hwf : P.wellFormed) :
    (64 * ((P.maxSize + 63) / 64) ≤ p → P.getBit p = none ∧ P.setBit p v = none) ∧
    (p < 64 * ((P.maxSize + 63) / 64) →
      ∃ old P', P.getBit p = some old ∧ P.setBit p v = some P' ∧ P'.getBit p = some v ∧
        P'.wellFormed ∧ P'.maxSize = P.maxSize ∧
        P'.getSize = P.getSize + (if old = v then 0 else if v then 1 else -1)) := by
  obtain ⟨hlen, hbits⟩ := hwf
  constructor
  · intro hp
    have hidx : P.len ≤ p / 64 := by rw [hlen]; omega
    refine ⟨getBit_eq_none P p hidx, ?_⟩
    simp only [PatientBitmask.setBit, ge_iff_le, hidx, if_true]
  · intro hp
    have hidx : p / 64 < P.len := by rw [hlen]; omega
    have hidx' : ¬ (p / 64 ≥ P.len) := by omega
    have hget := getBit_eq_bitAt P p hidx
    have hblen : p / 64 < P.bits.length := by rw [hbits]; exact hidx
    by_cases hold : bitAt P.bits p = v
    · refine ⟨bitAt P.bits p, P, hget, ?_, by rw [hget, hold], ⟨hlen, hbits⟩, rfl, ?_⟩
      · simp [PatientBitmask.setBit, hidx', hget, hold]
      · simp [hold]
    · have hxor : (bitAt P.bits p ^^ v) = true := by
        cases h1 : bitAt P.bits p <;> cases h2 : v <;> simp_all
      have hnot : (!bitAt P.bits p) = v := by
        cases h1 : bitAt P.bits p <;> cases h2 : v <;> simp_all
      have hflip := bitAt_flip P.bits p p hblen
      rw [if_pos rfl, hnot] at hflip
      cases hv : v
      · subst hv
        refine ⟨bitAt P.bits p, { P with
            bits := P.bits.set (p / 64) (P.bits.getD (p / 64) 0 ^^^ (1 <<< (p % 64))),
            size := P.size - 1 }, hget, ?_, ?_, ?_, rfl, ?_⟩
        · simp only [PatientBitmask.setBit, hidx', if_false, hget, hxor, if_true]
          rfl
        · rw [getBit_eq_bitAt _ p (by exact hidx)]
          exact congrArg some hflip
        · exact ⟨hlen, by simpa using hbits⟩
        · simp [hold, PatientBitmask.getSize]
          omega
      · subst hv
        refine ⟨bitAt P.bits p, { P with
            bits := P.bits.set (p / 64) (P.bits.getD (p / 64) 0 ^^^ (1 <<< (p % 64))),
            size := P.size + 1 }, hget, ?_, ?_, ?_, rfl, ?_⟩
        · simp only [PatientBitmask.setBit, hidx', if_false, hget, hxor, if_true]
        · rw [getBit_eq_bitAt _ p (by exact hidx)]
          exact congrArg some hflip
        · exact ⟨hlen, by simpa using hbits⟩
        · simp [hold, PatientBitmask.getSize]

/-- C21 (amended) on a fresh mask of capacity 70 (two words): position 128 is refused, and
position 100, which is out of range as well, is accepted. -/
theorem C21_witness :
    (PatientBitmask.new 70).wellFormed ∧
    ((PatientBitmask.new 70).getBit 128 = none ∧
      (PatientBitmask.new 70).setBit 128 true = none) ∧
    (∃ old P', (PatientBitmask.new 70).getBit 100 = some old ∧
      (PatientBitmask.new 70).setBit 100 true = some P' ∧ P'.getBit 100 = some true ∧
      P'.wellFormed ∧ P'.maxSize = (PatientBitmask.new 70).maxSize ∧
      P'.getSize = (PatientBitmask.new 70).getSize +
        (if old = true then 0 else if true then 1 else -1)) :=
  ⟨new_wellFormed 70,
    (C21_fatal_beyond_allocated_words (PatientBitmask.new 70) 128 true
      (new_wellFormed 70)).1 (by decide),
    (C21_fatal_beyond_allocated_words (PatientBitmask.new 70) 100 true
      (new_wellFormed 70)).2 (by decide)⟩

/-! ## PatientBitmask: the first set bit -/

theorem find_range_spec (f : Nat → Bool) (n : Nat) :
    (∀ i, (List.range n).find? f = some i → i < n ∧ f i = true ∧ ∀ j < i, f j = false) ∧
    ((List.range n).find? f = none → ∀ j < n, f j = false) := by
  induction n with
  | zero => simp
  | succ n ih =>
    rw [List.range_succ, List.find?_append]
    cases h : (List.range n).find? f with
    | some k =>
      obtain ⟨hk, hfk, hmin⟩ := ih.1 k h
      simp only [Option.or_some, Option.some.injEq, reduceCtorEq, false_implies, and_true]
      rintro i rfl
      exact ⟨by omega, hfk, hmin⟩
    | none =>
      have hall := ih.2 h
      simp only [Option.none_or]
      by_cases hn : f n = true
      · simp only [List.find?_cons, hn, Option.some.injEq, reduceCtorEq, false_implies,
          and_true]
        rintro i rfl
        exact ⟨by omega, hn, hall⟩
      · have hn' : f n = false := Bool.eq_false_iff.mpr hn
        simp only [List.find?_cons, hn', List.find?_nil, reduceCtorEq, false_implies,
          implies_true, true_and]
        intro _ j hj
        by_cases hjn : j = n
        · subst hjn; exact hn'
        · exact hall j (by omega)

theorem ctzll_spec (w : Nat) (h0 : w ≠ 0) (hw : w < 2 ^ 64) :
    ctzll w < 64 ∧ w.testBit (ctzll w) = true ∧ ∀ b < ctzll w, w.testBit b = false := by
  unfold ctzll
  cases h : (List.range 64).find? (fun b => w.testBit b) with
  | some k =>
    obtain ⟨hk, hfk, hmin⟩ := (find_range_spec (fun b => w.testBit b) 64).1 k h
    exact ⟨hk, hfk, hmin⟩
  | none =>
    exfalso
    have hall := (find_range_spec (fun b => w.testBit b) 64).2 h
    apply h0
    apply Nat.eq_of_testBit_eq
    intro i
    rw [Nat.zero_testBit]
    by_cases hi : i < 64
    · exact hall i hi
    · exact Nat.testBit_lt_two_pow
        (Nat.lt_of_lt_of_le hw (Nat.pow_le_pow_right (by omega) (by omega)))

theorem getD_wordsBounded (P : PatientBitmask) (hb : P.wordsBounded) (i : Nat) :
    P.bits.getD i 0 < 2 ^ 64 := by
  rw [List.getD_eq_getElem?_getD]
  cases h : P.bits[i]? with
  | none => simp
  | some w => exact hb w (List.getElem?_mem h)

/-- C22. For every mask whose words fit in 64 bits and whose count equals its number of set
bits: `getPositionOfFirstSetBit` has no value exactly when `getSize() = 0`, and otherwise
returns a position `p` at which `getBit` is true while `getBit` is false at every position
below `p`. -/
theorem C22_first_set_bit (P : PatientBitmask) (hb : P.wordsBounded)
    (hcount : P.getSize = P.popcount) :
    (P.getPositionOfFirstSetBit = none ↔ P.getSize = 0) ∧
    (P.getSize ≠ 0 → ∃ p, P.getPositionOfFirstSetBit = some p ∧ P.getBit p = some true ∧
      ∀ q < p, P.getBit q = some false) := by
  have key : P.getSize ≠ 0 → ∃ p, P.getPositionOfFirstSetBit = some p ∧
      P.getBit p = some true ∧ ∀ q < p, P.getBit q = some false := by
    intro hne
    have hsz : ¬ (P.size = 0) := hne
    have hpc : P.popcount ≠ 0 := by
      intro h0
      apply hne
      rw [hcount, h0]; rfl
    rw [popcount_eq] at hpc
    obtain ⟨p0, hp0, hbit0⟩ : ∃ p0, p0 < 64 * P.len ∧ bitAt P.bits p0 = true := by
      by_contra hcon
      apply hpc
      rw [List.countP_eq_zero]
      intro a ha hbit
      exact hcon ⟨a, List.mem_range.mp ha, hbit⟩
    have hword0 : (P.bits.getD (p0 / 64) 0 != 0) = true := by
      simp only [bne_iff_ne, ne_eq]
      intro hz
      unfold bitAt at hbit0
      rw [hz] at hbit0
      simp at hbit0
    cases hf : (List.range P.len).find? (fun i => P.bits.getD i 0 != 0) with
    | none =>
      have hall := (find_range_spec (fun i => P.bits.getD i 0 != 0) P.len).2 hf
      have := hall (p0 / 64) (by omega)
      simp only [this] at hword0
      exact absurd hword0 (by decide)
    | some i =>
      obtain ⟨hi, hwi, hmin⟩ := (find_range_spec (fun i => P.bits.getD i 0 != 0) P.len).1 i hf
      have hw0 : P.bits.getD i 0 ≠ 0 := by simpa using hwi
      obtain ⟨hc, hct, hcmin⟩ := ctzll_spec _ hw0 (getD_wordsBounded P hb i)
      refine ⟨i * 64 + ctzll (P.bits.getD i 0), ?_, ?_, ?_⟩
      · simp only [PatientBitmask.getPositionOfFirstSetBit, hsz, if_false, hf, Option.map_some']
      · have hdiv : (i * 64 + ctzll (P.bits.getD i 0)) / 64 = i := by omega
        have hmod : (i * 64 + ctzll (P.bits.getD i 0)) % 64 = ctzll (P.bits.getD i 0) := by
          omega
        rw [getBit_eq_bitAt _ _ (by rw [hdiv]; exact hi)]
        unfold bitAt
        rw [hdiv, hmod, hct]
      · intro q hq
        have hqi : q / 64 ≤ i := by omega
        rw [getBit_eq_bitAt _ _ (by omega)]
        unfold bitAt
        by_cases hlt : q / 64 < i
        · have := hmin (q / 64) hlt
          have hz : P.bits.getD (q / 64) 0 = 0 := by simpa using this
          rw [hz]; simp
        · have hqe : q / 64 = i := by omega
          rw [hqe, hcmin (q % 64) (by omega)]
  refine ⟨⟨?_, ?_⟩, key⟩
  · intro hnone
    by_contra hne
    obtain ⟨p, hp, _⟩ := key hne
    rw [hnone] at hp
    exact absurd hp (by simp)
  · intro h0
    have : P.size = 0 := h0
    simp [PatientBitmask.getPositionOfFirstSetBit, this]

/-- C22 on the mask of capacity 130 with bits 70 and 129 set (count 2): the first set bit
is at position 70. -/
theorem C22_witness :
    ((⟨130, 2, 3, [0, 64, 2]⟩ : PatientBitmask).getPositionOfFirstSetBit = none ↔
      (⟨130, 2, 3, [0, 64, 2]⟩ : PatientBitmask).getSize = 0) ∧
    ((⟨130, 2, 3, [0, 64, 2]⟩ : PatientBitmask).getSize ≠ 0 →
      ∃ p, (⟨130, 2, 3, [0, 64, 2]⟩ : PatientBitmask).getPositionOfFirstSetBit = some p ∧
        (⟨130, 2, 3, [0, 64, 2]⟩ : PatientBitmask).getBit p = some true ∧
        ∀ q < p, (⟨130, 2, 3, [0, 64, 2]⟩ : PatientBitmask).getBit q = some false) ∧
    (⟨130, 2, 3, [0, 64, 2]⟩ : PatientBitmask).getPositionOfFirstSetBit = some 70 :=
  ⟨(C22_first_set_bit ⟨130, 2, 3, [0, 64, 2]⟩
      (by simp [PatientBitmask.wordsBounded]) (by decide)).1,
    (C22_first_set_bit ⟨130, 2, 3, [0, 64, 2]⟩
      (by simp [PatientBitmask.wordsBounded]) (by decide)).2, by decide⟩

/-! ## The support tables -/

theorem countP_range_extend (f : Nat → Bool) (m n : Nat) (hmn : m ≤ n)
    (hf : ∀ a, m ≤ a → f a = false) :
    (List.range n).countP f = (List.range m).countP f := by
  induction n with
  | zero =>
    have : m = 0 := by omega
    subst this; rfl
  | succ n ih =>
    by_cases hm : m = n + 1
    · subst hm; rfl
    · rw [countP_range_succ, ih (by omega), hf n (by omega)]
      simp

theorem setBitCount_eq (mask n : Nat) (hn : n ≤ 32) (h : mask < 2 ^ n) :
    (List.range n).countP (fun a => mask.testBit a) = setBitCount mask := by
  unfold setBitCount
  symm
  apply countP_range_extend _ _ _ hn
  intro a ha
  exact Nat.testBit_lt_two_pow
    (Nat.lt_of_lt_of_le h (Nat.pow_le_pow_right (by omega) ha))

theorem setBitCount_pos (mask : Nat) (h : mask ≠ 0) (h32 : mask < 2 ^ 32) :
    1 ≤ setBitCount mask := by
  obtain ⟨i, hi⟩ := Nat.ne_zero_implies_bit_true h
  have hlt : i < 32 := by
    by_contra hge
    have h1 := Nat.testBit_implies_ge hi
    have h2 : 2 ^ 32 ≤ 2 ^ i := Nat.pow_le_pow_right (by omega) (by omega)
    omega
  unfold setBitCount
  exact List.countP_pos_iff.mpr ⟨i, List.mem_range.mpr hlt, hi⟩

theorem setBitCount_zero : setBitCount 0 = 0 := by
  simp [setBitCount]

/-- Counting the pairs `(i, a)` with `i < n`, `a < A` and `f i a` column by column or row by
row gives the same number. -/
theorem countP_sum_swap (f : Nat → Nat → Bool) (n A : Nat) :
    ((List.range A).map (fun a => (List.range n).countP (fun i => f i a))).sum =
      ((List.range n).map (fun i => (List.range A).countP (fun a => f i a))).sum := by
  induction n with
  | zero => simp
  | succ n ih =>
    rw [List.range_succ (n := n), List.map_append, List.sum_append, ← ih]
    simp only [List.map_cons, List.map_nil, List.sum_cons, List.sum_nil, Nat.add_zero]
    clear ih
    induction A with
    | zero => simp
    | succ A ihA =>
      rw [List.range_succ, List.map_append, List.map_append, List.sum_append, List.sum_append,
        List.countP_append, ihA]
      simp only [List.map_cons, List.map_nil, List.sum_cons, List.sum_nil, Nat.add_zero,
        List.countP_append, List.countP_cons, List.countP_nil, Nat.zero_add]
      omega

theorem colorCountSum_eq (g : Globals) (j : Nat) (hz : j = 0 → ∀ c, g.staleCells c = 0) :
    colorCountSum g j = (((List.range g.numSamples).map (fun i =>
      (List.range g.numAlterations).countP (fun a => (g.geneAlterations j i).testBit a))).sum :
        Nat) := by
  unfold colorCountSum
  rw [← countP_sum_swap, List.range'_eq_map_range, List.map_map]
  have hcc : ∀ a ∈ List.range g.numAlterations,
      (color_count g j ∘ fun x => 1 + x) a =
        (((List.range g.numSamples).countP
          (fun i => (g.geneAlterations j i).testBit a) : Nat) : Int) := by
    intro a ha
    have ha' := List.mem_range.mp ha
    have h1 : ¬ (1 + a = 0 ∨ g.numAlterations < 1 + a) := by omega
    have h0 : (if j = 0 then g.staleCells (1 + a) else 0) = 0 := by
      split
      · rename_i hj
        exact hz hj _
      · rfl
    simp only [Function.comp, color_count, h1, if_false, h0, zero_add,
      Nat.add_sub_cancel_left, hasAlteration_eq_testBit]
  rw [List.map_congr_left hcc]
  generalize List.range g.numAlterations = l
  induction l with
  | nil => simp
  | cons a l ih => simp only [List.map_cons, List.sum_cons, ih, Nat.cast_add]

/-- For a catalog of at most 32 alteration types (the width of a mask) and every gene `j`
whose row of the table starts from zero (every gene but gene 0, and gene 0 when its stale
cells hold 0) and whose per-sample masks only carry bits of the catalog: each entry
`color_count[j][c]` counted by the seeding phase is `support(j, c)`; the sum of these
entries over the alteration types equals the total number of set bits over the per-sample
masks of `j`; and when no sample has more than one bit set on `j`, the sum equals the
number of samples whose mask for `j` is not zero. -/
theorem support_sum_counts_set_bits (g : Globals) (j : Nat)
    (hz : j = 0 → ∀ c, g.staleCells c = 0) (hA : g.numAlterations ≤ 32)
    (hbits : ∀ i < g.numSamples, g.geneAlterations j i < 2 ^ g.numAlterations) :
    (∀ c, 1 ≤ c → c ≤ g.numAlterations → color_count g j c = (support g j c : Int)) ∧
    colorCountSum g j = (((List.range' 1 g.numAlterations).map (support g j)).sum : Nat) ∧
    colorCountSum g j =
      (((List.range g.numSamples).map (fun i => setBitCount (g.geneAlterations j i))).sum :
        Nat) ∧
    ((∀ i < g.numSamples, setBitCount (g.geneAlterations j i) ≤ 1) →
      colorCountSum g j =
        ((List.range g.numSamples).countP (fun i => g.geneAlterations j i != 0) : Nat)) := by
  have hcc : ∀ c, 1 ≤ c → c ≤ g.numAlterations → color_count g j c = (support g j c : Int) := by
    intro c h1 h2
    exact color_count_eq_support g j c h1 h2 (fun h0 => hz h0 c)
  have hsum : colorCountSum g j =
      (((List.range g.numSamples).map (fun i => setBitCount (g.geneAlterations j i))).sum :
        Nat) := by
    rw [colorCountSum_eq g j hz]
    congr 2
    apply List.map_congr_left
    intro i hi
    exact setBitCount_eq _ _ hA (hbits i (List.mem_range.mp hi))
  refine ⟨hcc, ?_, hsum, ?_⟩
  · unfold colorCountSum
    have : ∀ c ∈ List.range' 1 g.numAlterations, color_count g j c = (support g j c : Int) := by
      intro c hc
      have := List.mem_range'_1.mp hc
      exact hcc c (by omega) (by omega)
    rw [List.map_congr_left this]
    generalize List.range' 1 g.numAlterations = l
    induction l with
    | nil => simp
    | cons a l ih => simp only [List.map_cons, List.sum_cons, ih, Nat.cast_add]
  · intro hone
    rw [hsum]
    congr 1
    have hind : ∀ i ∈ List.range g.numSamples, setBitCount (g.geneAlterations j i) =
        if (g.geneAlterations j i != 0) = true then 1 else 0 := by
      intro i hi
      have h1 := hone i (List.mem_range.mp hi)
      by_cases hz : g.geneAlterations j i = 0
      · rw [hz]; simp [setBitCount_zero]
      · have h32 : g.geneAlterations j i < 2 ^ 32 :=
          Nat.lt_of_lt_of_le (hbits i (List.mem_range.mp hi))
            (Nat.pow_le_pow_right (by omega) hA)
        have := setBitCount_pos _ hz h32
        simp only [bne_iff_ne, ne_eq, hz, not_false_eq_true, if_true]
        omega
    rw [List.map_congr_left hind]
    generalize List.range g.numSamples = l
    induction l with
    | nil => simp
    | cons a l ih =>
      simp only [List.map_cons, List.sum_cons, ih, List.countP_cons]
      omega

/-- The sums on `twoColorGlobals`. The one sample carries both alteration types on gene 0
(mask 3), so its two supports sum to 2, the number of set bits; on gene 1 (mask 1) the sum
is 1, the number of samples with a nonzero mask. -/
theorem support_sum_on_twoColor :
    (colorCountSum twoColorGlobals 0 =
        (((List.range twoColorGlobals.numSamples).map
          (fun i => setBitCount (twoColorGlobals.geneAlterations 0 i))).sum : Nat) ∧
      colorCountSum twoColorGlobals 0 = 2) ∧
    (colorCountSum twoColorGlobals 1 =
        ((List.range twoColorGlobals.numSamples).countP
          (fun i => twoColorGlobals.geneAlterations 1 i != 0) : Nat) ∧
      colorCountSum twoColorGlobals 1 = 1) :=
  ⟨⟨(support_sum_counts_set_bits twoColorGlobals 0 (fun _ _ => rfl) (by decide)
      (by decide)).2.2.1,
      by decide⟩,
    ⟨(support_sum_counts_set_bits twoColorGlobals 1 (fun _ _ => rfl) (by decide)
        (by decide)).2.2.2
      (by decide), by decide⟩⟩

/-! ## The support table of `runILPSolverMaxNetworkSize` -/

/-- With the logical `&&`, every column of the table of `runILPSolverMaxNetworkSize` holds
the number of samples in which gene `j` has a nonzero mask. -/
theorem ilp_color_count_eq (g : Globals) (j a : Nat) (ha : a < g.numAlterations) :
    runILPSolverMaxNetworkSize.color_count g j a =
      ((List.range g.numSamples).countP (fun i => g.geneAlterations j i != 0) : Nat) := by
  have h1 : ¬ (g.numAlterations ≤ a) := by omega
  have h2 : (1 <<< a != 0) = true := by
    rw [Nat.one_shiftLeft]
    simp
  simp only [runILPSolverMaxNetworkSize.color_count, h1, if_false, h2, Bool.and_true]
  congr 2
  funext i
  cases (g.geneAlterations j i != 0) <;> rfl

theorem countP_le_of_imp (p q : Nat → Bool) (n : Nat) (hpq : ∀ i, p i = true → q i = true) :
    (List.range n).countP p ≤ (List.range n).countP q ∧
    ((List.range n).countP p = (List.range n).countP q ↔
      ∀ i < n, q i = true → p i = true) := by
  induction n with
  | zero => simp
  | succ n ih =>
    rw [countP_range_succ, countP_range_succ]
    obtain ⟨hle, hiff⟩ := ih
    have hstep : (∀ i < n + 1, q i = true → p i = true) ↔
        ((∀ i < n, q i = true → p i = true) ∧ (q n = true → p n = true)) := by
      constructor
      · intro h
        exact ⟨fun i hi => h i (by omega), h n (by omega)⟩
      · rintro ⟨h1, h2⟩ i hi
        by_cases hin : i = n
        · subst hin; exact h2
        · exact h1 i (by omega)
    rw [hstep, ← hiff]
    have := hpq n
    cases hp : p n <;> cases hq : q n <;> simp_all
    omega

/-- Where the enumerator's cell starts from zero, the table of `runILPSolverMaxNetworkSize`
is never below the enumerator's, and the two agree on gene `j` and type `a` exactly when
every sample with a nonzero mask on `j` carries type `a`. -/
theorem ilp_color_count_ge (g : Globals) (j a : Nat) (ha : a < g.numAlterations)
    (hz : j = 0 → g.staleCells (a + 1) = 0) :
    color_count g j (a + 1) ≤ runILPSolverMaxNetworkSize.color_count g j a ∧
    (color_count g j (a + 1) = runILPSolverMaxNetworkSize.color_count g j a ↔
      ∀ i < g.numSamples, g.geneAlterations j i ≠ 0 → (g.geneAlterations j i).testBit a) := by
  rw [ilp_color_count_eq g j a ha]
  rw [color_count_eq_support g j (a + 1) (by omega) (by omega) hz]
  simp only [support, Nat.add_sub_cancel]
  have hpq : ∀ i, (g.geneAlterations j i).testBit a = true →
      (g.geneAlterations j i != 0) = true := by
    intro i h
    simp only [bne_iff_ne, ne_eq]
    intro hz
    rw [hz] at h
    simp at h
  obtain ⟨hle, hiff⟩ := countP_le_of_imp (fun i => (g.geneAlterations j i).testBit a)
    (fun i => g.geneAlterations j i != 0) g.numSamples hpq
  refine ⟨by exact_mod_cast hle, ?_⟩
  rw [Nat.cast_inj, hiff]
  simp only [bne_iff_ne, ne_eq]

/-- C28, evaluated on `twoColorGlobals` (one sample with `MUT` and `AMP` on gene 0 and `MUT`
alone on gene 1; `AMP` is alteration type 1, color id 2): for gene 1 and `AMP` the table of
`runILPSolverMaxNetworkSize` holds 1, whereas the enumerator's `color_count[1][2]` and
`support(1, 2)` are 0. -/
theorem C28_ilp_table_differs :
    (1 < twoColorGlobals.G.V ∧ 1 < twoColorGlobals.numAlterations) ∧
    runILPSolverMaxNetworkSize.color_count twoColorGlobals 1 1 = 1 ∧
    color_count twoColorGlobals 1 (1 + 1) = 0 ∧
    support twoColorGlobals 1 (1 + 1) = 0 ∧
    runILPSolverMaxNetworkSize.color_count twoColorGlobals 1 1 ≠
      color_count twoColorGlobals 1 (1 + 1) := by
  decide

/-! ## The input check of `main` -/

theorem parseLoop_mono (c : Char) (l : List String) :
    ∀ (skip : Bool) (m : List (Char × String)), umFind m c ≠ none →
      umFind (parseLoop l skip m) c ≠ none := by
  induction l with
  | nil => intro skip m h; exact h
  | cons arg rest ih =>
    intro skip m h
    unfold parseLoop
    cases skip with
    | true => simpa using ih false m h
    | false =>
      simp only [Bool.false_eq_true, if_false]
      split
      · split
        · apply ih
          rw [umFind_umAssign]
          split
          · simp
          · exact h
        · exact ih false m h
      · exact ih false m h

theorem flagChar_not_notDash (arg : String) (c : Char) (h : flagChar arg = some c) :
    notDash arg = false := by
  unfold flagChar at h
  unfold notDash
  split at h
  · rename_i c0 c1 tl hd
    rw [hd]
    by_cases h0 : c0 = '-'
    · simp [h0]
    · simp [h0] at h
  · exact absurd h (by simp)

/-- A value stored by the loop was supplied on the command line, or was there before. -/
theorem parseLoop_found (c : Char) (l : List String) :
    ∀ (skip : Bool) (m : List (Char × String)), umFind (parseLoop l skip m) c ≠ none →
      umFind m c ≠ none ∨ ∃ pre arg value post, l = pre ++ arg :: value :: post ∧
        flagChar arg = some c ∧ notDash value = true := by
  induction l with
  | nil => intro skip m h; exact Or.inl h
  | cons arg rest ih =>
    intro skip m h
    have lift : (umFind m c ≠ none ∨ ∃ pre a value post, rest = pre ++ a :: value :: post ∧
        flagChar a = some c ∧ notDash value = true) →
        (umFind m c ≠ none ∨ ∃ pre a value post, arg :: rest = pre ++ a :: value :: post ∧
          flagChar a = some c ∧ notDash value = true) := by
      rintro (h1 | ⟨pre, a, value, post, hsplit, hf, hv⟩)
      · exact Or.inl h1
      · exact Or.inr ⟨arg :: pre, a, value, post, by rw [hsplit]; rfl, hf, hv⟩
    unfold parseLoop at h
    cases skip with
    | true => exact lift (ih false m (by simpa using h))
    | false =>
      simp only [Bool.false_eq_true, if_false] at h
      split at h
      · rename_i c' value tl hflag
        split at h
        · rename_i hv
          rcases ih true _ h with h1 | h2
          · rw [umFind_umAssign] at h1
            by_cases hc : c' = c
            · subst hc
              exact Or.inr ⟨[], arg, value, tl, rfl, hflag, hv⟩
            · rw [if_neg hc] at h1
              exact Or.inl h1
          · exact lift (Or.inr h2)
        · exact lift (ih false m h)
      · exact lift (ih false m h)

/-- A value supplied on the command line is stored by the loop: an argument that the loop
steps over as a value does not start with a dash, so it is not a flag. -/
theorem parseLoop_supplied (c : Char) (l : List String) :
    ∀ (skip : Bool) (m : List (Char × String)),
      (∃ pre arg value post, l = pre ++ arg :: value :: post ∧ flagChar arg = some c ∧
        notDash value = true) →
      (skip = true → ∀ x, l.head? = some x → notDash x = true) →
      umFind (parseLoop l skip m) c ≠ none := by
  induction l with
  | nil =>
    rintro skip m ⟨pre, arg, value, post, hsplit, _, _⟩ _
    simp at hsplit
  | cons x rest ih =>
    rintro skip m ⟨pre, arg, value, post, hsplit, hf, hv⟩ hskip
    unfold parseLoop
    cases skip with
    | true =>
      simp only [if_true]
      have hx : notDash x = true := hskip rfl x rfl
      cases pre with
      | nil =>
        simp only [List.nil_append, List.cons.injEq] at hsplit
        obtain ⟨rfl, _⟩ := hsplit
        rw [flagChar_not_notDash x c hf] at hx
        exact absurd hx (by decide)
      | cons y pre' =>
        simp only [List.cons_append, List.cons.injEq] at hsplit
        obtain ⟨_, hrest⟩ := hsplit
        exact ih false m ⟨pre', arg, value, post, hrest, hf, hv⟩ (fun h => absurd h (by decide))
    | false =>
      simp only [Bool.false_eq_true, if_false]
      cases pre with
      | nil =>
        simp only [List.nil_append, List.cons.injEq] at hsplit
        obtain ⟨rfl, rfl⟩ := hsplit
        simp only [hf, hv, if_true]
        apply parseLoop_mono
        rw [umFind_umAssign, if_pos rfl]
        simp
      | cons y pre' =>
        simp only [List.cons_append, List.cons.injEq] at hsplit
        obtain ⟨_, hrest⟩ := hsplit
        have hex : ∃ pre arg value post, rest = pre ++ arg :: value :: post ∧
            flagChar arg = some c ∧ notDash value = true := ⟨pre', arg, value, post, hrest, hf, hv⟩
        split
        · rename_i c' value' tl hflag
          split
          · rename_i hv'
            apply ih true _ hex
            intro _ z hz
            simp only [List.head?_cons, Option.some.injEq] at hz
            subst hz
            exact hv'
          · exact ih false m hex (fun h => absurd h (by decide))
        · exact ih false m hex (fun h => absurd h (by decide))

theorem firstMissing_none (m : List (Char × String)) (flags : List Char) :
    firstMissing m flags = none ↔ ∀ c ∈ flags, umFind m c ≠ none := by
  induction flags with
  | nil => simp [firstMissing]
  | cons f fs ih =>
    unfold firstMissing
    cases h : umFind m f with
    | none => simp [h]
    | some v => simp [h, ih]

/-- The command line `./motif -n net.txt -l alt.txt -s 2 -m 1`. -/
theorem fourFlags_supplied :
    suppliesValue ["./motif", "-n", "net.txt", "-l", "alt.txt", "-s", "2", "-m", "1"] 'n' ∧
    suppliesValue ["./motif", "-n", "net.txt", "-l", "alt.txt", "-s", "2", "-m", "1"] 'l' ∧
    suppliesValue ["./motif", "-n", "net.txt", "-l", "alt.txt", "-s", "2", "-m", "1"] 's' ∧
    suppliesValue ["./motif", "-n", "net.txt", "-l", "alt.txt", "-s", "2", "-m", "1"] 'm' :=
  ⟨⟨[], "-n", "net.txt", ["-l", "alt.txt", "-s", "2", "-m", "1"], rfl, rfl, rfl⟩,
    ⟨["-n", "net.txt"], "-l", "alt.txt", ["-s", "2", "-m", "1"], rfl, rfl, rfl⟩,
    ⟨["-n", "net.txt", "-l", "alt.txt"], "-s", "2", ["-m", "1"], rfl, rfl, rfl⟩,
    ⟨["-n", "net.txt", "-l", "alt.txt", "-s", "2"], "-m", "1", [], rfl, rfl, rfl⟩⟩

/-- C27, as stated, fails: the command line `./motif -n net.txt -l alt.txt -s 2 -m 1`
supplies values for `-n`, `-l`, `-s` and `-m` and has no `-t` flag, and `main` ends with
the missing-parameter error for `t`. -/
theorem C27_counterexample :
    (suppliesValue ["./motif", "-n", "net.txt", "-l", "alt.txt", "-s", "2", "-m", "1"] 'n' ∧
      suppliesValue ["./motif", "-n", "net.txt", "-l", "alt.txt", "-s", "2", "-m", "1"] 'l' ∧
      suppliesValue ["./motif", "-n", "net.txt", "-l", "alt.txt", "-s", "2", "-m", "1"] 's' ∧
      suppliesValue ["./motif", "-n", "net.txt", "-l", "alt.txt", "-s", "2", "-m", "1"] 'm') ∧
    hasNoFlag ["./motif", "-n", "net.txt", "-l", "alt.txt", "-s", "2", "-m", "1"] 't' ∧
    mainInputCheck ["./motif", "-n", "net.txt", "-l", "alt.txt", "-s", "2", "-m", "1"] =
      InputCheck.missingValue 't' :=
  ⟨fourFlags_supplied, by decide, rfl⟩

/-- C27, amended. For every command line that supplies values for `-n`, `-l`, `-s` and
`-m`: if it has no `-t` flag, `main` ends with the missing-parameter error for `t`, before
any input is read; if it supplies a value for `-t` as well, the input check is passed, with
a value stored for each of the five flags. -/
theorem C27_missing_t_is_fatal (argv : List String)
    (hn : suppliesValue argv 'n') (hl : suppliesValue argv 'l')
    (hs : suppliesValue argv 's') (hm : suppliesValue argv 'm') :
    (hasNoFlag argv 't' → mainInputCheck argv = InputCheck.missingValue 't') ∧
    (suppliesValue argv 't' → ∃ consoleParameters,
      mainInputCheck argv = InputCheck.passed consoleParameters ∧
      ∀ c ∈ consoleFlags, umFind consoleParameters c ≠ none) := by
  have hlen : ¬ (argv.length ≤ 1) := by
    obtain ⟨pre, arg, value, post, hsplit, _, _⟩ := hn
    have := congrArg List.length hsplit
    simp only [List.length_tail, List.length_append, List.length_cons] at this
    omega
  have stored : ∀ c, suppliesValue argv c → umFind (parseLoop argv.tail false []) c ≠ none :=
    fun c hc => parseLoop_supplied c argv.tail false [] hc (fun h => absurd h (by decide))
  have hn' := stored _ hn
  have hl' := stored _ hl
  have hs' := stored _ hs
  have hm' := stored _ hm
  constructor
  · intro ht
    have ht' : umFind (parseLoop argv.tail false []) 't' = none := by
      by_contra hne
      rcases parseLoop_found 't' argv.tail false [] hne with h0 | ⟨pre, arg, _, _, hsplit, hf, _⟩
      · exact h0 rfl
      · exact ht arg (by rw [hsplit]; simp) hf
    have hfm : firstMissing (parseLoop argv.tail false []) consoleFlags = some 't' := by
      unfold consoleFlags firstMissing
      cases h1 : umFind (parseLoop argv.tail false []) 'n' with
      | none => exact absurd h1 hn'
      | some _ =>
        unfold firstMissing
        cases h2 : umFind (parseLoop argv.tail false []) 'l' with
        | none => exact absurd h2 hl'
        | some _ =>
          unfold firstMissing
          cases h3 : umFind (parseLoop argv.tail false []) 's' with
          | none => exact absurd h3 hs'
          | some _ =>
            unfold firstMissing
            cases h4 : umFind (parseLoop argv.tail false []) 'm' with
            | none => exact absurd h4 hm'
            | some _ =>
              unfold firstMissing
              simp only [ht']
    simp only [mainInputCheck, hlen, if_false, hfm]
  · intro ht
    have ht' := stored _ ht
    have hall : ∀ c ∈ consoleFlags, umFind (parseLoop argv.tail false []) c ≠ none := by
      intro c hc
      simp only [consoleFlags, List.mem_cons, List.mem_singleton, List.not_mem_nil,
        or_false] at hc
      rcases hc with rfl | rfl | rfl | rfl | rfl
      · exact hn'
      · exact hl'
      · exact hs'
      · exact hm'
      · exact ht'
    refine ⟨parseLoop argv.tail false [], ?_, hall⟩
    have hfm := (firstMissing_none _ _).mpr hall
    simp only [mainInputCheck, hlen, if_false, hfm]

/-- C27 (amended) on the command line `./motif -n net.txt -l alt.txt -s 2 -m 1`. -/
theorem C27_witness :
    hasNoFlag ["./motif", "-n", "net.txt", "-l", "alt.txt", "-s", "2", "-m", "1"] 't' ∧
    mainInputCheck ["./motif", "-n", "net.txt", "-l", "alt.txt", "-s", "2", "-m", "1"] =
      InputCheck.missingValue 't' :=
  ⟨by decide,
    (C27_missing_t_is_fatal ["./motif", "-n", "net.txt", "-l", "alt.txt", "-s", "2", "-m", "1"]
      ⟨[], "-n", "net.txt", ["-l", "alt.txt", "-s", "2", "-m", "1"], rfl, rfl, rfl⟩
      ⟨["-n", "net.txt"], "-l", "alt.txt", ["-s", "2", "-m", "1"], rfl, rfl, rfl⟩
      ⟨["-n", "net.txt", "-l", "alt.txt"], "-s", "2", ["-m", "1"], rfl, rfl, rfl⟩
      ⟨["-n", "net.txt", "-l", "alt.txt", "-s", "2"], "-m", "1", [], rfl, rfl, rfl⟩).1
      (by decide)⟩

/-! ## Name catalogs -/

/-- Invariant reasoning for a loop over `l`: `Inv pre s` relates the state to the prefix
already processed. -/
theorem foldl_inv {σ α : Type} (f : σ → α → σ) (Inv : List α → σ → Prop) (l : List α) :
    ∀ (pre : List α) (s : σ), Inv pre s →
      (∀ pre' x s', x ∈ l → Inv pre' s' → Inv (pre' ++ [x]) (f s' x)) →
      Inv (pre ++ l) (l.foldl f s) := by
  induction l with
  | nil => intro pre s h _; simpa using h
  | cons x l ih =>
    intro pre s h hstep
    have h1 := hstep pre x s (List.mem_cons_self _ _) h
    have h2 := ih (pre ++ [x]) (f s x) h1
      (fun pre' y s' hy hI => hstep pre' y s' (List.mem_cons_of_mem _ hy) hI)
    simpa using h2

theorem umFind_eq_some_iff_mem {κ ν : Type} [DecidableEq κ] (m : List (κ × ν))
    (h : (m.map Prod.fst).Nodup) (k : κ) (v : ν) : umFind m k = some v ↔ (k, v) ∈ m := by
  induction m with
  | nil => simp [umFind]
  | cons e m ih =>
    simp only [List.map_cons, List.nodup_cons] at h
    obtain ⟨hnot, hnd⟩ := h
    by_cases hk : e.1 = k
    · simp only [umFind, hk, if_true, Option.some.injEq, List.mem_cons]
      constructor
      · intro hv
        left
        rw [← hk, ← hv]
      · rintro (heq | hmem)
        · rw [← heq]
        · exfalso
          apply hnot
          rw [hk]
          exact List.mem_map.mpr ⟨(k, v), hmem, rfl⟩
    · simp only [umFind, hk, if_false, List.mem_cons, ih hnd]
      constructor
      · exact Or.inr
      · rintro (heq | hmem)
        · exact absurd (by rw [← heq]) hk
        · exact hmem

theorem umFind_isSome_iff {κ ν : Type} [DecidableEq κ] (m : List (κ × ν)) (k : κ) :
    (∃ v, umFind m k = some v) ↔ k ∈ m.map Prod.fst := by
  have := umFind_eq_none_iff m k
  cases h : umFind m k with
  | none =>
    rw [h] at this
    simp only [true_iff] at this
    simp [this]
  | some v =>
    rw [h] at this
    simp only [reduceCtorEq, false_iff, not_not] at this
    simp [this]

theorem umIndex_of_find {κ : Type} [DecidableEq κ] (m : List (κ × Nat)) (k : κ) (v : Nat)
    (h : umFind m k = some v) : umIndex m k = (m, v) := by
  simp [umIndex, h]

theorem denseCatalog_nil : denseCatalog [] := by
  simp [denseCatalog]

theorem denseCatalog_snoc (m : List (String × Nat)) (k : String) (hm : denseCatalog m)
    (hk : k ∉ m.map Prod.fst) : denseCatalog (m ++ [(k, m.length)]) := by
  obtain ⟨hnd, hval⟩ := hm
  constructor
  · rw [List.map_append, List.nodup_append]
    refine ⟨hnd, by simp, ?_⟩
    intro a ha hb
    simp only [List.map_cons, List.map_nil, List.mem_singleton] at hb
    subst hb
    exact hk ha
  · rw [List.map_append, hval, List.length_append, List.length_singleton, List.range_succ]
    rfl

/-- In a catalog, `indices[x] = i` exactly when `x` is the key stored at position `i`. -/
theorem denseCatalog_find_iff (m : List (String × Nat)) (hm : denseCatalog m) (x : String)
    (i : Nat) : umFind m x = some i ↔ (m.map Prod.fst)[i]? = some x := by
  obtain ⟨hnd, hval⟩ := hm
  rw [umFind_eq_some_iff_mem m hnd]
  have hsnd : ∀ (p : Nat) (e : String × Nat), m[p]? = some e → e.2 = p := by
    intro p e hp
    have h1 : (m.map Prod.snd)[p]? = some e.2 := by rw [List.getElem?_map, hp]; rfl
    rw [hval] at h1
    have hlt : p < m.length := by
      by_contra hge
      rw [List.getElem?_eq_none (by omega)] at hp
      exact Option.noConfusion hp
    rw [List.getElem?_range hlt] at h1
    exact (Option.some.inj h1).symm
  constructor
  · intro hmem
    obtain ⟨p, hp⟩ := List.mem_iff_getElem?.mp hmem
    have := hsnd p _ hp
    simp only at this
    subst this
    rw [List.getElem?_map, hp]
    rfl
  · intro hkey
    rw [List.getElem?_map] at hkey
    cases he : m[i]? with
    | none => rw [he] at hkey; exact Option.noConfusion hkey
    | some e =>
      rw [he] at hkey
      have h1 : e.1 = x := Option.some.inj hkey
      have h2 := hsnd i e he
      have : e = (x, i) := by rw [← h1, ← h2]
      rw [← this]
      exact List.mem_iff_getElem?.mpr ⟨i, he⟩

theorem denseCatalog_lt (m : List (String × Nat)) (hm : denseCatalog m) (x : String) (i : Nat)
    (h : umFind m x = some i) : i < m.length := by
  rw [denseCatalog_find_iff m hm] at h
  by_contra hge
  rw [List.getElem?_eq_none (by simp; omega)] at h
  exact Option.noConfusion h

theorem denseCatalog_inj (m : List (String × Nat)) (hm : denseCatalog m) (x y : String)
    (i : Nat) (hx : umFind m x = some i) (hy : umFind m y = some i) : x = y := by
  rw [denseCatalog_find_iff m hm] at hx hy
  rw [hx] at hy
  exact Option.some.inj hy

theorem denseCatalog_surj (m : List (String × Nat)) (hm : denseCatalog m) (i : Nat)
    (hi : i < m.length) : ∃ x, umFind m x = some i := by
  have hlt : i < (m.map Prod.fst).length := by simpa using hi
  exact ⟨(m.map Prod.fst)[i], (denseCatalog_find_iff m hm _ i).mpr (List.getElem?_eq_getElem hlt)⟩

theorem addName_eq (m : List (String × Nat)) (x : String) :
    addName m x = if x ∈ m.map Prod.fst then m else m ++ [(x, m.length)] := by
  unfold addName
  cases h : umFind m x with
  | none =>
    have hx := (umFind_eq_none_iff m x).mp h
    simp only [hx, if_false]
    exact umAssign_of_not_mem m x _ hx
  | some v =>
    have hx : x ∈ m.map Prod.fst := (umFind_isSome_iff m x).mp ⟨v, h⟩
    simp only [hx, if_true]

theorem length_modifyAt {α : Type} (a : List α) (i : Nat) (f : α → α) :
    (modifyAt a i f).length = a.length := by
  unfold modifyAt
  cases a[i]? <;> simp

theorem getElem?_modifyAt {α : Type} (a : List α) (i j : Nat) (f : α → α) :
    (modifyAt a i f)[j]? = if i = j then a[j]?.map f else a[j]? := by
  unfold modifyAt
  cases h : a[i]? with
  | none =>
    by_cases hij : i = j
    · subst hij; simp [h]
    · simp [hij]
  | some x =>
    by_cases hij : i = j
    · subst hij
      have hlt : i < a.length := by
        by_contra hge
        rw [List.getElem?_eq_none (by omega)] at h
        exact Option.noConfusion h
      simp [h, List.getElem?_set, hlt]
    · simp [hij, List.getElem?_set]

theorem getD_modifyAt {α : Type} (a : List α) (i j : Nat) (f : α → α) (d : α)
    (hi : i < a.length) :
    (modifyAt a i f).getD j d = if i = j then f (a.getD j d) else a.getD j d := by
  simp only [List.getD_eq_getElem?_getD, getElem?_modifyAt]
  by_cases hij : i = j
  · subst hij
    simp [List.getElem?_eq_getElem hi]
  · simp [hij]

/-- The catalog built from the names `observed`, inserted in this order. -/
theorem addName_fold (observed : List String) :
    denseCatalog (observed.foldl addName []) ∧
    (∀ x, x ∈ (observed.foldl addName []).map Prod.fst ↔ x ∈ observed) ∧
    (∀ x y, x ∈ observed → y ∈ observed →
      (((observed.foldl addName []).map Prod.fst).indexOf x <
          ((observed.foldl addName []).map Prod.fst).indexOf y ↔
        observed.indexOf x < observed.indexOf y)) := by
  have := foldl_inv addName
    (fun pre m => denseCatalog m ∧ (∀ x, x ∈ m.map Prod.fst ↔ x ∈ pre) ∧
      (∀ x y, x ∈ pre → y ∈ pre →
        ((m.map Prod.fst).indexOf x < (m.map Prod.fst).indexOf y ↔
          pre.indexOf x < pre.indexOf y)))
    observed [] [] ⟨denseCatalog_nil, by simp, by simp⟩ ?_
  · simpa using this
  · rintro pre z m _ ⟨hd, hkeys, hord⟩
    rw [addName_eq]
    by_cases hz : z ∈ m.map Prod.fst
    · have hzp : z ∈ pre := (hkeys z).mp hz
      rw [if_pos hz]
      refine ⟨hd, ?_, ?_⟩
      · intro x
        rw [hkeys x, List.mem_append, List.mem_singleton]
        constructor
        · exact Or.inl
        · rintro (h | rfl)
          · exact h
          · exact hzp
      · intro x y hx hy
        have hx' : x ∈ pre := by
          rcases List.mem_append.mp hx with h | h
          · exact h
          · rw [List.mem_singleton.mp h]; exact hzp
        have hy' : y ∈ pre := by
          rcases List.mem_append.mp hy with h | h
          · exact h
          · rw [List.mem_singleton.mp h]; exact hzp
        rw [List.indexOf_append_of_mem hx', List.indexOf_append_of_mem hy']
        exact hord x y hx' hy'
    · have hzp : z ∉ pre := fun h => hz ((hkeys z).mpr h)
      rw [if_neg hz]
      refine ⟨denseCatalog_snoc m z hd hz, ?_, ?_⟩
      · intro x
        rw [List.map_append, List.mem_append, List.mem_append, hkeys x]
        simp
      · intro x y hx hy
        rw [List.map_append]
        simp only [List.map_cons, List.map_nil]
        have hlen : (m.map Prod.fst).indexOf z = (m.map Prod.fst).length :=
          List.indexOf_eq_length.mpr hz
        have hlenp : pre.indexOf z = pre.length := List.indexOf_eq_length.mpr hzp
        by_cases hxz : x = z
        · subst hxz
          rw [List.indexOf_append_of_not_mem hz, List.indexOf_append_of_not_mem hzp]
          simp only [List.indexOf_cons_self, Nat.add_zero]
          by_cases hyz : y = x
          · subst hyz
            rw [List.indexOf_append_of_not_mem hz, List.indexOf_append_of_not_mem hzp]
            simp
          · have hy' : y ∈ pre := by
              rcases List.mem_append.mp hy with h | h
              · exact h
              · exact absurd (List.mem_singleton.mp h) hyz
            have hy'' : y ∈ m.map Prod.fst := (hkeys y).mpr hy'
            rw [List.indexOf_append_of_mem hy'', List.indexOf_append_of_mem hy']
            have h1 := List.indexOf_lt_length.mpr hy''
            have h2 := List.indexOf_lt_length.mpr hy'
            omega
        · have hx' : x ∈ pre := by
            rcases List.mem_append.mp hx with h | h
            · exact h
            · exact absurd (List.mem_singleton.mp h) hxz
          have hx'' : x ∈ m.map Prod.fst := (hkeys x).mpr hx'
          rw [List.indexOf_append_of_mem hx'', List.indexOf_append_of_mem hx']
          by_cases hyz : y = z
          · subst hyz
            rw [List.indexOf_append_of_not_mem hz, List.indexOf_append_of_not_mem hzp]
            simp only [List.indexOf_cons_self, Nat.add_zero]
            have h1 := List.indexOf_lt_length.mpr hx''
            have h2 := List.indexOf_lt_length.mpr hx'
            omega
          · have hy' : y ∈ pre := by
              rcases List.mem_append.mp hy with h | h
              · exact h
              · exact absurd (List.mem_singleton.mp h) hyz
            have hy'' : y ∈ m.map Prod.fst := (hkeys y).mpr hy'
            rw [List.indexOf_append_of_mem hy'', List.indexOf_append_of_mem hy']
            exact hord x y hx' hy'

/-- The loops at lines 277-285, run in any order over a catalog, fill `names` with the keys
in index order. -/
theorem fillNames_perm (m iter : List (String × Nat)) (hm : denseCatalog m)
    (hperm : iter.Perm m) : fillNames iter m.length = m.map Prod.fst := by
  have hinv := foldl_inv (fun names (it : String × Nat) => modifyAt names it.2 (fun _ => it.1))
    (fun pre names => names.length = m.length ∧
      ∀ e ∈ pre, e ∈ m ∧ names[e.2]? = some e.1)
    iter [] (List.replicate m.length "") ⟨by simp, by simp⟩ ?_
  · obtain ⟨hlen, hall⟩ := hinv
    simp only [List.nil_append] at hall
    apply List.ext_getElem?
    intro i
    by_cases hi : i < m.length
    · obtain ⟨x, hx⟩ := denseCatalog_surj m hm i hi
      have hkey := (denseCatalog_find_iff m hm x i).mp hx
      have hmem : (x, i) ∈ iter :=
        hperm.mem_iff.mpr ((umFind_eq_some_iff_mem m hm.1 x i).mp hx)
      rw [hkey]
      exact (hall _ hmem).2
    · rw [List.getElem?_eq_none (by unfold fillNames; omega),
        List.getElem?_eq_none (by simp; omega)]
  · rintro pre e names he ⟨hlen, hall⟩
    have hem : e ∈ m := hperm.mem_iff.mp he
    have hfind : umFind m e.1 = some e.2 := (umFind_eq_some_iff_mem m hm.1 e.1 e.2).mpr hem
    have hlt := denseCatalog_lt m hm _ _ hfind
    refine ⟨by rw [length_modifyAt, hlen], ?_⟩
    intro e' he'
    rw [getElem?_modifyAt]
    rcases List.mem_append.mp he' with h | h
    · obtain ⟨hem', hget⟩ := hall e' h
      refine ⟨hem', ?_⟩
      by_cases hij : e.2 = e'.2
      · rw [if_pos hij, hget]
        have hfind' : umFind m e'.1 = some e.2 := by
          rw [hij]
          exact (umFind_eq_some_iff_mem m hm.1 e'.1 e'.2).mpr hem'
        rw [denseCatalog_inj m hm _ _ _ hfind hfind']
        rfl
      · rw [if_neg hij]
        exact hget
    · rw [List.mem_singleton.mp h, if_pos rfl]
      refine ⟨hem, ?_⟩
      rw [List.getElem?_eq_getElem (by omega)]
      rfl

/-! ## `readAlterationProfiles`: the catalogs -/

theorem foldl_filter_skip {σ α : Type} (f : σ → α → σ) (p : α → Bool) (l : List α)
    (hskip : ∀ s x, p x = false → f s x = s) :
    ∀ s, l.foldl f s = (l.filter p).foldl f s := by
  induction l with
  | nil => intro s; rfl
  | cons x l ih =>
    intro s
    cases hp : p x with
    | false => rw [List.foldl_cons, hskip s x hp, List.filter_cons_of_neg (by simp [hp]), ih]
    | true => rw [List.foldl_cons, List.filter_cons_of_pos hp, List.foldl_cons, ih]

theorem foldlM_filter_skip {σ α : Type} (f : σ → α → Option σ) (p : α → Bool) (l : List α)
    (hskip : ∀ s x, p x = false → f s x = some s) :
    ∀ s, l.foldlM f s = (l.filter p).foldlM f s := by
  induction l with
  | nil => intro s; rfl
  | cons x l ih =>
    intro s
    cases hp : p x with
    | false =>
      rw [List.foldlM_cons, hskip s x hp, List.filter_cons_of_neg (by simp [hp])]
      exact ih s
    | true =>
      rw [List.foldlM_cons, List.filter_cons_of_pos hp, List.foldlM_cons]
      cases f s x with
      | none => rfl
      | some s' => exact ih s'

theorem scanRow_skip (nodeIndices : List (String × Nat)) (st : CatalogState)
    (row : AlterationRow) (h : (umFind nodeIndices row.2.1).isSome = false) :
    scanRow nodeIndices st row = st := by
  unfold scanRow
  cases hf : umFind nodeIndices row.2.1 with
  | none => rfl
  | some v => rw [hf] at h; exact absurd h (by simp)

theorem scanRow_kept (nodeIndices : List (String × Nat)) (st : CatalogState)
    (row : AlterationRow) (h : (umFind nodeIndices row.2.1).isSome = true) :
    scanRow nodeIndices st row =
      ⟨addName st.samples row.1, addName st.genes row.2.1, addName st.alterations row.2.2⟩ := by
  unfold scanRow
  cases hf : umFind nodeIndices row.2.1 with
  | none => rw [hf] at h; exact absurd h (by simp)
  | some v => rfl

/-- The first reading loop builds each catalog from its column of the rows that are not
skipped. -/
theorem scanRow_fold (G : FullGraph) (rows : List AlterationRow) :
    rows.foldl (scanRow G.nodeIndices) ⟨[], [], []⟩ =
      ⟨((keptRows G rows).map (fun row => row.1)).foldl addName [],
        ((keptRows G rows).map (fun row => row.2.1)).foldl addName [],
        ((keptRows G rows).map (fun row => row.2.2)).foldl addName []⟩ := by
  unfold keptRows
  rw [foldl_filter_skip (scanRow G.nodeIndices)
    (fun row => (umFind G.nodeIndices row.2.1).isSome) rows
    (fun s x h => scanRow_skip G.nodeIndices s x h)]
  have hkept : ∀ row ∈ rows.filter (fun row => (umFind G.nodeIndices row.2.1).isSome),
      (umFind G.nodeIndices row.2.1).isSome = true := fun row h => (List.mem_filter.mp h).2
  generalize rows.filter (fun row => (umFind G.nodeIndices row.2.1).isSome) = l at hkept
  suffices h : ∀ st : CatalogState, l.foldl (scanRow G.nodeIndices) st =
      ⟨(l.map (fun row => row.1)).foldl addName st.samples,
        (l.map (fun row => row.2.1)).foldl addName st.genes,
        (l.map (fun row => row.2.2)).foldl addName st.alterations⟩ from h ⟨[], [], []⟩
  induction l with
  | nil => intro st; rfl
  | cons row l ih =>
    intro st
    rw [List.foldl_cons, scanRow_kept _ _ _ (hkept row (List.mem_cons_self _ _)),
      ih (fun r hr => hkept r (List.mem_cons_of_mem _ hr))]
    rfl

/-- The catalog with the indices built from `observed` and the array `names` filled from
them is the catalog of `observed`. -/
theorem catalogOf_fold (observed : List String) :
    Entry.catalogOf
      ⟨fillNames (observed.foldl addName []) (observed.foldl addName []).length,
        observed.foldl addName []⟩ observed := by
  obtain ⟨hd, hkeys, hord⟩ := addName_fold observed
  have hnames := fillNames_perm _ _ hd (List.Perm.refl _)
  generalize observed.foldl addName [] = m at hd hkeys hord hnames
  have hidx : ∀ x i, umFind m x = some i → (m.map Prod.fst).indexOf x = i := by
    intro x i h
    have hkey := (denseCatalog_find_iff m hd x i).mp h
    have hlt : i < (m.map Prod.fst).length := by
      have := denseCatalog_lt m hd x i h
      simpa using this
    rw [List.getElem?_eq_getElem hlt] at hkey
    rw [← Option.some.inj hkey]
    exact List.indexOf_getElem hd.1 i hlt
  refine ⟨hd.1, hkeys, ?_, hd.2, fun x y i => denseCatalog_inj m hd x y i,
    fun i hi => denseCatalog_surj m hd i hi, ?_, ?_, ?_, ?_⟩
  · show m.length = observed.toFinset.card
    have h1 : (m.map Prod.fst).toFinset = observed.toFinset := by
      ext x
      simp only [List.mem_toFinset]
      exact hkeys x
    rw [← h1, List.toFinset_card_of_nodup hd.1, List.length_map]
  · intro x y i j hx hy
    show i < j ↔ _
    have hxo : x ∈ observed := (hkeys x).mp ((umFind_isSome_iff m x).mp ⟨i, hx⟩)
    have hyo : y ∈ observed := (hkeys y).mp ((umFind_isSome_iff m y).mp ⟨j, hy⟩)
    rw [← hord x y hxo hyo, hidx x i hx, hidx y j hy]
  · show (fillNames m m.length).length = m.length
    rw [hnames, List.length_map]
  · intro x i h
    show (fillNames m m.length)[i]? = some x
    rw [hnames]
    exact (denseCatalog_find_iff m hd x i).mp h
  · intro i x h
    have h' : (fillNames m m.length)[i]? = some x := h
    rw [hnames] at h'
    exact (denseCatalog_find_iff m hd x i).mpr h'

/-! ## `readAlterationProfiles`: the table -/

theorem umIndex_snd {κ : Type} [DecidableEq κ] (m : List (κ × Nat)) (k : κ) :
    (umIndex m k).2 = (umFind m k).getD 0 := by
  unfold umIndex
  cases umFind m k <;> rfl

/-- Lines 295-297 or `bitMask` into the mask of `sampleIndex` and leave the masks of the
other samples as they are. -/
theorem umFind_orInto (m : List (Nat × Nat)) (si mask i : Nat) :
    (umFind (orInto m si mask) i).getD 0 =
      if si = i then (umFind m si).getD 0 ||| mask else (umFind m i).getD 0 := by
  unfold orInto
  simp only [umIndex_snd]
  cases h : umFind m si with
  | none =>
    simp only [umFind_umAssign, if_true]
    by_cases hi : si = i
    · simp [hi]
    · simp only [hi, if_false]
  | some v =>
    simp only [umFind_umAssign, h]
    by_cases hi : si = i
    · simp [hi]
    · simp only [hi, if_false]

theorem tableEntry_modifyAt (t : List (List (Nat × Nat))) (gi si mask j i : Nat)
    (hgi : gi < t.length) :
    tableEntry (modifyAt t gi (fun m => orInto m si mask)) j i =
      if gi = j ∧ si = i then tableEntry t j i ||| mask else tableEntry t j i := by
  unfold tableEntry
  rw [getD_modifyAt _ _ _ _ _ hgi]
  by_cases hj : gi = j
  · subst hj
    rw [if_pos rfl, umFind_orInto]
    by_cases hi : si = i
    · subst hi; simp
    · simp [hi]
  · simp [hj]

theorem fillRow_skip (nodeIndices : List (String × Nat)) (V : Nat) (st : TableState)
    (row : AlterationRow) (h : (umFind nodeIndices row.2.1).isSome = false) :
    fillRow nodeIndices V st row = some st := by
  unfold fillRow
  cases hf : umFind nodeIndices row.2.1 with
  | none => rfl
  | some v => rw [hf] at h; exact absurd h (by simp)

theorem fillRow_kept (nodeIndices : List (String × Nat)) (V : Nat) (st : TableState)
    (row : AlterationRow) (gi si ai : Nat) (hg : umFind nodeIndices row.2.1 = some gi)
    (hs : umFind st.samples row.1 = some si) (ha : umFind st.alterations row.2.2 = some ai)
    (hgi : gi < V) (hai : ai < 32) :
    fillRow nodeIndices V st row =
      some ⟨st.samples, st.alterations,
        modifyAt st.geneAlterations gi (fun m => orInto m si (1 <<< ai))⟩ := by
  unfold fillRow
  have hcond : ¬ (V ≤ gi ∨ 32 ≤ ai) := by omega
  simp only [hg, umIndex_of_find _ _ _ hs, umIndex_of_find _ _ _ ha, hcond, if_false]

theorem foldl_or_filter_snoc {α : Type} (p : α → Bool) (b : α → Nat) (pre : List α) (x : α) :
    ((pre ++ [x]).filter p).foldl (fun mask r => mask ||| b r) 0 =
      if p x then (pre.filter p).foldl (fun mask r => mask ||| b r) 0 ||| b x
      else (pre.filter p).foldl (fun mask r => mask ||| b r) 0 := by
  rw [List.filter_append]
  cases hp : p x with
  | true => simp [hp, List.foldl_append]
  | false => simp [hp]

/-- The second reading loop, started from catalogs that hold the samples and alteration
types of all rows that are not skipped: it runs to its end, leaves the catalogs as they
are, and each table entry is the OR over the rows of its gene index and sample index. -/
theorem fillRow_fold (nodeIndices : List (String × Nat)) (V : Nat)
    (S A : List (String × Nat)) (rows : List AlterationRow)
    (hV : ∀ x i, umFind nodeIndices x = some i → i < V)
    (hS : ∀ row ∈ rows, (umFind nodeIndices row.2.1).isSome = true →
      ∃ si, umFind S row.1 = some si)
    (hA : ∀ row ∈ rows, (umFind nodeIndices row.2.1).isSome = true →
      ∃ ai, umFind A row.2.2 = some ai ∧ ai < 32) :
    ∃ tab, rows.foldlM (fillRow nodeIndices V) ⟨S, A, List.replicate V []⟩ = some tab ∧
      tab.samples = S ∧ tab.alterations = A ∧ tab.geneAlterations.length = V ∧
      ∀ gi si, tableEntry tab.geneAlterations gi si =
        (rows.filter (fun row => decide (umFind nodeIndices row.2.1 = some gi ∧
            umFind S row.1 = some si))).foldl
          (fun mask row => mask ||| 1 <<< ((umFind A row.2.2).getD 0)) 0 := by
  have := foldlM_inv (fillRow nodeIndices V)
    (fun pre tab => tab.samples = S ∧ tab.alterations = A ∧ tab.geneAlterations.length = V ∧
      ∀ gi si, tableEntry tab.geneAlterations gi si =
        (pre.filter (fun row => decide (umFind nodeIndices row.2.1 = some gi ∧
            umFind S row.1 = some si))).foldl
          (fun mask row => mask ||| 1 <<< ((umFind A row.2.2).getD 0)) 0)
    rows [] ⟨S, A, List.replicate V []⟩ ⟨rfl, rfl, by simp, ?_⟩ ?_
  · simpa using this
  · intro gi si
    simp only [List.filter_nil, List.foldl_nil, tableEntry]
    by_cases hgi : gi < V
    · simp [List.getD_eq_getElem?_getD, List.getElem?_replicate, hgi, umFind]
    · simp [List.getD_eq_getElem?_getD, List.getElem?_replicate, hgi, umFind]
  · rintro pre row tab hrow ⟨hs, ha, hlen, hent⟩
    cases hg : umFind nodeIndices row.2.1 with
    | none =>
      refine ⟨tab, fillRow_skip _ _ _ _ (by rw [hg]; rfl), hs, ha, hlen, ?_⟩
      intro gi si
      rw [hent gi si, foldl_or_filter_snoc]
      simp [hg]
    | some gi0 =>
      have hkept : (umFind nodeIndices row.2.1).isSome = true := by rw [hg]; rfl
      obtain ⟨si0, hsi0⟩ := hS row hrow hkept
      obtain ⟨ai0, hai0, hlt⟩ := hA row hrow hkept
      have hgi0 := hV _ _ hg
      refine ⟨_, fillRow_kept nodeIndices V tab row gi0 si0 ai0 hg (by rw [hs]; exact hsi0)
        (by rw [ha]; exact hai0) hgi0 hlt, hs, ha, ?_, ?_⟩
      · show (modifyAt _ _ _).length = V
        rw [length_modifyAt, hlen]
      · intro gi si
        show tableEntry (modifyAt _ _ _) gi si = _
        rw [tableEntry_modifyAt _ _ _ _ _ _ (by omega), hent gi si, foldl_or_filter_snoc]
        simp only [hg, hsi0, hai0, Option.some.injEq, Option.getD_some,
          Bool.decide_and, Bool.and_eq_true, decide_eq_true_eq]

/-- Rows whose gene is not a node of the graph leave no trace: the function gives the same
result on the input with those rows removed. -/
theorem readAlterationProfiles_kept (G : FullGraph) (rows : List AlterationRow) :
    readAlterationProfiles G (keptRows G rows) = readAlterationProfiles G rows := by
  unfold readAlterationProfiles keptRows
  rw [← foldl_filter_skip (scanRow G.nodeIndices)
    (fun row => (umFind G.nodeIndices row.2.1).isSome) rows
    (fun s x h => scanRow_skip G.nodeIndices s x h)]
  simp only
  rw [← foldlM_filter_skip (fillRow G.nodeIndices G.V)
    (fun row => (umFind G.nodeIndices row.2.1).isSome) rows
    (fun s x h => fillRow_skip G.nodeIndices G.V s x h)]

theorem testBit_foldl_or {α : Type} (b : α → Nat) (l : List α) (a : Nat) :
    ∀ init : Nat, (l.foldl (fun mask r => mask ||| b r) init).testBit a = true ↔
      init.testBit a = true ∨ ∃ r ∈ l, (b r).testBit a = true := by
  induction l with
  | nil => intro init; simp
  | cons x l ih =>
    intro init
    rw [List.foldl_cons, ih, Nat.testBit_or, Bool.or_eq_true]
    simp only [List.mem_cons, exists_eq_or_imp]
    tauto

theorem testBit_one_shiftLeft (k a : Nat) : (1 <<< k).testBit a = true ↔ k = a := by
  rw [Nat.one_shiftLeft, Nat.testBit_two_pow]
  simp

/-- What `readAlterationProfiles` computes on a graph with indexed nodes when the rows that
are not skipped carry at most 32 alteration types. -/
theorem readAlterationProfiles_spec (G : FullGraph) (rows : List AlterationRow)
    (hG : G.nodesIndexed)
    (h32 : ((keptRows G rows).map (fun row => row.2.2)).toFinset.card ≤ 32) :
    ∃ D, readAlterationProfiles G rows = some D ∧
      D.samples.catalogOf ((keptRows G rows).map (fun row => row.1)) ∧
      D.genes.catalogOf ((keptRows G rows).map (fun row => row.2.1)) ∧
      D.alterations.catalogOf ((keptRows G rows).map (fun row => row.2.2)) ∧
      D.geneAlterations.length = G.V ∧
      ∀ gi si, tableEntry D.geneAlterations gi si =
        (rows.filter (fun row => decide (umFind G.nodeIndices row.2.1 = some gi ∧
            umFind D.samples.indices row.1 = some si))).foldl
          (fun mask row => mask ||| 1 <<< ((umFind D.alterations.indices row.2.2).getD 0))
          0 := by
  have hcS := catalogOf_fold ((keptRows G rows).map (fun row => row.1))
  have hcG := catalogOf_fold ((keptRows G rows).map (fun row => row.2.1))
  have hcA := catalogOf_fold ((keptRows G rows).map (fun row => row.2.2))
  have hdA := (addName_fold ((keptRows G rows).map (fun row => row.2.2))).1
  have hV : ∀ x i, umFind G.nodeIndices x = some i → i < G.V := by
    intro x i h
    rw [hG.2]
    exact denseCatalog_lt _ hG.1 x i h
  have hkept : ∀ row ∈ rows, (umFind G.nodeIndices row.2.1).isSome = true →
      row ∈ keptRows G rows := fun row hr hk => List.mem_filter.mpr ⟨hr, hk⟩
  obtain ⟨tab, htab, hs, ha, hlen, hent⟩ := fillRow_fold G.nodeIndices G.V
    (((keptRows G rows).map (fun row => row.1)).foldl addName [])
    (((keptRows G rows).map (fun row => row.2.2)).foldl addName []) rows hV
    (by
      intro row hr hk
      apply (umFind_isSome_iff _ _).mpr
      apply (hcS.mem_keys row.1).mpr
      exact List.mem_map.mpr ⟨row, hkept row hr hk, rfl⟩)
    (by
      intro row hr hk
      obtain ⟨ai, hai⟩ := (umFind_isSome_iff _ _).mpr ((hcA.mem_keys row.2.2).mpr
        (List.mem_map.mpr ⟨row, hkept row hr hk, rfl⟩))
      refine ⟨ai, hai, ?_⟩
      have h1 := denseCatalog_lt _ hdA _ _ hai
      have h2 := hcA.size_eq
      simp only at h2
      omega)
  obtain ⟨tS, tA, tT⟩ := tab
  simp only at hs ha hlen hent
  subst hs ha
  refine ⟨⟨⟨fillNames _ _, _⟩, ⟨fillNames _ _, _⟩, ⟨fillNames _ _, _⟩, tT⟩, ?_, hcS, hcG, hcA,
    hlen, hent⟩
  unfold readAlterationProfiles
  simp only [scanRow_fold]
  rw [htab]
  rfl

/-- C24. For every graph with indexed nodes (as `readUndirectedNetwork` builds it) and every
sequence of rows in which the rows that are not skipped carry at most 32 alteration types:
`readAlterationProfiles` returns, and for every sample `s` of the catalog and every gene `g`
of the graph the entry `geneAlterations[g][s]` is the OR of `1 << id(t)` over the input rows
`(s, g, t)`, so its bit `a` is set exactly when some row `(s, g, t)` has `id(t) = a`; the
other entries of the table are `0`; and the result is the same as on the input without the
rows whose gene is absent from the graph. -/
theorem C24_table_is_or_of_rows (G : FullGraph) (rows : List AlterationRow)
    (hG : G.nodesIndexed)
    (h32 : ((keptRows G rows).map (fun row => row.2.2)).toFinset.card ≤ 32) :
    ∃ D, readAlterationProfiles G rows = some D ∧
      (∀ sample gene si gi, umFind D.samples.indices sample = some si →
        umFind G.nodeIndices gene = some gi →
        tableEntry D.geneAlterations gi si = orOfRows D.alterations.indices rows sample gene ∧
        ∀ a, (tableEntry D.geneAlterations gi si).testBit a = true ↔
          ∃ row ∈ rows, row.1 = sample ∧ row.2.1 = gene ∧
            umFind D.alterations.indices row.2.2 = some a) ∧
      (∀ gi si, tableEntry D.geneAlterations gi si ≠ 0 →
        (∃ gene, umFind G.nodeIndices gene = some gi) ∧
        ∃ sample, umFind D.samples.indices sample = some si) ∧
      readAlterationProfiles G (keptRows G rows) = some D := by
  obtain ⟨D, hD, hcS, _, hcA, _, hent⟩ := readAlterationProfiles_spec G rows hG h32
  refine ⟨D, hD, ?_, ?_, by rw [readAlterationProfiles_kept, hD]⟩
  · intro sample gene si gi hs hg
    have hfilter : rows.filter (fun row => decide (umFind G.nodeIndices row.2.1 = some gi ∧
        umFind D.samples.indices row.1 = some si)) =
        rows.filter (fun row => decide (row.1 = sample ∧ row.2.1 = gene)) := by
      apply List.filter_congr
      intro row _
      simp only [decide_eq_decide]
      constructor
      · rintro ⟨h1, h2⟩
        exact ⟨hcS.injective _ _ _ h2 hs, denseCatalog_inj _ hG.1 _ _ _ h1 hg⟩
      · rintro ⟨h1, h2⟩
        rw [h1, h2]
        exact ⟨hg, hs⟩
    have heq : tableEntry D.geneAlterations gi si =
        orOfRows D.alterations.indices rows sample gene := by
      rw [hent gi si, hfilter]
      rfl
    refine ⟨heq, ?_⟩
    intro a
    rw [heq]
    unfold orOfRows
    rw [testBit_foldl_or]
    simp only [Nat.zero_testBit, Bool.false_eq_true, false_or, List.mem_filter,
      decide_eq_true_eq, testBit_one_shiftLeft]
    constructor
    · rintro ⟨row, ⟨hr, h1, h2⟩, hid⟩
      refine ⟨row, hr, h1, h2, ?_⟩
      have hk : row ∈ keptRows G rows :=
        List.mem_filter.mpr ⟨hr, by rw [h2, hg]; rfl⟩
      obtain ⟨ai, hai⟩ := (umFind_isSome_iff _ _).mpr ((hcA.mem_keys row.2.2).mpr
        (List.mem_map.mpr ⟨row, hk, rfl⟩))
      rw [hai] at hid ⊢
      simpa using hid
    · rintro ⟨row, hr, h1, h2, hid⟩
      exact ⟨row, ⟨hr, h1, h2⟩, by rw [hid]; rfl⟩
  · intro gi si hne
    rw [hent gi si] at hne
    cases hl : rows.filter (fun row => decide (umFind G.nodeIndices row.2.1 = some gi ∧
        umFind D.samples.indices row.1 = some si)) with
    | nil => rw [hl] at hne; exact absurd rfl hne
    | cons row l =>
      have hmem : row ∈ rows.filter (fun row => decide (umFind G.nodeIndices row.2.1 = some gi ∧
          umFind D.samples.indices row.1 = some si)) := by rw [hl]; exact List.mem_cons_self _ _
      have := (List.mem_filter.mp hmem).2
      simp only [decide_eq_true_eq] at this
      exact ⟨⟨row.2.1, this.1⟩, ⟨row.1, this.2⟩⟩

/-- C24 on the triangle network and `triangleRows`: the row on gene `D` is skipped, and the
mask of gene `C` in `sample2` is `1 << 0 | 1 << 1`. -/
theorem C24_witness :
    ∃ D, readAlterationProfiles triangleNetwork triangleRows = some D ∧
      (∀ sample gene si gi, umFind D.samples.indices sample = some si →
        umFind triangleNetwork.nodeIndices gene = some gi →
        tableEntry D.geneAlterations gi si =
          orOfRows D.alterations.indices triangleRows sample gene ∧
        ∀ a, (tableEntry D.geneAlterations gi si).testBit a = true ↔
          ∃ row ∈ triangleRows, row.1 = sample ∧ row.2.1 = gene ∧
            umFind D.alterations.indices row.2.2 = some a) ∧
      (∀ gi si, tableEntry D.geneAlterations gi si ≠ 0 →
        (∃ gene, umFind triangleNetwork.nodeIndices gene = some gi) ∧
        ∃ sample, umFind D.samples.indices sample = some si) ∧
      readAlterationProfiles triangleNetwork (keptRows triangleNetwork triangleRows) = some D :=
  C24_table_is_or_of_rows triangleNetwork triangleRows (by decide) (by decide)

/-- The table read for `C24_witness`. -/
theorem triangleRows_table :
    (readAlterationProfiles triangleNetwork triangleRows).map
        (fun D => (D.alterations.indices, D.geneAlterations)) =
      some ([("MUT", 0), ("AMP", 1)],
        [[(0, 1), (2, 1)], [(0, 1), (1, 1)], [(1, 3), (2, 1)]]) := by
  rfl

/-- C25. For every graph with indexed nodes and every sequence of rows in which the rows
that are not skipped carry at most 32 alteration types, `readAlterationProfiles` returns
catalogs `samples`, `genes`, `alterations` such that, for each of them and its column of the
rows that are not skipped: the keys of `indices` are the observed names, each once; the
indices are `0, ..., n-1` for the `n` distinct names, in order of first appearance;
`indices` is injective and onto `0, ..., n-1`; and `names` has `n` entries with
`names[indices[x]] = x` and `indices[names[i]] = i`. -/
theorem C25_catalogs_first_appearance (G : FullGraph) (rows : List AlterationRow)
    (hG : G.nodesIndexed)
    (h32 : ((keptRows G rows).map (fun row => row.2.2)).toFinset.card ≤ 32) :
    ∃ D, readAlterationProfiles G rows = some D ∧
      D.samples.catalogOf ((keptRows G rows).map (fun row => row.1)) ∧
      D.genes.catalogOf ((keptRows G rows).map (fun row => row.2.1)) ∧
      D.alterations.catalogOf ((keptRows G rows).map (fun row => row.2.2)) := by
  obtain ⟨D, hD, hcS, hcG, hcA, _, _⟩ := readAlterationProfiles_spec G rows hG h32
  exact ⟨D, hD, hcS, hcG, hcA⟩

/-- C25 on the triangle network and `triangleRows`. -/
theorem C25_witness :
    ∃ D, readAlterationProfiles triangleNetwork triangleRows = some D ∧
      D.samples.catalogOf ((keptRows triangleNetwork triangleRows).map (fun row => row.1)) ∧
      D.genes.catalogOf ((keptRows triangleNetwork triangleRows).map (fun row => row.2.1)) ∧
      D.alterations.catalogOf
        ((keptRows triangleNetwork triangleRows).map (fun row => row.2.2)) :=
  C25_catalogs_first_appearance triangleNetwork triangleRows (by decide) (by decide)

/-- The catalogs read for `C25_witness`. -/
theorem triangleRows_catalogs :
    (readAlterationProfiles triangleNetwork triangleRows).map
        (fun D => (D.samples, D.genes, D.alterations)) =
      some (⟨["sample1", "sample2", "sample3"],
          [("sample1", 0), ("sample2", 1), ("sample3", 2)]⟩,
        ⟨["A", "B", "C"], [("A", 0), ("B", 1), ("C", 2)]⟩,
        ⟨["MUT", "AMP"], [("MUT", 0), ("AMP", 1)]⟩) := by
  rfl

/-! ## `readUndirectedNetwork`: the reading loop -/

theorem strcmp_eq_zero_iff (a b : List Char) : strcmp a b = 0 ↔ a = b := by
  induction a generalizing b with
  | nil => cases b <;> simp [strcmp]
  | cons c a ih =>
    cases b with
    | nil => simp [strcmp]
    | cons d b =>
      unfold strcmp
      by_cases h1 : c.toNat < d.toNat
      · have hne : c ≠ d := by rintro rfl; omega
        simp [h1, hne]
      · by_cases h2 : d.toNat < c.toNat
        · have hne : c ≠ d := by rintro rfl; omega
          simp [h1, h2, hne]
        · have heq : c = d := by
            have : c.toNat = d.toNat := by omega
            rw [← Char.ofNat_toNat c, ← Char.ofNat_toNat d, this]
          simp [h1, h2, heq, ih]

theorem strcmp_antisymm (a b : List Char) : strcmp b a = - strcmp a b := by
  induction a generalizing b with
  | nil => cases b <;> simp [strcmp]
  | cons c a ih =>
    cases b with
    | nil => simp [strcmp]
    | cons d b =>
      unfold strcmp
      by_cases h1 : c.toNat < d.toNat
      · have h2 : ¬ d.toNat < c.toNat := by omega
        simp [h1, h2]
      · by_cases h2 : d.toNat < c.toNat
        · simp [h1, h2]
        · simp [h1, h2, ih]

/-- The pair kept for two names: they differ, the pair holds them with the smaller one
first, and it is the same for both orders of the names. -/
theorem canonicalEdge_eq_some (u v : String) (e : String × String) :
    canonicalEdge u v = some e ↔
      strcmp e.1.data e.2.data < 0 ∧ (e = (u, v) ∨ e = (v, u)) := by
  unfold canonicalEdge
  have hanti := strcmp_antisymm u.data v.data
  by_cases h1 : strcmp u.data v.data > 0
  · rw [if_pos h1, Option.some.injEq]
    constructor
    · rintro rfl
      exact ⟨by simp only; omega, Or.inr rfl⟩
    · rintro ⟨hlt, h | h⟩
      · rw [h] at hlt; simp only at hlt; omega
      · exact h.symm
  · by_cases h2 : strcmp u.data v.data = 0
    · rw [if_neg h1, if_pos h2]
      constructor
      · intro h; exact Option.noConfusion h
      · rintro ⟨hlt, h | h⟩
        · rw [h] at hlt; simp only at hlt; omega
        · rw [h] at hlt; simp only at hlt; omega
    · rw [if_neg h1, if_neg h2, Option.some.injEq]
      constructor
      · rintro rfl
        exact ⟨by simp only; omega, Or.inl rfl⟩
      · rintro ⟨hlt, h | h⟩
        · exact h.symm
        · rw [h] at hlt; simp only at hlt; omega

theorem strcmp_lt_of_ne (x y : String) (h : x ≠ y) :
    strcmp x.data y.data < 0 ∨ strcmp y.data x.data < 0 := by
  have hanti := strcmp_antisymm x.data y.data
  have hne : strcmp x.data y.data ≠ 0 := by
    intro h0
    exact h (String.ext ((strcmp_eq_zero_iff _ _).mp h0))
  omega

theorem strcmp_lt_ne (x y : String) (h : strcmp x.data y.data < 0) : x ≠ y := by
  rintro rfl
  have := (strcmp_eq_zero_iff x.data x.data).mpr rfl
  omega

theorem addNode_eq (st : ScanState) (x : String) :
    addNode st x = if x ∈ st.nodeIndices.map Prod.fst then st
      else { st with nodeIndices := st.nodeIndices ++ [(x, st.V)], V := st.V + 1 } := by
  unfold addNode
  cases h : umFind st.nodeIndices x with
  | none =>
    have hx := (umFind_eq_none_iff st.nodeIndices x).mp h
    simp only [hx, if_false]
    rw [umAssign_of_not_mem _ _ _ hx]
  | some v =>
    have hx : x ∈ st.nodeIndices.map Prod.fst := (umFind_isSome_iff _ x).mp ⟨v, h⟩
    simp only [hx, if_true]

/-- What `addNode` keeps: the nodes are indexed, and the names are the old ones and `x`. -/
theorem addNode_spec (st : ScanState) (x : String)
    (hd : denseCatalog st.nodeIndices) (hV : st.V = st.nodeIndices.length) :
    denseCatalog (addNode st x).nodeIndices ∧
    (addNode st x).V = (addNode st x).nodeIndices.length ∧
    (addNode st x).uniqueEdges = st.uniqueEdges ∧
    ∀ y, y ∈ (addNode st x).nodeIndices.map Prod.fst ↔
      y ∈ st.nodeIndices.map Prod.fst ∨ y = x := by
  rw [addNode_eq]
  by_cases hx : x ∈ st.nodeIndices.map Prod.fst
  · rw [if_pos hx]
    refine ⟨hd, hV, rfl, ?_⟩
    intro y
    constructor
    · exact Or.inl
    · rintro (h | rfl)
      · exact h
      · exact hx
  · rw [if_neg hx]
    refine ⟨?_, ?_, rfl, ?_⟩
    · show denseCatalog (st.nodeIndices ++ [(x, st.V)])
      rw [hV]; exact denseCatalog_snoc _ _ hd hx
    · show st.V + 1 = (st.nodeIndices ++ [(x, st.V)]).length
      simp [hV]
    · intro y
      show y ∈ (st.nodeIndices ++ [(x, st.V)]).map Prod.fst ↔ _
      simp

/-- The state of the reading loop after the pairs `pairs`. -/
theorem scanEdge_fold (pairs : List (String × String)) :
    (pairs.foldl scanEdge ⟨[], [], 0⟩).uniqueEdges.Nodup ∧
    (∀ e, e ∈ (pairs.foldl scanEdge ⟨[], [], 0⟩).uniqueEdges ↔
      ∃ uv ∈ pairs, canonicalEdge uv.1 uv.2 = some e) ∧
    denseCatalog (pairs.foldl scanEdge ⟨[], [], 0⟩).nodeIndices ∧
    (pairs.foldl scanEdge ⟨[], [], 0⟩).V =
      (pairs.foldl scanEdge ⟨[], [], 0⟩).nodeIndices.length ∧
    (∀ x, x ∈ (pairs.foldl scanEdge ⟨[], [], 0⟩).nodeIndices.map Prod.fst ↔
      ∃ e ∈ (pairs.foldl scanEdge ⟨[], [], 0⟩).uniqueEdges, x = e.1 ∨ x = e.2) := by
  have := foldl_inv scanEdge
    (fun pre st => st.uniqueEdges.Nodup ∧
      (∀ e, e ∈ st.uniqueEdges ↔ ∃ uv ∈ pre, canonicalEdge uv.1 uv.2 = some e) ∧
      denseCatalog st.nodeIndices ∧ st.V = st.nodeIndices.length ∧
      (∀ x, x ∈ st.nodeIndices.map Prod.fst ↔ ∃ e ∈ st.uniqueEdges, x = e.1 ∨ x = e.2))
    pairs [] ⟨[], [], 0⟩ ⟨by simp, by simp, denseCatalog_nil, rfl, by simp⟩ ?_
  · simpa using this
  · rintro pre uv st _ ⟨hnd, hmem, hd, hV, hkeys⟩
    unfold scanEdge
    cases hc : canonicalEdge uv.1 uv.2 with
    | none =>
      refine ⟨hnd, ?_, hd, hV, hkeys⟩
      intro e
      rw [hmem e]
      simp only [List.mem_append, List.mem_singleton]
      constructor
      · rintro ⟨w, hw, h⟩; exact ⟨w, Or.inl hw, h⟩
      · rintro ⟨w, hw | rfl, h⟩
        · exact ⟨w, hw, h⟩
        · rw [hc] at h; exact Option.noConfusion h
    | some e0 =>
      simp only
      have hmem' : ∀ U : List (String × String), (∀ e, e ∈ U ↔ e ∈ st.uniqueEdges ∨ e = e0) →
          ∀ e, e ∈ U ↔ ∃ w ∈ pre ++ [uv], canonicalEdge w.1 w.2 = some e := by
        intro U hU e
        rw [hU e, hmem e]
        simp only [List.mem_append, List.mem_singleton]
        constructor
        · rintro (⟨w, hw, h⟩ | rfl)
          · exact ⟨w, Or.inl hw, h⟩
          · exact ⟨uv, Or.inr rfl, hc⟩
        · rintro ⟨w, hw | rfl, h⟩
          · exact Or.inl ⟨w, hw, h⟩
          · rw [hc] at h; exact Or.inr (Option.some.inj h).symm
      by_cases he : e0 ∈ st.uniqueEdges
      · simp only [he, if_true]
        refine ⟨hnd, hmem' _ ?_, hd, hV, hkeys⟩
        intro e
        constructor
        · exact Or.inl
        · rintro (h | rfl)
          · exact h
          · exact he
      · simp only [he, if_false]
        obtain ⟨hd1, hV1, hU1, hk1⟩ := addNode_spec
          { st with uniqueEdges := st.uniqueEdges ++ [e0] } e0.1 hd hV
        obtain ⟨hd2, hV2, hU2, hk2⟩ := addNode_spec _ e0.2 hd1 hV1
        have hU : (addNode (addNode { st with uniqueEdges := st.uniqueEdges ++ [e0] } e0.1)
            e0.2).uniqueEdges = st.uniqueEdges ++ [e0] := by rw [hU2, hU1]
        refine ⟨?_, hmem' _ ?_, hd2, hV2, ?_⟩
        · rw [hU]
          exact List.Nodup.append hnd (List.nodup_singleton _) (by simpa using he)
        · intro e; rw [hU]; simp
        · intro x
          rw [hk2 x, hk1 x, hU]
          simp only [hkeys x, List.mem_append, List.mem_singleton]
          constructor
          · rintro ((⟨e, he', h⟩ | rfl) | rfl)
            · exact ⟨e, Or.inl he', h⟩
            · exact ⟨e0, Or.inr rfl, Or.inl rfl⟩
            · exact ⟨e0, Or.inr rfl, Or.inr rfl⟩
          · rintro ⟨e, he' | rfl, h⟩
            · exact Or.inl (Or.inl ⟨e, he', h⟩)
            · rcases h with rfl | rfl
              · exact Or.inl (Or.inr rfl)
              · exact Or.inr rfl

/-! ## `readUndirectedNetwork`: the neighbour lists -/

/-- Invariant reasoning for a loop over `l` in which the step may use the position of the
current element in `l`. -/
theorem foldl_inv_split {σ α : Type} (f : σ → α → σ) (Inv : List α → σ → Prop) (l : List α)
    (s : σ) (h0 : Inv [] s)
    (hstep : ∀ pre x post s', l = pre ++ x :: post → Inv pre s' → Inv (pre ++ [x]) (f s' x)) :
    Inv l (l.foldl f s) := by
  suffices h : ∀ rest pre s', l = pre ++ rest → Inv pre s' → Inv l (rest.foldl f s') from
    h l [] s rfl h0
  intro rest
  induction rest with
  | nil =>
    intro pre s' hl h
    rw [List.append_nil] at hl
    rw [hl]
    exact h
  | cons x rest ih =>
    intro pre s' hl h
    rw [List.foldl_cons]
    exact ih (pre ++ [x]) (f s' x) (by rw [hl]; simp) (hstep pre x rest s' hl h)

theorem neighboursIn_snoc (ps : List (Nat × Nat)) (p : Nat × Nat) (a : Nat) :
    neighboursIn (ps ++ [p]) a =
      neighboursIn ps a ++ (match partner a p with | some b => [b] | none => []) := by
  unfold neighboursIn
  rw [List.filterMap_append]
  cases h : partner a p <;> simp [List.filterMap_cons, h]

theorem neighboursIn_append (ps qs : List (Nat × Nat)) (a : Nat) :
    neighboursIn (ps ++ qs) a = neighboursIn ps a ++ neighboursIn qs a := by
  unfold neighboursIn
  rw [List.filterMap_append]

theorem mem_neighboursIn (ps : List (Nat × Nat)) (a b : Nat) :
    b ∈ neighboursIn ps a ↔ (a, b) ∈ ps ∨ (b, a) ∈ ps := by
  unfold neighboursIn
  rw [List.mem_filterMap]
  constructor
  · rintro ⟨p, hp, hpart⟩
    unfold partner at hpart
    by_cases h1 : p.1 = a
    · rw [if_pos h1] at hpart
      left
      have : p = (a, b) := by rw [← h1, ← Option.some.inj hpart]
      rw [← this]; exact hp
    · rw [if_neg h1] at hpart
      by_cases h2 : p.2 = a
      · rw [if_pos h2] at hpart
        right
        have : p = (b, a) := by rw [← h2, ← Option.some.inj hpart]
        rw [← this]; exact hp
      · rw [if_neg h2] at hpart
        exact Option.noConfusion hpart
  · rintro (h | h)
    · exact ⟨(a, b), h, by simp [partner]⟩
    · refine ⟨(b, a), h, ?_⟩
      unfold partner
      by_cases hba : b = a
      · simp [hba]
      · simp [hba]

/-- No edge occurs twice in the list, in either direction, and no edge is a loop. -/
theorem neighboursIn_nodup (ps : List (Nat × Nat)) (a : Nat)
    (hloop : ∀ p ∈ ps, p.1 ≠ p.2)
    (hpw : ps.Pairwise (fun p q => p ≠ q ∧ p ≠ (q.2, q.1))) :
    (neighboursIn ps a).Nodup := by
  induction ps with
  | nil => simp [neighboursIn]
  | cons p ps ih =>
    rw [List.pairwise_cons] at hpw
    have ih' := ih (fun q hq => hloop q (List.mem_cons_of_mem _ hq)) hpw.2
    have hcons : neighboursIn (p :: ps) a =
        (match partner a p with | some b => [b] | none => []) ++ neighboursIn ps a := by
      unfold neighboursIn
      cases h : partner a p <;> simp [List.filterMap_cons, h]
    rw [hcons]
    cases hpart : partner a p with
    | none => simpa using ih'
    | some b =>
      simp only [List.singleton_append, List.nodup_cons]
      refine ⟨?_, ih'⟩
      intro hb
      have hp : p = (a, b) ∨ p = (b, a) := by
        unfold partner at hpart
        by_cases h1 : p.1 = a
        · rw [if_pos h1] at hpart
          left; rw [← h1, ← Option.some.inj hpart]
        · rw [if_neg h1] at hpart
          by_cases h2 : p.2 = a
          · rw [if_pos h2] at hpart
            right; rw [← h2, ← Option.some.inj hpart]
          · rw [if_neg h2] at hpart
            exact Option.noConfusion hpart
      rcases (mem_neighboursIn ps a b).mp hb with hq | hq
      · have := hpw.1 _ hq
        rcases hp with rfl | rfl
        · exact this.1 rfl
        · exact this.2 rfl
      · have := hpw.1 _ hq
        rcases hp with rfl | rfl
        · exact this.2 rfl
        · exact this.1 rfl

theorem getElem?_modifyAt_two {α : Type} (t : List α) (i1 i2 a : Nat) (f1 f2 : α → α)
    (hne : i1 ≠ i2) :
    (modifyAt (modifyAt t i1 f1) i2 f2)[a]? =
      if a = i1 then t[a]?.map f1 else if a = i2 then t[a]?.map f2 else t[a]? := by
  rw [getElem?_modifyAt, getElem?_modifyAt]
  by_cases h1 : a = i1
  · subst h1
    have : ¬ (i2 = a) := fun h => hne h.symm
    simp [this]
  · by_cases h2 : a = i2
    · subst h2
      have : ¬ (i1 = a) := fun h => h1 h.symm
      simp [this, h1]
    · have h1' : ¬ (i1 = a) := fun h => h1 h.symm
      have h2' : ¬ (i2 = a) := fun h => h2 h.symm
      simp [h1, h2, h1', h2']

theorem partner_fst (i1 i2 : Nat) : partner i1 (i1, i2) = some i2 := by
  simp [partner]

theorem partner_snd (i1 i2 : Nat) (hne : i1 ≠ i2) : partner i2 (i1, i2) = some i1 := by
  simp [partner, hne]

theorem partner_other (i1 i2 a : Nat) (h1 : a ≠ i1) (h2 : a ≠ i2) :
    partner a (i1, i2) = none := by
  have h1' : ¬ (i1 = a) := fun h => h1 h.symm
  have h2' : ¬ (i2 = a) := fun h => h2 h.symm
  simp [partner, h1', h2']

theorem endpoints_eq (ni : List (String × Nat)) (e : String × String) (i1 i2 : Nat)
    (h1 : umFind ni e.1 = some i1) (h2 : umFind ni e.2 = some i2) :
    endpoints ni e = (i1, i2) := by
  simp [endpoints, h1, h2]

theorem countEdge_of_find (st : DegreeState) (e : String × String) (i1 i2 : Nat)
    (h1 : umFind st.nodeIndices e.1 = some i1) (h2 : umFind st.nodeIndices e.2 = some i2) :
    (countEdge st e).nodeIndices = st.nodeIndices ∧
    (countEdge st e).NSize = modifyAt (modifyAt st.NSize i1 (· + 1)) i2 (· + 1) ∧
    (countEdge st e).nodeNames.length = st.nodeNames.length := by
  unfold countEdge
  simp [umIndex_of_find _ _ _ h1, umIndex_of_find _ _ _ h2, length_modifyAt]

/-- The loop at lines 210-219 counts, for every node, the edges at that node. -/
theorem countEdge_fold (ni : List (String × Nat)) (V : Nat) (l : List (String × String))
    (hl : ∀ e ∈ l, ∃ i1 i2, umFind ni e.1 = some i1 ∧ umFind ni e.2 = some i2 ∧ i1 ≠ i2 ∧
      i1 < V ∧ i2 < V) :
    (l.foldl countEdge ⟨ni, List.replicate V "", List.replicate V 0⟩).nodeIndices = ni ∧
    (l.foldl countEdge ⟨ni, List.replicate V "", List.replicate V 0⟩).NSize.length = V ∧
    (l.foldl countEdge ⟨ni, List.replicate V "", List.replicate V 0⟩).nodeNames.length = V ∧
    ∀ a < V, (l.foldl countEdge ⟨ni, List.replicate V "", List.replicate V 0⟩).NSize[a]? =
      some (neighboursIn (l.map (endpoints ni)) a).length := by
  have := foldl_inv countEdge
    (fun pre st => st.nodeIndices = ni ∧ st.NSize.length = V ∧ st.nodeNames.length = V ∧
      ∀ a < V, st.NSize[a]? = some (neighboursIn (pre.map (endpoints ni)) a).length)
    l [] ⟨ni, List.replicate V "", List.replicate V 0⟩
    ⟨rfl, by simp, by simp, by
      intro a ha
      simp [neighboursIn, List.getElem?_replicate, ha]⟩ ?_
  · simpa using this
  · rintro pre e st he ⟨hni, hlen, hnm, hN⟩
    obtain ⟨i1, i2, h1, h2, hne, hi1, hi2⟩ := hl e he
    obtain ⟨c1, c2, c3⟩ := countEdge_of_find st e i1 i2 (by rw [hni]; exact h1)
      (by rw [hni]; exact h2)
    refine ⟨by rw [c1, hni], by rw [c2, length_modifyAt, length_modifyAt, hlen],
      by rw [c3, hnm], ?_⟩
    intro a ha
    rw [c2, getElem?_modifyAt_two _ _ _ _ _ _ hne, hN a ha, List.map_append,
      List.map_singleton, neighboursIn_snoc, endpoints_eq ni e i1 i2 h1 h2]
    by_cases ha1 : a = i1
    · subst ha1
      simp [partner_fst]
    · by_cases ha2 : a = i2
      · subst ha2
        simp [partner_snd _ _ hne, ha1]
      · simp [partner_other _ _ _ ha1 ha2, ha1, ha2]

theorem set_append_replicate (xs : List Nat) (n y : Nat) :
    (xs ++ List.replicate (n + 1) 0).set xs.length y = (xs ++ [y]) ++ List.replicate n 0 := by
  induction xs with
  | nil => simp [List.replicate_succ]
  | cons x xs ih => simp [ih]

theorem zip_range_snoc (xs : List Nat) (y : Nat) :
    (xs ++ [y]).zip (List.range (xs.length + 1)) =
      xs.zip (List.range xs.length) ++ [(y, xs.length)] := by
  rw [List.range_succ, List.zip_append (by simp)]
  rfl

theorem map_fst_zip_range (xs : List Nat) :
    (xs.zip (List.range xs.length)).map Prod.fst = xs := by
  rw [List.map_fst_zip]
  simp

theorem fillEdge_of_find (st : FillState) (e : String × String) (i1 i2 : Nat)
    (h1 : umFind st.nodeIndices e.1 = some i1) (h2 : umFind st.nodeIndices e.2 = some i2) :
    (fillEdge st e).nodeIndices = st.nodeIndices ∧
    (fillEdge st e).N = modifyAt (modifyAt st.N i1
      (fun row => row.set (st.tempNSize.getD i1 0) i2)) i2
      (fun row => row.set (st.tempNSize.getD i2 0) i1) ∧
    (fillEdge st e).tempNSize = modifyAt (modifyAt st.tempNSize i1 (· + 1)) i2 (· + 1) ∧
    (fillEdge st e).idxInNeighbourList = modifyAt (modifyAt st.idxInNeighbourList i1
      (fun m => umAssign m i2 (st.tempNSize.getD i1 0))) i2
      (fun m => umAssign m i1 (st.tempNSize.getD i2 0)) ∧
    (fillEdge st e).incomingEdges.length = st.incomingEdges.length := by
  unfold fillEdge
  simp [umIndex_of_find _ _ _ h1, umIndex_of_find _ _ _ h2, length_modifyAt]

/-- The loop at lines 230-241 fills the array `N[a]` of every node `a` with the neighbours
that the edges give to `a`, in the order of the traversal, and enters each of them in
`idxInNeighbourList[a]` with its position. -/
theorem fillEdge_fold (ni : List (String × Nat)) (V : Nat) (l : List (String × String))
    (hl : ∀ e ∈ l, ∃ i1 i2, umFind ni e.1 = some i1 ∧ umFind ni e.2 = some i2 ∧ i1 ≠ i2 ∧
      i1 < V ∧ i2 < V)
    (hpw : (l.map (endpoints ni)).Pairwise (fun p q => p ≠ q ∧ p ≠ (q.2, q.1)))
    (N0 : List (List Nat)) (hN0 : N0.length = V)
    (hrows : ∀ a < V, N0[a]? =
      some (List.replicate (neighboursIn (l.map (endpoints ni)) a).length 0))
    (inc0 : List (List (Nat × Nat))) :
    (l.foldl fillEdge ⟨ni, N0, List.replicate V 0, List.replicate V [], inc0⟩).nodeIndices
      = ni ∧
    (l.foldl fillEdge ⟨ni, N0, List.replicate V 0, List.replicate V [], inc0⟩).N.length = V ∧
    (l.foldl fillEdge
      ⟨ni, N0, List.replicate V 0, List.replicate V [], inc0⟩).idxInNeighbourList.length = V ∧
    ∀ a < V,
      (l.foldl fillEdge ⟨ni, N0, List.replicate V 0, List.replicate V [], inc0⟩).N[a]? =
        some (neighboursIn (l.map (endpoints ni)) a) ∧
      (l.foldl fillEdge
        ⟨ni, N0, List.replicate V 0, List.replicate V [], inc0⟩).idxInNeighbourList[a]? =
        some ((neighboursIn (l.map (endpoints ni)) a).zip
          (List.range (neighboursIn (l.map (endpoints ni)) a).length)) := by
  have := foldl_inv_split fillEdge
    (fun pre st => st.nodeIndices = ni ∧ st.N.length = V ∧ st.tempNSize.length = V ∧
      st.idxInNeighbourList.length = V ∧ ∃ post, l = pre ++ post ∧ ∀ a < V,
        st.tempNSize[a]? = some (neighboursIn (pre.map (endpoints ni)) a).length ∧
        st.N[a]? = some (neighboursIn (pre.map (endpoints ni)) a ++
          List.replicate (neighboursIn (post.map (endpoints ni)) a).length 0) ∧
        st.idxInNeighbourList[a]? = some ((neighboursIn (pre.map (endpoints ni)) a).zip
          (List.range (neighboursIn (pre.map (endpoints ni)) a).length)))
    l ⟨ni, N0, List.replicate V 0, List.replicate V [], inc0⟩
    ⟨rfl, hN0, by simp, by simp, l, rfl, by
      intro a ha
      refine ⟨by simp [neighboursIn, List.getElem?_replicate, ha], ?_,
        by simp [neighboursIn, List.getElem?_replicate, ha]⟩
      simp only [List.map_nil, neighboursIn, List.filterMap_nil, List.nil_append]
      exact hrows a ha⟩ ?_
  · obtain ⟨h1, h2, _, h4, post, hpost, hall⟩ := this
    have hp : post = [] := by
      have := congrArg List.length hpost
      simp only [List.length_append] at this
      exact List.length_eq_zero.mp (by omega)
    subst hp
    refine ⟨h1, h2, h4, ?_⟩
    intro a ha
    obtain ⟨_, hN, hI⟩ := hall a ha
    simp only [List.map_nil, neighboursIn, List.filterMap_nil, List.length_nil,
      List.replicate_zero, List.append_nil] at hN
    exact ⟨hN, hI⟩
  · rintro pre e post st hsplit ⟨hni, hNlen, hTlen, hIlen, post', hpost', hall⟩
    have hpe : post' = e :: post := by
      rw [hsplit] at hpost'
      exact (List.append_cancel_left hpost').symm
    subst hpe
    have he : e ∈ l := by rw [hsplit]; simp
    obtain ⟨i1, i2, h1, h2, hne, hi1, hi2⟩ := hl e he
    have hend := endpoints_eq ni e i1 i2 h1 h2
    obtain ⟨c1, c2, c3, c4, _⟩ := fillEdge_of_find st e i1 i2 (by rw [hni]; exact h1)
      (by rw [hni]; exact h2)
    -- the edge is new for both of its endpoints
    have hfresh : ∀ q ∈ pre.map (endpoints ni), q ≠ (i1, i2) ∧ q ≠ (i2, i1) := by
      intro q hq
      rw [hsplit, List.map_append, List.map_cons, hend, List.pairwise_append] at hpw
      exact hpw.2.2 q hq (i1, i2) (List.mem_cons_self _ _)
    have hnot1 : i2 ∉ neighboursIn (pre.map (endpoints ni)) i1 := by
      intro h
      rcases (mem_neighboursIn _ _ _).mp h with hq | hq
      · exact (hfresh _ hq).1 rfl
      · exact (hfresh _ hq).2 rfl
    have hnot2 : i1 ∉ neighboursIn (pre.map (endpoints ni)) i2 := by
      intro h
      rcases (mem_neighboursIn _ _ _).mp h with hq | hq
      · exact (hfresh _ hq).2 rfl
      · exact (hfresh _ hq).1 rfl
    have ht1 : st.tempNSize.getD i1 0 =
        (neighboursIn (pre.map (endpoints ni)) i1).length := by
      rw [List.getD_eq_getElem?_getD, (hall i1 hi1).1]; rfl
    have ht2 : st.tempNSize.getD i2 0 =
        (neighboursIn (pre.map (endpoints ni)) i2).length := by
      rw [List.getD_eq_getElem?_getD, (hall i2 hi2).1]; rfl
    refine ⟨by rw [c1, hni], by rw [c2, length_modifyAt, length_modifyAt, hNlen],
      by rw [c3, length_modifyAt, length_modifyAt, hTlen],
      by rw [c4, length_modifyAt, length_modifyAt, hIlen], post, by rw [hsplit]; simp, ?_⟩
    intro a ha
    obtain ⟨hT, hN, hI⟩ := hall a ha
    rw [c2, c3, c4, getElem?_modifyAt_two _ _ _ _ _ _ hne,
      getElem?_modifyAt_two _ _ _ _ _ _ hne, getElem?_modifyAt_two _ _ _ _ _ _ hne,
      hT, hN, hI, List.map_append, List.map_singleton, neighboursIn_snoc, hend]
    have hcons : neighboursIn ((e :: post).map (endpoints ni)) a =
        (match partner a (i1, i2) with | some b => [b] | none => []) ++
          neighboursIn (post.map (endpoints ni)) a := by
      rw [List.map_cons, hend]
      unfold neighboursIn
      cases h : partner a (i1, i2) <;> simp [List.filterMap_cons, h]
    rw [hcons]
    by_cases ha1 : a = i1
    · subst ha1
      simp only [partner_fst, if_true, Option.map_some', List.length_append,
        List.length_singleton, Option.some.injEq, ht1]
      refine ⟨trivial, ?_, ?_⟩
      · rw [Nat.add_comm 1 _, set_append_replicate]
      · rw [umAssign_of_not_mem _ _ _ (by rw [map_fst_zip_range]; exact hnot1),
          zip_range_snoc]
    · by_cases ha2 : a = i2
      · subst ha2
        simp only [partner_snd _ _ hne, ha1, if_false, if_true, Option.map_some',
          List.length_append, List.length_singleton, Option.some.injEq, ht2]
        refine ⟨trivial, ?_, ?_⟩
        · rw [Nat.add_comm 1 _, set_append_replicate]
        · rw [umAssign_of_not_mem _ _ _ (by rw [map_fst_zip_range]; exact hnot2),
            zip_range_snoc]
      · simp [partner_other _ _ _ ha1 ha2, ha1, ha2]

theorem getD_of_getElem? {α : Type} (t : List α) (a : Nat) (d x : α) (h : t[a]? = some x) :
    t.getD a d = x := by
  rw [List.getD_eq_getElem?_getD, h]; rfl

theorem getD_of_length_le {α : Type} (t : List α) (a : Nat) (d : α) (h : t.length ≤ a) :
    t.getD a d = d := by
  rw [List.getD_eq_getElem?_getD, List.getElem?_eq_none h]; rfl

/-- A pair of two different names is in `uniqueEdges` exactly when the first is the smaller
one and the input holds the two names as a pair, in either order. -/
theorem mem_uniqueEdges (pairs : List (String × String)) (x y : String) :
    (x, y) ∈ (pairs.foldl scanEdge ⟨[], [], 0⟩).uniqueEdges ↔
      strcmp x.data y.data < 0 ∧ ((x, y) ∈ pairs ∨ (y, x) ∈ pairs) := by
  rw [(scanEdge_fold pairs).2.1]
  constructor
  · rintro ⟨uv, huv, hc⟩
    obtain ⟨hlt, h | h⟩ := (canonicalEdge_eq_some _ _ _).mp hc
    · refine ⟨hlt, Or.inl ?_⟩
      rw [h]; exact huv
    · refine ⟨hlt, Or.inr ?_⟩
      have : (y, x) = uv := by
        have h1 := congrArg Prod.fst h
        have h2 := congrArg Prod.snd h
        simp only at h1 h2
        rw [h1, h2]
      rw [this]; exact huv
  · rintro ⟨hlt, h | h⟩
    · exact ⟨(x, y), h, (canonicalEdge_eq_some _ _ _).mpr ⟨hlt, Or.inl rfl⟩⟩
    · exact ⟨(y, x), h, (canonicalEdge_eq_some _ _ _).mpr ⟨hlt, Or.inr rfl⟩⟩

theorem uniqueEdges_lt (pairs : List (String × String)) (e : String × String)
    (he : e ∈ (pairs.foldl scanEdge ⟨[], [], 0⟩).uniqueEdges) :
    strcmp e.1.data e.2.data < 0 :=
  ((mem_uniqueEdges pairs e.1 e.2).mp he).1

/-- The number of edges kept by the reading loop is the number of unordered pairs of
different names in the input. -/
theorem uniqueEdges_length (pairs : List (String × String)) :
    (pairs.foldl scanEdge ⟨[], [], 0⟩).uniqueEdges.length = (unorderedPairs pairs).card := by
  have hnd := (scanEdge_fold pairs).1
  have himg : unorderedPairs pairs =
      (pairs.foldl scanEdge ⟨[], [], 0⟩).uniqueEdges.toFinset.image Sym2.mk := by
    ext s
    simp only [unorderedPairs, List.mem_toFinset, List.mem_map, List.mem_filter,
      Finset.mem_image, decide_eq_true_eq]
    constructor
    · rintro ⟨uv, ⟨huv, hne⟩, rfl⟩
      rcases strcmp_lt_of_ne uv.1 uv.2 hne with hlt | hlt
      · exact ⟨(uv.1, uv.2), (mem_uniqueEdges pairs _ _).mpr ⟨hlt, Or.inl huv⟩, rfl⟩
      · exact ⟨(uv.2, uv.1), (mem_uniqueEdges pairs _ _).mpr ⟨hlt, Or.inr huv⟩,
          Sym2.eq_swap⟩
    · rintro ⟨e, he, rfl⟩
      obtain ⟨hlt, h | h⟩ := (mem_uniqueEdges pairs e.1 e.2).mp he
      · exact ⟨e, ⟨h, strcmp_lt_ne _ _ hlt⟩, rfl⟩
      · exact ⟨(e.2, e.1), ⟨h, fun h' => strcmp_lt_ne _ _ hlt h'.symm⟩, Sym2.eq_swap⟩
  rw [himg, Finset.card_image_of_injOn, List.toFinset_card_of_nodup hnd]
  intro e he e' he' hs
  simp only [Finset.mem_coe, List.mem_toFinset] at he he'
  rcases Sym2.mk_eq_mk_iff.mp hs with h | h
  · exact h
  · exfalso
    have h1 := uniqueEdges_lt pairs e he
    have h2 := uniqueEdges_lt pairs e' he'
    rw [h] at h1
    simp only [Prod.fst_swap, Prod.snd_swap] at h1
    have := strcmp_antisymm e'.1.data e'.2.data
    omega

/-- The edges traversed by the second and third loop, seen from the node indices: both
endpoints have an index, the two indices differ and are below `V`, and no two edges of the
traversal join the same two nodes. -/
theorem iterate_edges (o : EdgeOrder) (pairs : List (String × String)) :
    (∀ e ∈ o.iterate (pairs.foldl scanEdge ⟨[], [], 0⟩).uniqueEdges,
      ∃ i1 i2, umFind (pairs.foldl scanEdge ⟨[], [], 0⟩).nodeIndices e.1 = some i1 ∧
        umFind (pairs.foldl scanEdge ⟨[], [], 0⟩).nodeIndices e.2 = some i2 ∧ i1 ≠ i2 ∧
        i1 < (pairs.foldl scanEdge ⟨[], [], 0⟩).V ∧
        i2 < (pairs.foldl scanEdge ⟨[], [], 0⟩).V) ∧
    ((o.iterate (pairs.foldl scanEdge ⟨[], [], 0⟩).uniqueEdges).map
      (endpoints (pairs.foldl scanEdge ⟨[], [], 0⟩).nodeIndices)).Pairwise
        (fun p q => p ≠ q ∧ p ≠ (q.2, q.1)) := by
  obtain ⟨hnd, _, hd, hV, hkeys⟩ := scanEdge_fold pairs
  have hlt := uniqueEdges_lt pairs
  have hperm := o.perm (pairs.foldl scanEdge ⟨[], [], 0⟩).uniqueEdges
  generalize pairs.foldl scanEdge ⟨[], [], 0⟩ = scan at hnd hd hV hkeys hlt hperm
  have hfind : ∀ e ∈ scan.uniqueEdges, ∃ i1 i2, umFind scan.nodeIndices e.1 = some i1 ∧
      umFind scan.nodeIndices e.2 = some i2 ∧ i1 ≠ i2 ∧ i1 < scan.V ∧ i2 < scan.V := by
    intro e he
    obtain ⟨i1, h1⟩ := (umFind_isSome_iff _ _).mpr ((hkeys e.1).mpr ⟨e, he, Or.inl rfl⟩)
    obtain ⟨i2, h2⟩ := (umFind_isSome_iff _ _).mpr ((hkeys e.2).mpr ⟨e, he, Or.inr rfl⟩)
    refine ⟨i1, i2, h1, h2, ?_, ?_, ?_⟩
    · rintro rfl
      exact strcmp_lt_ne _ _ (hlt e he) (denseCatalog_inj _ hd _ _ _ h1 h2)
    · rw [hV]; exact denseCatalog_lt _ hd _ _ h1
    · rw [hV]; exact denseCatalog_lt _ hd _ _ h2
  constructor
  · intro e he
    exact hfind e (hperm.mem_iff.mp he)
  · rw [List.pairwise_map]
    apply List.Nodup.pairwise_of_forall_ne (hperm.nodup_iff.mpr hnd)
    intro e he e' he' hne
    have heU := hperm.mem_iff.mp he
    have heU' := hperm.mem_iff.mp he'
    obtain ⟨i1, i2, h1, h2, _, _, _⟩ := hfind e heU
    obtain ⟨j1, j2, g1, g2, _, _, _⟩ := hfind e' heU'
    rw [endpoints_eq _ e i1 i2 h1 h2, endpoints_eq _ e' j1 j2 g1 g2]
    constructor
    · intro heq
      have e1 : i1 = j1 := congrArg Prod.fst heq
      have e2 : i2 = j2 := congrArg Prod.snd heq
      subst e1 e2
      apply hne
      exact Prod.ext (denseCatalog_inj _ hd _ _ _ h1 g1) (denseCatalog_inj _ hd _ _ _ h2 g2)
    · intro heq
      have e1 : i1 = j2 := congrArg Prod.fst heq
      have e2 : i2 = j1 := congrArg Prod.snd heq
      subst e1 e2
      have a1 : e.1 = e'.2 := denseCatalog_inj _ hd _ _ _ h1 g2
      have a2 : e.2 = e'.1 := denseCatalog_inj _ hd _ _ _ h2 g1
      have l1 := hlt e heU
      have l2 := hlt e' heU'
      rw [a1, a2] at l1
      have := strcmp_antisymm e'.1.data e'.2.data
      omega

/-- The fields of the graph built by `readUndirectedNetwork`, in terms of the edge set and
the node indices of the reading loop. -/
theorem readUndirectedNetwork_fields (o : EdgeOrder) (pairs : List (String × String)) :
    (readUndirectedNetwork o pairs).V = (pairs.foldl scanEdge ⟨[], [], 0⟩).V ∧
    (readUndirectedNetwork o pairs).E =
      (pairs.foldl scanEdge ⟨[], [], 0⟩).uniqueEdges.length * 2 ∧
    (readUndirectedNetwork o pairs).nodeIndices =
      (pairs.foldl scanEdge ⟨[], [], 0⟩).nodeIndices ∧
    (readUndirectedNetwork o pairs).NSize.length = (pairs.foldl scanEdge ⟨[], [], 0⟩).V ∧
    (readUndirectedNetwork o pairs).N.length = (pairs.foldl scanEdge ⟨[], [], 0⟩).V ∧
    (readUndirectedNetwork o pairs).idxInNeighbourList.length =
      (pairs.foldl scanEdge ⟨[], [], 0⟩).V ∧
    ∀ a < (pairs.foldl scanEdge ⟨[], [], 0⟩).V,
      (readUndirectedNetwork o pairs).NSize[a]? = some (neighboursIn
        ((o.iterate (pairs.foldl scanEdge ⟨[], [], 0⟩).uniqueEdges).map
          (endpoints (pairs.foldl scanEdge ⟨[], [], 0⟩).nodeIndices)) a).length ∧
      (readUndirectedNetwork o pairs).N[a]? = some (neighboursIn
        ((o.iterate (pairs.foldl scanEdge ⟨[], [], 0⟩).uniqueEdges).map
          (endpoints (pairs.foldl scanEdge ⟨[], [], 0⟩).nodeIndices)) a) ∧
      (readUndirectedNetwork o pairs).idxInNeighbourList[a]? = some ((neighboursIn
        ((o.iterate (pairs.foldl scanEdge ⟨[], [], 0⟩).uniqueEdges).map
          (endpoints (pairs.foldl scanEdge ⟨[], [], 0⟩).nodeIndices)) a).zip
        (List.range (neighboursIn
          ((o.iterate (pairs.foldl scanEdge ⟨[], [], 0⟩).uniqueEdges).map
            (endpoints (pairs.foldl scanEdge ⟨[], [], 0⟩).nodeIndices)) a).length)) := by
  obtain ⟨hl, hpw⟩ := iterate_edges o pairs
  unfold readUndirectedNetwork
  simp only
  generalize pairs.foldl scanEdge ⟨[], [], 0⟩ = scan at hl hpw
  obtain ⟨d1, d2, _, d4⟩ := countEdge_fold scan.nodeIndices scan.V
    (o.iterate scan.uniqueEdges) hl
  rw [d1]
  obtain ⟨f1, f2, f3, f4⟩ := fillEdge_fold scan.nodeIndices scan.V
    (o.iterate scan.uniqueEdges) hl hpw
    (((o.iterate scan.uniqueEdges).foldl countEdge
      ⟨scan.nodeIndices, List.replicate scan.V "", List.replicate scan.V 0⟩).NSize.map
        (fun n => List.replicate n 0))
    (by rw [List.length_map, d2])
    (by
      intro a ha
      rw [List.getElem?_map, d4 a ha]
      rfl)
    (List.replicate scan.V [])
  exact ⟨trivial, trivial, f1, d2, f2, f3, fun a ha => ⟨d4 a ha, (f4 a ha).1, (f4 a ha).2⟩⟩

/-- The graph built by `readUndirectedNetwork` is the network of the pairs it has read, for
every iteration order of the edge set. -/
theorem readUndirectedNetwork_spec (o : EdgeOrder) (pairs : List (String × String)) :
    (readUndirectedNetwork o pairs).networkOf pairs := by
  obtain ⟨gV, gE, gni, gNS, gN, gI, grow⟩ := readUndirectedNetwork_fields o pairs
  obtain ⟨hnd, hmemU, hd, hV, hkeys⟩ := scanEdge_fold pairs
  obtain ⟨hl, hpw⟩ := iterate_edges o pairs
  have hlen := uniqueEdges_length pairs
  have hmemxy := mem_uniqueEdges pairs
  have hperm := o.perm (pairs.foldl scanEdge ⟨[], [], 0⟩).uniqueEdges
  generalize readUndirectedNetwork o pairs = G at gV gE gni gNS gN gI grow
  generalize pairs.foldl scanEdge ⟨[], [], 0⟩ = scan at *
  rw [← gV] at gNS gN gI grow hl hV
  rw [← gni] at hd hkeys hl hpw grow hV
  -- the neighbour list of every node
  have hrow : ∀ a, G.N.getD a [] = if a < G.V then
      neighboursIn ((o.iterate scan.uniqueEdges).map (endpoints G.nodeIndices)) a else [] := by
    intro a
    by_cases ha : a < G.V
    · rw [if_pos ha]; exact getD_of_getElem? _ _ _ _ (grow a ha).2.1
    · rw [if_neg ha]; exact getD_of_length_le _ _ _ (by omega)
  -- an edge of the traversal, seen from its indices
  have hpair : ∀ a b, (a, b) ∈ (o.iterate scan.uniqueEdges).map (endpoints G.nodeIndices) ↔
      ∃ e ∈ scan.uniqueEdges, umFind G.nodeIndices e.1 = some a ∧
        umFind G.nodeIndices e.2 = some b := by
    intro a b
    rw [List.mem_map]
    constructor
    · rintro ⟨e, he, hend⟩
      obtain ⟨i1, i2, h1, h2, _⟩ := hl e he
      rw [endpoints_eq _ e i1 i2 h1 h2] at hend
      have e1 : i1 = a := congrArg Prod.fst hend
      have e2 : i2 = b := congrArg Prod.snd hend
      subst e1 e2
      exact ⟨e, hperm.mem_iff.mp he, h1, h2⟩
    · rintro ⟨e, he, h1, h2⟩
      exact ⟨e, hperm.mem_iff.mpr he, endpoints_eq _ e a b h1 h2⟩
  have hmem : ∀ a b, b ∈ G.N.getD a [] ↔ a < G.V ∧
      ((∃ e ∈ scan.uniqueEdges, umFind G.nodeIndices e.1 = some a ∧
          umFind G.nodeIndices e.2 = some b) ∨
        (∃ e ∈ scan.uniqueEdges, umFind G.nodeIndices e.1 = some b ∧
          umFind G.nodeIndices e.2 = some a)) := by
    intro a b
    rw [hrow a]
    by_cases ha : a < G.V
    · rw [if_pos ha, mem_neighboursIn, hpair, hpair]
      simp [ha]
    · rw [if_neg ha]
      simp [ha]
  have hltV : ∀ x i, umFind G.nodeIndices x = some i → i < G.V := by
    intro x i h
    rw [hV]; exact denseCatalog_lt _ hd _ _ h
  have hne : ∀ e ∈ scan.uniqueEdges, e.1 ≠ e.2 := by
    intro e he
    exact strcmp_lt_ne _ _ ((hmemxy e.1 e.2).mp he).1
  refine ⟨⟨hd, hV⟩, ?_, ⟨gN, gNS, gI⟩, ?_, ?_, ?_, ?_, ?_, ?_, ?_, ?_⟩
  · intro x
    rw [hkeys x]
    constructor
    · rintro ⟨e, he, hx⟩
      obtain ⟨hlt, h | h⟩ := (hmemxy e.1 e.2).mp he
      · exact ⟨(e.1, e.2), h, strcmp_lt_ne _ _ hlt, hx⟩
      · exact ⟨(e.2, e.1), h, fun h' => strcmp_lt_ne _ _ hlt h'.symm, hx.symm⟩
    · rintro ⟨uv, huv, hne', hx⟩
      rcases strcmp_lt_of_ne uv.1 uv.2 hne' with hlt | hlt
      · exact ⟨(uv.1, uv.2), (hmemxy _ _).mpr ⟨hlt, Or.inl huv⟩, hx⟩
      · exact ⟨(uv.2, uv.1), (hmemxy _ _).mpr ⟨hlt, Or.inr huv⟩, hx.symm⟩
  · intro x y a b hx hy
    rw [hmem a b]
    constructor
    · rintro ⟨_, ⟨e, he, h1, h2⟩ | ⟨e, he, h1, h2⟩⟩
      · have e1 : e.1 = x := denseCatalog_inj _ hd _ _ _ h1 hx
        have e2 : e.2 = y := denseCatalog_inj _ hd _ _ _ h2 hy
        obtain ⟨hlt, hin⟩ := (hmemxy e.1 e.2).mp he
        rw [e1, e2] at hlt hin
        exact ⟨strcmp_lt_ne _ _ hlt, hin⟩
      · have e1 : e.1 = y := denseCatalog_inj _ hd _ _ _ h1 hy
        have e2 : e.2 = x := denseCatalog_inj _ hd _ _ _ h2 hx
        obtain ⟨hlt, hin⟩ := (hmemxy e.1 e.2).mp he
        rw [e1, e2] at hlt hin
        exact ⟨fun h => strcmp_lt_ne _ _ hlt h.symm, hin.symm⟩
    · rintro ⟨hxy, hin⟩
      refine ⟨hltV x a hx, ?_⟩
      rcases strcmp_lt_of_ne x y hxy with hlt | hlt
      · exact Or.inl ⟨(x, y), (hmemxy _ _).mpr ⟨hlt, hin⟩, hx, hy⟩
      · exact Or.inr ⟨(y, x), (hmemxy _ _).mpr ⟨hlt, hin.symm⟩, hy, hx⟩
  · intro a
    rw [hrow a]
    by_cases ha : a < G.V
    · rw [if_pos ha]
      apply neighboursIn_nodup _ _ _ hpw
      intro p hp
      obtain ⟨e, he, hend⟩ := List.mem_map.mp hp
      obtain ⟨i1, i2, h1, h2, hne12, _⟩ := hl e he
      rw [endpoints_eq _ e i1 i2 h1 h2] at hend
      rw [← hend]
      exact hne12
    · rw [if_neg ha]; exact List.nodup_nil
  · intro a b hb
    obtain ⟨ha, h | h⟩ := (hmem a b).mp hb
    · obtain ⟨e, _, _, h2⟩ := h
      exact ⟨ha, hltV _ _ h2⟩
    · obtain ⟨e, _, h1, _⟩ := h
      exact ⟨ha, hltV _ _ h1⟩
  · intro a ha
    obtain ⟨_, ⟨e, he, h1, h2⟩ | ⟨e, he, h1, h2⟩⟩ := (hmem a a).mp ha
    · exact hne e he (denseCatalog_inj _ hd _ _ _ h1 h2)
    · exact hne e he (denseCatalog_inj _ hd _ _ _ h1 h2)
  · intro a b hb
    obtain ⟨_, h⟩ := (hmem a b).mp hb
    have hbV : b < G.V := by
      rcases h with ⟨e, _, _, h2⟩ | ⟨e, _, h1, _⟩
      · exact hltV _ _ h2
      · exact hltV _ _ h1
    exact (hmem b a).mpr ⟨hbV, h.symm⟩
  · intro a ha
    rw [hrow a, if_pos ha]
    exact getD_of_getElem? _ _ _ _ (grow a ha).1
  · intro a
    rw [hrow a]
    by_cases ha : a < G.V
    · rw [if_pos ha]
      exact getD_of_getElem? _ _ _ _ (grow a ha).2.2
    · rw [if_neg ha]
      exact getD_of_length_le _ _ _ (by omega)
  · rw [gE, hlen]
    omega

/-- The node indices built by `readUndirectedNetwork` are those of a catalog. -/
theorem readUndirectedNetwork_nodesIndexed (o : EdgeOrder) (pairs : List (String × String)) :
    (readUndirectedNetwork o pairs).nodesIndexed :=
  (readUndirectedNetwork_spec o pairs).nodes_indexed

/-- The adjacency read by the enumerator from a graph built by `readUndirectedNetwork` is
symmetric. -/
theorem readUndirectedNetwork_symmetric (o : EdgeOrder) (pairs : List (String × String)) :
    (readUndirectedNetwork o pairs).toGraph.symmetric := by
  have h := readUndirectedNetwork_spec o pairs
  have hkeys : ∀ a b, (∃ p ∈ (readUndirectedNetwork o pairs).idxInNeighbourList.getD a [],
      p.1 = b) ↔ b ∈ (readUndirectedNetwork o pairs).N.getD a [] := by
    intro a b
    rw [h.idxInNeighbourList_eq a]
    constructor
    · rintro ⟨p, hp, rfl⟩
      have : p.1 ∈ (((readUndirectedNetwork o pairs).N.getD a []).zip
          (List.range ((readUndirectedNetwork o pairs).N.getD a []).length)).map Prod.fst :=
        List.mem_map.mpr ⟨p, hp, rfl⟩
      rwa [map_fst_zip_range] at this
    · intro hb
      have : b ∈ (((readUndirectedNetwork o pairs).N.getD a []).zip
          (List.range ((readUndirectedNetwork o pairs).N.getD a []).length)).map Prod.fst := by
        rwa [map_fst_zip_range]
      obtain ⟨p, hp, hpb⟩ := List.mem_map.mp this
      exact ⟨p, hp, hpb⟩
  intro a b hab
  obtain ⟨_, hex⟩ := hab
  have hb : b ∈ (readUndirectedNetwork o pairs).N.getD a [] := (hkeys a b).mp hex
  have hlt := h.neighbours_lt a b hb
  exact ⟨hlt.2, (hkeys b a).mpr (h.symmetric a b hb)⟩

/-- C26. For the graph built by `readUndirectedNetwork` from any sequence of pairs of
names, under every iteration order of the edge set: node `b` is in the neighbour list of
node `a` exactly when their names differ and the input holds the two names as a pair, in
either order; every node index below `V` belongs to a name; each neighbour list has no
repetition, holds `NSize` entries, does not contain its own node, holds node indices below
`V`, and is entered in `idxInNeighbourList` neighbour by neighbour with the positions;
adjacency is symmetric; and `E` is twice the number of unordered pairs of different names in
the input. -/
theorem C26_network_adjacency (o : EdgeOrder) (pairs : List (String × String)) :
    (∀ x y a b, umFind (readUndirectedNetwork o pairs).nodeIndices x = some a →
      umFind (readUndirectedNetwork o pairs).nodeIndices y = some b →
      (b ∈ (readUndirectedNetwork o pairs).N.getD a [] ↔
        x ≠ y ∧ ((x, y) ∈ pairs ∨ (y, x) ∈ pairs))) ∧
    (∀ a < (readUndirectedNetwork o pairs).V,
      ∃ x, umFind (readUndirectedNetwork o pairs).nodeIndices x = some a) ∧
    (∀ a, ((readUndirectedNetwork o pairs).N.getD a []).Nodup ∧
      a ∉ (readUndirectedNetwork o pairs).N.getD a [] ∧
      (readUndirectedNetwork o pairs).idxInNeighbourList.getD a [] =
        ((readUndirectedNetwork o pairs).N.getD a []).zip
          (List.range ((readUndirectedNetwork o pairs).N.getD a []).length) ∧
      ∀ b ∈ (readUndirectedNetwork o pairs).N.getD a [],
        a < (readUndirectedNetwork o pairs).V ∧ b < (readUndirectedNetwork o pairs).V ∧
        a ∈ (readUndirectedNetwork o pairs).N.getD b []) ∧
    (∀ a < (readUndirectedNetwork o pairs).V,
      (readUndirectedNetwork o pairs).NSize.getD a 0 =
        ((readUndirectedNetwork o pairs).N.getD a []).length) ∧
    (readUndirectedNetwork o pairs).E = 2 * (unorderedPairs pairs).card := by
  have h := readUndirectedNetwork_spec o pairs
  refine ⟨h.adjacent_iff, ?_, ?_, h.NSize_eq, h.E_eq⟩
  · intro a ha
    rw [h.nodes_indexed.2] at ha
    exact denseCatalog_surj _ h.nodes_indexed.1 a ha
  · intro a
    refine ⟨h.neighbours_nodup a, h.no_self_loop a, h.idxInNeighbourList_eq a, ?_⟩
    intro b hb
    exact ⟨(h.neighbours_lt a b hb).1, (h.neighbours_lt a b hb).2, h.symmetric a b hb⟩

/-- C26 on `messyPairs`, read with the edge set iterated in reverse order: the node `A`
(index 0) has the neighbours `C` (index 2) and `B` (index 1), and `E` is 6. -/
theorem C26_witness :
    (2 ∈ (readUndirectedNetwork EdgeOrder.reversed messyPairs).N.getD 0 [] ↔
      "A" ≠ "C" ∧ (("A", "C") ∈ messyPairs ∨ ("C", "A") ∈ messyPairs)) ∧
    (readUndirectedNetwork EdgeOrder.reversed messyPairs).E =
      2 * (unorderedPairs messyPairs).card ∧
    (readUndirectedNetwork EdgeOrder.reversed messyPairs).nodeIndices =
      [("A", 0), ("B", 1), ("C", 2)] ∧
    (readUndirectedNetwork EdgeOrder.reversed messyPairs).N = [[2, 1], [2, 0], [0, 1]] ∧
    (readUndirectedNetwork EdgeOrder.reversed messyPairs).E = 6 :=
  ⟨(C26_network_adjacency EdgeOrder.reversed messyPairs).1 "A" "C" 0 2 (by decide) (by decide),
    (C26_network_adjacency EdgeOrder.reversed messyPairs).2.2.2.2, by decide, by decide,
    by decide⟩

/-! ## The scenario of the specification, read from its two files -/

/-- On the network `A B`, `B C`, `A C` and the six alteration rows of the scenario, the two
readers build the global state `triangleGlobals`. -/
theorem scenario_read :
    (readAlterationProfiles triangleNetwork scenarioRows).map (toGlobals triangleNetwork) =
      some triangleGlobals := by
  have hD : readAlterationProfiles triangleNetwork scenarioRows =
      some ⟨⟨["sample1", "sample2", "sample3"], [("sample1", 0), ("sample2", 1), ("sample3", 2)]⟩,
        ⟨["A", "B", "C"], [("A", 0), ("B", 1), ("C", 2)]⟩, ⟨["MUT"], [("MUT", 0)]⟩,
        [[(0, 1), (2, 1)], [(0, 1), (1, 1)], [(1, 1), (2, 1)]]⟩ := by rfl
  have hN : triangleNetwork.idxInNeighbourList =
      [[(1, 0), (2, 1)], [(0, 0), (2, 1)], [(1, 0), (0, 1)]] := by decide
  have hV : triangleNetwork.V = 3 := by decide
  rw [hD, Option.map_some']
  congr 1
  unfold toGlobals triangleGlobals FullGraph.toGraph
  rw [hN, hV]
  congr 1
  · congr 1
    funext j
    rcases j with _ | _ | _ | j <;> simp
  · funext j i
    rcases j with _ | _ | _ | j
    · rcases i with _ | _ | _ | i <;> simp [tableEntry, umFind]
    · rcases i with _ | _ | _ | i <;> simp [tableEntry, umFind]
    · rcases i with _ | _ | _ | i <;> simp [tableEntry, umFind]
    · simp [tableEntry, umFind]


/-! ## The stale cells of the table of the enumerator -/

/-- The run reads the stale cells only through the thresholded table. -/
theorem seedLevel_congr_stale (g : Globals) (u : Nat → Int) (minPatientSupport : Int)
    (h : ∀ j c, colorFlag { g with staleCells := u } minPatientSupport j c =
      colorFlag g minPatientSupport j c) :
    seedLevel { g with staleCells := u } minPatientSupport = seedLevel g minPatientSupport := by
  unfold seedLevel seedTuples
  simp only [h]
  rfl

/-- On the triangle scenario with threshold 1 the run is the same whatever the stale cells
hold, as long as `color_count[0][1]` does not start below zero. -/
theorem triangle_scenario_stale (u : Nat → Int) (hu : 0 ≤ u 1) (o : IterOrder) (fuel : Nat) :
    solveMaxNetworkSize o { triangleGlobals with staleCells := u } 1 fuel =
      solveMaxNetworkSize o triangleGlobals 1 fuel := by
  have hcc : ∀ j c, color_count { triangleGlobals with staleCells := u } j c ≥ 1 ↔
      color_count triangleGlobals j c ≥ 1 := by
    intro j c
    by_cases hj : j = 0
    · subst hj
      by_cases hc : c = 1
      · subst hc
        have h1 : color_count { triangleGlobals with staleCells := u } 0 1 = u 1 + 2 := by
          have hs : support { triangleGlobals with staleCells := u } 0 1 = 2 := by
            show support triangleGlobals 0 1 = 2
            decide
          have key := color_count_eq { triangleGlobals with staleCells := u } 0 1 (by decide)
            (show 1 ≤ triangleGlobals.numAlterations by decide)
          rw [key, hs]
          rfl
        have h2 : color_count triangleGlobals 0 1 = 2 := by decide
        rw [h1, h2]
        omega
      · have h1 : c = 0 ∨ triangleGlobals.numAlterations < c := by
          have : triangleGlobals.numAlterations = 1 := by decide
          omega
        have e1 : color_count { triangleGlobals with staleCells := u } 0 c = 0 := if_pos h1
        have e2 : color_count triangleGlobals 0 c = 0 := if_pos h1
        rw [e1, e2]
    · have : color_count { triangleGlobals with staleCells := u } j c =
          color_count triangleGlobals j c := by
        unfold color_count
        simp only [hj, if_false]
        rfl
      rw [this]
  have hflag : ∀ j c, colorFlag { triangleGlobals with staleCells := u } 1 j c =
      colorFlag triangleGlobals 1 j c := by
    intro j c
    unfold colorFlag
    simp only [hcc]
    rfl
  unfold solveMaxNetworkSize enumerate
  rw [seedLevel_congr_stale triangleGlobals u 1 hflag]

/-- C3, which the code does not meet. On the two-colour input (edge `A - B`, one sample with
`MUT` and `AMP` on `A` and `MUT` on `B`) with threshold 1, in a run that finds a negative
value in the cell `color_count[0][2]` the initialiser leaves out: genes `0 < 1` are
adjacent, `support(0, 2)` and `support(1, 1)` are 1 and the one sample has color 2 on gene 0
and color 1 on gene 1, yet `solveMaxNetworkSize` stores the level 0 that holds
`{(0,1),(1,1)}` alone, so `{(0,2),(1,1)}` is not in it: the count of the cell is
`-1549422008 + 1`, below the threshold. -/
theorem C3_stale_cell_drops_seed :
    solveMaxNetworkSize IterOrder.insertion twoColorStale 1 3 =
      some [⟨[({(1, 1), (0, 1)}, 0)], [(0, ⟨1, 1, 1, [1]⟩)]⟩] ∧
    (0 < 1 ∧ twoColorStale.G.adjacent 0 1 ∧
      (support twoColorStale 0 2 : Int) ≥ 1 ∧ (support twoColorStale 1 1 : Int) ≥ 1 ∧
      (((List.range twoColorStale.numSamples).countP (fun m =>
        (twoColorStale.geneAlterations 0 m).testBit (2 - 1) &&
        (twoColorStale.geneAlterations 1 m).testBit (1 - 1)) : Nat) : Int) ≥ 1) ∧
    ({(0, 2), (1, 1)} : colored_node_set) ∉
      (⟨[({(1, 1), (0, 1)}, 0)], [(0, ⟨1, 1, 1, [1]⟩)]⟩ : Level).keys ∧
    color_count twoColorStale 0 2 = -1549422007 ∧
    colorFlag twoColorStale 1 0 2 = 0 :=
  ⟨by decide, ⟨by decide, ⟨by decide, (1, 0), by decide, rfl⟩, by decide, by decide,
    by decide⟩, by decide, by decide, by decide⟩

/-- C7, which the code does not meet. On the path `A - B - C` with one sample carrying
`AMP` on `A` and `MUT` on `B` and `C`, threshold 1, in a run that finds a negative value in
the cell `color_count[0][2]` the initialiser leaves out, `solveMaxNetworkSize` stores one
level, holding `{(1,1),(2,1)}` alone. The two-node set `{(0,2),(1,1)}` and the three-node
set `{(0,2),(1,1),(2,1)}` have colors of the catalog, pairwise distinct genes, connected
genes and joint support 1, yet the first is not stored at level 0 and the second is not
stored at level 1, which does not exist. -/
theorem C7_stale_cell_breaks_exhaustiveness :
    solveMaxNetworkSize IterOrder.insertion pathStale 1 3 =
      some [⟨[({(2, 1), (1, 1)}, 0)], [(0, ⟨1, 1, 1, [1]⟩)]⟩] ∧
    pathStale.G.symmetric ∧
    (validColors pathStale {(0, 2), (1, 1)} ∧
      ({(0, 2), (1, 1)} : colored_node_set).card = 0 + 2 ∧
      distinctGenes {(0, 2), (1, 1)} ∧
      pathStale.G.connectedOn (genesOf {(0, 2), (1, 1)}) ∧
      (jointSupport pathStale {(0, 2), (1, 1)} : Int) ≥ 1 ∧
      ¬ ∃ L, [(⟨[({(2, 1), (1, 1)}, 0)], [(0, ⟨1, 1, 1, [1]⟩)]⟩ : Level)][0]? = some L ∧
        ({(0, 2), (1, 1)} : colored_node_set) ∈ L.keys) ∧
    (validColors pathStale {(0, 2), (1, 1), (2, 1)} ∧
      ({(0, 2), (1, 1), (2, 1)} : colored_node_set).card = 1 + 2 ∧
      distinctGenes {(0, 2), (1, 1), (2, 1)} ∧
      pathStale.G.connectedOn (genesOf {(0, 2), (1, 1), (2, 1)}) ∧
      (jointSupport pathStale {(0, 2), (1, 1), (2, 1)} : Int) ≥ 1 ∧
      ¬ ∃ L, [(⟨[({(2, 1), (1, 1)}, 0)], [(0, ⟨1, 1, 1, [1]⟩)]⟩ : Level)][1]? = some L ∧
        ({(0, 2), (1, 1), (2, 1)} : colored_node_set) ∈ L.keys) := by
  have e01 : pathStale.G.edge 0 1 := Or.inl ⟨by decide, (1, 0), by decide, rfl⟩
  have h2 : pathStale.G.connectedOn (genesOf {(0, 2), (1, 1)}) := by
    have hg : genesOf {(0, 2), (1, 1)} = (insert 0 (insert 1 ∅) : Finset Nat) := by decide
    rw [hg]
    exact connectedOn_pair pathStale.G 1 0 e01.symm
  have h3 : pathStale.G.connectedOn (genesOf {(0, 2), (1, 1), (2, 1)}) := by
    have hg : genesOf {(0, 2), (1, 1), (2, 1)} =
        genesOf ({(1, 1), (0, 1)} ∪ {(2, 1), (1, 1)}) := by decide
    rw [hg]
    exact pathGlobals_connected
  refine ⟨by decide, pathGlobals_symmetric, ⟨by decide, by decide, by decide, h2, by decide, ?_⟩,
    ⟨by decide, by decide, by decide, h3, by decide, ?_⟩⟩
  · rintro ⟨L, hL, hS⟩
    simp only [List.getElem?_cons_zero, Option.some.injEq] at hL
    subst hL
    exact absurd hS (by decide)
  · rintro ⟨L, hL, _⟩
    exact Option.noConfusion hL

/-- C8, which the code does not meet. On the path `A - B - C` with one sample carrying
`AMP` on `A` and `MUT` on `B` and `C`, threshold 1, in a run that finds a negative value in
the cell `color_count[0][2]` the initialiser leaves out, `solveMaxNetworkSize` stops with
level 0 as its last stored level (`K = 0`, the two-node set `{(1,1),(2,1)}`), although the
set `{(0,2),(1,1),(2,1)}` of `3 > K + 2` nodes has pairwise distinct genes, connected genes
and joint support 1: the level written out does not hold the largest supported
subnetwork. -/
theorem C8_stale_cell_hides_larger_subnetwork :
    solveMaxNetworkSize IterOrder.insertion pathStale 1 3 =
      some [⟨[({(2, 1), (1, 1)}, 0)], [(0, ⟨1, 1, 1, [1]⟩)]⟩] ∧
    [(⟨[({(2, 1), (1, 1)}, 0)], [(0, ⟨1, 1, 1, [1]⟩)]⟩ : Level)].length - 1 + 2 <
      ({(0, 2), (1, 1), (2, 1)} : colored_node_set).card ∧
    distinctGenes {(0, 2), (1, 1), (2, 1)} ∧
    validColors pathStale {(0, 2), (1, 1), (2, 1)} ∧
    pathStale.G.symmetric ∧
    pathStale.G.connectedOn (genesOf {(0, 2), (1, 1), (2, 1)}) ∧
    (jointSupport pathStale {(0, 2), (1, 1), (2, 1)} : Int) ≥ 1 ∧
    color_count pathStale 0 2 = -855101449 := by
  have h3 : pathStale.G.connectedOn (genesOf {(0, 2), (1, 1), (2, 1)}) := by
    have hg : genesOf {(0, 2), (1, 1), (2, 1)} =
        genesOf ({(1, 1), (0, 1)} ∪ {(2, 1), (1, 1)}) := by decide
    rw [hg]
    exact pathGlobals_connected
  exact ⟨by decide, by decide, by decide, by decide, pathGlobals_symmetric, h3, by decide,
    by decide⟩

/-- C23, which the code does not meet for gene 0. On the two-colour input (one sample with
mask 3 on gene 0, two alteration types), in a run that finds `32766` and `-1549422008` in
the cells `color_count[0][1]` and `color_count[0][2]` the initialiser leaves out, the
entries counted by the seeding phase are `32767` and `-1549422007` where both supports are
1, and their sum is `-1549389240` where the masks of gene 0 have 2 set bits. On the path
input with stale cells no sample has two alteration types on gene 0 and one sample has a
nonzero mask, yet the entries of gene 0 sum to `-855068684`. -/
theorem C23_stale_cells_enter_the_sum :
    (twoColorStale.numAlterations ≤ 32 ∧
      ∀ i < twoColorStale.numSamples,
        twoColorStale.geneAlterations 0 i < 2 ^ twoColorStale.numAlterations) ∧
    (color_count twoColorStale 0 1 = 32767 ∧ support twoColorStale 0 1 = 1) ∧
    (color_count twoColorStale 0 2 = -1549422007 ∧ support twoColorStale 0 2 = 1) ∧
    colorCountSum twoColorStale 0 = -1549389240 ∧
    (((List.range twoColorStale.numSamples).map
      (fun i => setBitCount (twoColorStale.geneAlterations 0 i))).sum : Nat) = 2 ∧
    (∀ i < pathStale.numSamples, setBitCount (pathStale.geneAlterations 0 i) ≤ 1) ∧
    colorCountSum pathStale 0 = -855068684 ∧
    ((List.range pathStale.numSamples).countP
      (fun i => pathStale.geneAlterations 0 i != 0) : Nat) = 1 := by
  decide

end Motif
